import Mathlib

/-!
# goastviewer: the display tree, its builder and its list utilities

A verification development for `parser.go` and `right_panel.go` of
`knsh14/goastviewer`: the functions that turn a Go syntax tree into a tree of
display nodes (`ParseTxtar`, `astToNodes`, `declToNode`, `funcDeclToNode`,
`stmtToNode`, `exprToNode`, `exprToString`, ...), and the functions that show
such a tree as a list (`FlattenNodes`, `buildListItems`,
`toggleNodeCollapse`).

## How the Go data is represented

* A value of Go type `*ASTNode` is either the nil pointer or points to a struct
  with the four fields `Label`, `Children`, `IndentLevel`, `Collapsed`.  The
  type `ASTNode` below has one constructor for each of the two possibilities,
  and `Children : List ASTNode` is the Go slice `[]*ASTNode` (entries may be
  nil, as in Go).
* Every node of a forest is allocated once and is referenced from exactly one
  `Children` slice (or from the root slice), so the forest is a tree and a
  pointer into it is identified with the address of the node it points to: the
  index of a root followed by the child indices that lead to the node (`Ptr`).
  Reading a field through a pointer is `load`, writing one is `store`.
* Dereferencing a nil pointer makes the Go program panic.  Functions that can
  do so return `Option`, and `none` is the panic.
* Go `int` is `Int`: indent levels and list indices stay far below `2^63`.
-/

namespace GoAstViewer

/-! ## parser.go: the display node -/

/-- A value of Go type `*ASTNode`: nil, or a pointer to a node struct. -/
inductive ASTNode where
  | nil : ASTNode
  | mk (Label : String) (Children : List ASTNode) (IndentLevel : Int) (Collapsed : Bool) : ASTNode
deriving Repr, Inhabited

mutual
/-- Equality of two nodes is decidable. -/
def ASTNode.decEq : (a b : ASTNode) → Decidable (a = b)
  | .nil, .nil => isTrue rfl
  | .nil, .mk _ _ _ _ => isFalse (fun h => ASTNode.noConfusion h)
  | .mk _ _ _ _, .nil => isFalse (fun h => ASTNode.noConfusion h)
  | .mk l cs i c, .mk l2 cs2 i2 c2 =>
    if h1 : l = l2 then
      if h2 : i = i2 then
        if h3 : c = c2 then
          match ASTNode.decEqList cs cs2 with
          | isTrue h4 => isTrue (by rw [h1, h2, h3, h4])
          | isFalse h4 => isFalse (fun h => h4 (by injection h))
        else isFalse (fun h => h3 (by injection h))
      else isFalse (fun h => h2 (by injection h))
    else isFalse (fun h => h1 (by injection h))
/-- Equality of two slices of nodes is decidable. -/
def ASTNode.decEqList : (a b : List ASTNode) → Decidable (a = b)
  | [], [] => isTrue rfl
  | [], _ :: _ => isFalse (fun h => List.noConfusion h)
  | _ :: _, [] => isFalse (fun h => List.noConfusion h)
  | a :: as, b :: bs =>
    match ASTNode.decEq a b with
    | isTrue h1 =>
      match ASTNode.decEqList as bs with
      | isTrue h2 => isTrue (by rw [h1, h2])
      | isFalse h2 => isFalse (fun h => h2 (by injection h))
    | isFalse h1 => isFalse (fun h => h1 (by injection h))
end

instance : DecidableEq ASTNode := ASTNode.decEq

/-- The address of a node inside a forest: root index, then child indices. -/
abbrev Ptr := List Nat

/-- Field `Label` (the zero value for nil, which the code never reads). -/
def ASTNode.Label : ASTNode → String
  | .nil => ""
  | .mk l _ _ _ => l

/-- Field `Children`. -/
def ASTNode.Children : ASTNode → List ASTNode
  | .nil => []
  | .mk _ cs _ _ => cs

/-- Field `IndentLevel`. -/
def ASTNode.IndentLevel : ASTNode → Int
  | .nil => 0
  | .mk _ _ i _ => i

/-- Field `Collapsed`. -/
def ASTNode.Collapsed : ASTNode → Bool
  | .nil => false
  | .mk _ _ _ c => c

/-- The assignment `node.Collapsed = b` on the pointee. -/
def ASTNode.setCollapsed (b : Bool) : ASTNode → ASTNode
  | .nil => .nil
  | .mk l cs i _ => .mk l cs i b

/-- The pointee with its `Children` slice replaced. -/
def ASTNode.setChildren (cs : List ASTNode) : ASTNode → ASTNode
  | .nil => .nil
  | .mk l _ i c => .mk l cs i c

/-- The statement `node.Collapsed = !node.Collapsed` on the pointee. -/
def ASTNode.negateCollapsed (n : ASTNode) : ASTNode := n.setCollapsed (!n.Collapsed)

/-- The node a pointer points to: `load forest p` is `*p` in the forest.  An
address that leads nowhere loads nil. -/
def load : List ASTNode → Ptr → ASTNode
  | _, [] => .nil
  | ns, [k] => ns.getD k .nil
  | ns, k :: q :: qs => load (ns.getD k .nil).Children (q :: qs)

/-- A write through a pointer: the forest in which the node at address `p` has
been replaced by `g` of it, everything else being as before. -/
def store (g : ASTNode → ASTNode) : List ASTNode → Ptr → List ASTNode
  | ns, [] => ns
  | ns, [k] => ns.modify g k
  | ns, k :: q :: qs => ns.modify (fun n => n.setChildren (store g n.Children (q :: qs))) k

mutual
/-- Source `flattenNode` (parser.go:604).  `p` is the pointer that is passed,
the second argument is the struct it points to.  `node.Collapsed` on a nil
pointer panics. -/
def flattenNode (p : Ptr) : ASTNode → Option (List Ptr)
  | .nil => none
  | .mk _ cs _ c => if !c then flattenNode.loop p 0 cs [p] else some [p]
/-- The loop `for _, child := range node.Children` of `flattenNode`, at child
index `k` with the slice `result` built so far. -/
def flattenNode.loop (p : Ptr) (k : Nat) : List ASTNode → List Ptr → Option (List Ptr)
  | [], result => some result
  | child :: rest, result =>
    match flattenNode (p ++ [k]) child with
    | none => none
    | some r => flattenNode.loop p (k + 1) rest (result ++ r)
end

/-- The loop `for _, node := range nodes` of `FlattenNodes`, at root index `k`. -/
def FlattenNodes.loop (k : Nat) : List ASTNode → List Ptr → Option (List Ptr)
  | [], result => some result
  | node :: rest, result =>
    match flattenNode [k] node with
    | none => none
    | some r => FlattenNodes.loop (k + 1) rest (result ++ r)

/-- Source `FlattenNodes` (parser.go:596). -/
def FlattenNodes (nodes : List ASTNode) : Option (List Ptr) :=
  FlattenNodes.loop 0 nodes []

/-! ## right_panel.go -/

/-- The fields of `basicwidget.ListItem[int]` that `buildListItems` sets. -/
structure ListItem where
  Text : String
  IndentLevel : Int
  Value : Int
  Collapsed : Bool
deriving Repr, DecidableEq

/-- The fields of `RightPanel` that the list utilities read and write. -/
structure RightPanel where
  astNodes : List ASTNode
  listItems : List ListItem
deriving Repr, DecidableEq

/-- The body of the loop of `buildListItems` for one flattened node: the row
for the node `node` at position `i`. -/
def buildListItems.item (i : Nat) (node : ASTNode) : ListItem :=
  let hasChildren := decide (node.Children.length > 0)
  let label := node.Label
  let label :=
    if hasChildren then
      if node.Collapsed then "[+] " ++ label else "[-] " ++ label
    else "    " ++ label
  { Text := label, IndentLevel := node.IndentLevel, Value := (i : Int), Collapsed := node.Collapsed }

/-- The loop `for i, node := range flatNodes` of `buildListItems`. -/
def buildListItems.loop (astNodes : List ASTNode) (i : Nat) : List Ptr → List ListItem → List ListItem
  | [], listItems => listItems
  | node :: rest, listItems =>
    buildListItems.loop astNodes (i + 1) rest (listItems ++ [buildListItems.item i (load astNodes node)])

/-- Source `RightPanel.buildListItems` (right_panel.go:49).  The nil slice and
the empty slice are both the empty list; an empty forest gives no rows on
either path. -/
def buildListItems (r : RightPanel) : Option RightPanel :=
  let r := { r with listItems := [] }
  if r.astNodes.isEmpty then some r
  else
    match FlattenNodes r.astNodes with
    | none => none
    | some flatNodes =>
      some { r with listItems := buildListItems.loop r.astNodes 0 flatNodes r.listItems }

/-- Source `RightPanel.toggleNodeCollapse` (right_panel.go:79). -/
def toggleNodeCollapse (r : RightPanel) (index : Int) : Option RightPanel :=
  if index < 0 then some r
  else
    match FlattenNodes r.astNodes with
    | none => none
    | some flatNodes =>
      if index ≥ (flatNodes.length : Int) then some r
      else
        let node := flatNodes.getD index.toNat []
        if (load r.astNodes node).Children.length > 0 then
          let astNodes := store ASTNode.negateCollapsed r.astNodes node
          some { r with astNodes := astNodes }
        else some r

/-! ## Reference definitions for the list utilities -/

mutual
/-- No nil pointer anywhere in the subtree: the node is a display node and so
is every descendant. -/
def ASTNode.noNil : ASTNode → Bool
  | .nil => false
  | .mk _ cs _ _ => noNilForest cs
/-- No nil pointer anywhere in the forest. -/
def noNilForest : List ASTNode → Bool
  | [] => true
  | c :: cs => c.noNil && noNilForest cs
end

mutual
/-- Pre-order listing of the visible part of a subtree, by addresses relative
to its root: the node itself, then, only if it is not collapsed, the listings
of its children in order. -/
def visibleNode : ASTNode → List Ptr
  | .nil => []
  | .mk _ cs _ c => [] :: (if c then [] else visibleFrom 0 cs)
/-- The listings of the nodes of a slice one after the other, the first node
of the slice having index `k`. -/
def visibleFrom (k : Nat) : List ASTNode → List Ptr
  | [] => []
  | c :: cs => (visibleNode c).map (k :: ·) ++ visibleFrom (k + 1) cs
end

/-- Depth-first pre-order listing of a forest that does not descend into
collapsed nodes. -/
def visibleForest (forest : List ASTNode) : List Ptr := visibleFrom 0 forest


/-- A write at an address relative to a node: at the node itself for the empty
address, inside its children otherwise. -/
def storeNode (g : ASTNode → ASTNode) (n : ASTNode) (q : Ptr) : ASTNode :=
  match q with
  | [] => g n
  | _ :: _ => n.setChildren (store g n.Children q)

/-- A read at an address relative to a node. -/
def loadNode (n : ASTNode) (q : Ptr) : ASTNode :=
  match q with
  | [] => n
  | _ :: _ => load n.Children q

mutual
/-- The node with every `Collapsed` flag of its subtree cleared: what is left
is labels, indent levels and the order of children. -/
def ASTNode.eraseCollapsed : ASTNode → ASTNode
  | .nil => .nil
  | .mk l cs i _ => .mk l (eraseCollapsedForest cs) i false
/-- The forest with every `Collapsed` flag cleared. -/
def eraseCollapsedForest : List ASTNode → List ASTNode
  | [] => []
  | c :: cs => c.eraseCollapsed :: eraseCollapsedForest cs
end

mutual
/-- Pre-order listing of all nodes of a subtree, by addresses relative to its
root, whatever the flags. -/
def preorderNode : ASTNode → List Ptr
  | .nil => []
  | .mk _ cs _ _ => [] :: preorderFrom 0 cs
/-- Pre-order listing of all nodes of a slice whose first node has index `k`. -/
def preorderFrom (k : Nat) : List ASTNode → List Ptr
  | [] => []
  | c :: cs => (preorderNode c).map (k :: ·) ++ preorderFrom (k + 1) cs
end

/-- Depth-first pre-order listing of every node of a forest. -/
def preorderForest (forest : List ASTNode) : List Ptr := preorderFrom 0 forest

mutual
/-- Number of nodes of a subtree. -/
def ASTNode.count : ASTNode → Nat
  | .nil => 0
  | .mk _ cs _ _ => 1 + countForest cs
/-- Total number of nodes of a forest. -/
def countForest : List ASTNode → Nat
  | [] => 0
  | c :: cs => c.count + countForest cs
end

mutual
/-- Every node of the subtree has `Collapsed = false`. -/
def ASTNode.allExpanded : ASTNode → Bool
  | .nil => true
  | .mk _ cs _ c => !c && allExpandedForest cs
/-- Every node of the forest has `Collapsed = false`. -/
def allExpandedForest : List ASTNode → Bool
  | [] => true
  | c :: cs => c.allExpanded && allExpandedForest cs
end

/-- A forest of two roots: an expanded root with a leaf child and a collapsed
child that has a child of its own, and a leaf root whose flag is set. -/
def sampleForest : List ASTNode :=
  [.mk "File: a.go" [.mk "Package: main" [] 2 false,
                     .mk "Func: main" [.mk "BlockStmt" [] 3 false] 2 true] 1 false,
   .mk "b.go (error: bad)" [] 1 true]

/-- The sample forest with every node expanded. -/
def sampleExpanded : List ASTNode :=
  [.mk "File: a.go" [.mk "Package: main" [] 2 false,
                     .mk "Func: main" [.mk "BlockStmt" [] 3 false] 2 false] 1 false,
   .mk "b.go (error: bad)" [] 1 false]

/-- A panel that shows the sample forest and has no rows yet. -/
def samplePanel : RightPanel := { astNodes := sampleForest, listItems := [] }

/-! ## go/token and go/ast: the library types the tree builder reads

The syntax tree is owned by the Go standard library.  Each type below lists
the fields of the Go type of the same name that `parser.go` reads, plus the
sub-nodes that make the tree closed; positions are left out.  A value of an
interface type (`ast.Expr`, `ast.Stmt`, `ast.Decl`, `ast.Spec`) is nil or one
of the concrete node types, so those types have a constructor `nil`.  A
pointer to a struct is `Option` where `go/ast` documents that it may be nil
and `parser.go` tests it; the pointers that `parser.go` dereferences without
a test (names, function types, the bodies of `if`, `for`, `range`, `switch`,
the calls of `go` and `defer`) are documented as always present and are
plain fields here. -/

/-- Type `token.Token`: the tokens of Go. -/
inductive Token where
  | ILLEGAL | EOF | COMMENT
  | IDENT | INT | FLOAT | IMAG | CHAR | STRING
  | ADD | SUB | MUL | QUO | REM
  | AND | OR | XOR | SHL | SHR | AND_NOT
  | ADD_ASSIGN | SUB_ASSIGN | MUL_ASSIGN | QUO_ASSIGN | REM_ASSIGN
  | AND_ASSIGN | OR_ASSIGN | XOR_ASSIGN | SHL_ASSIGN | SHR_ASSIGN | AND_NOT_ASSIGN
  | LAND | LOR | ARROW | INC | DEC
  | EQL | LSS | GTR | ASSIGN | NOT
  | NEQ | LEQ | GEQ | DEFINE | ELLIPSIS
  | LPAREN | LBRACK | LBRACE | COMMA | PERIOD
  | RPAREN | RBRACK | RBRACE | SEMICOLON | COLON
  | BREAK | CASE | CHAN | CONST | CONTINUE
  | DEFAULT | DEFER | ELSE | FALLTHROUGH | FOR
  | FUNC | GO | GOTO | IF | IMPORT
  | INTERFACE | MAP | PACKAGE | RANGE | RETURN
  | SELECT | STRUCT | SWITCH | TYPE | VAR
  | TILDE
deriving Repr, DecidableEq

/-- Method `token.Token.String`: the text of an operator, delimiter or keyword,
the name of the constant for the other tokens. -/
def Token.String : Token → String
  | .ILLEGAL => "ILLEGAL" | .EOF => "EOF" | .COMMENT => "COMMENT"
  | .IDENT => "IDENT" | .INT => "INT" | .FLOAT => "FLOAT" | .IMAG => "IMAG"
  | .CHAR => "CHAR" | .STRING => "STRING"
  | .ADD => "+" | .SUB => "-" | .MUL => "*" | .QUO => "/" | .REM => "%"
  | .AND => "&" | .OR => "|" | .XOR => "^" | .SHL => "<<" | .SHR => ">>" | .AND_NOT => "&^"
  | .ADD_ASSIGN => "+=" | .SUB_ASSIGN => "-=" | .MUL_ASSIGN => "*=" | .QUO_ASSIGN => "/="
  | .REM_ASSIGN => "%="
  | .AND_ASSIGN => "&=" | .OR_ASSIGN => "|=" | .XOR_ASSIGN => "^=" | .SHL_ASSIGN => "<<="
  | .SHR_ASSIGN => ">>=" | .AND_NOT_ASSIGN => "&^="
  | .LAND => "&&" | .LOR => "||" | .ARROW => "<-" | .INC => "++" | .DEC => "--"
  | .EQL => "==" | .LSS => "<" | .GTR => ">" | .ASSIGN => "=" | .NOT => "!"
  | .NEQ => "!=" | .LEQ => "<=" | .GEQ => ">=" | .DEFINE => ":=" | .ELLIPSIS => "..."
  | .LPAREN => "(" | .LBRACK => "[" | .LBRACE => "\x7b" | .COMMA => "," | .PERIOD => "."
  | .RPAREN => ")" | .RBRACK => "]" | .RBRACE => "\x7d" | .SEMICOLON => ";" | .COLON => ":"
  | .BREAK => "break" | .CASE => "case" | .CHAN => "chan" | .CONST => "const"
  | .CONTINUE => "continue"
  | .DEFAULT => "default" | .DEFER => "defer" | .ELSE => "else"
  | .FALLTHROUGH => "fallthrough" | .FOR => "for"
  | .FUNC => "func" | .GO => "go" | .GOTO => "goto" | .IF => "if" | .IMPORT => "import"
  | .INTERFACE => "interface" | .MAP => "map" | .PACKAGE => "package" | .RANGE => "range"
  | .RETURN => "return"
  | .SELECT => "select" | .STRUCT => "struct" | .SWITCH => "switch" | .TYPE => "type"
  | .VAR => "var"
  | .TILDE => "~"

/-- Type `ast.ChanDir`, an integer: `SEND` is 1, `RECV` is 2, a channel for
both directions has `SEND | RECV`. -/
abbrev ChanDir := Nat

/-- Constant `ast.SEND`. -/
def ChanDir.SEND : ChanDir := 1

/-- Constant `ast.RECV`. -/
def ChanDir.RECV : ChanDir := 2

/-- Type `ast.Ident`. -/
structure Ident where
  Name : String
deriving Repr, DecidableEq

/-- Type `ast.BasicLit`. -/
structure BasicLit where
  Value : String
deriving Repr, DecidableEq

/-- Type `ast.ImportSpec`. -/
structure ImportSpec where
  Path : BasicLit
deriving Repr, DecidableEq

set_option maxHeartbeats 4000000 in
mutual
/-- Interface `ast.Expr`: nil or one of the expression and type nodes. -/
inductive Expr where
  | nil
  | BadExpr
  | Ident (e : Ident)
  | Ellipsis (Elt : Expr)
  | BasicLit (e : BasicLit)
  | FuncLit (Type_ : FuncType) (Body : Option BlockStmt)
  | CompositeLit (Type_ : Expr) (Elts : List Expr)
  | ParenExpr (X : Expr)
  | SelectorExpr (X : Expr) (Sel : Ident)
  | IndexExpr (X : Expr) (Index : Expr)
  | IndexListExpr (X : Expr) (Indices : List Expr)
  | SliceExpr (X : Expr) (Low : Expr) (High : Expr) (Max : Expr)
  | TypeAssertExpr (X : Expr) (Type_ : Expr)
  | CallExpr (e : CallExpr)
  | StarExpr (X : Expr)
  | UnaryExpr (Op : Token) (X : Expr)
  | BinaryExpr (X : Expr) (Op : Token) (Y : Expr)
  | KeyValueExpr (Key : Expr) (Value : Expr)
  | ArrayType (Len : Expr) (Elt : Expr)
  | StructType (Fields : Option FieldList)
  | FuncType (e : FuncType)
  | InterfaceType (Methods : Option FieldList)
  | MapType (Key : Expr) (Value : Expr)
  | ChanType (Dir : ChanDir) (Value : Expr)
/-- Type `ast.CallExpr`. -/
inductive CallExpr where
  | mk (Fun : Expr) (Args : List Expr)
/-- Type `ast.Field`. -/
inductive Field where
  | mk (Names : List Ident) (Type_ : Expr) (Tag : Option BasicLit)
/-- Type `ast.FieldList`. -/
inductive FieldList where
  | mk (List_ : List Field)
/-- Type `ast.FuncType`. -/
inductive FuncType where
  | mk (Params : Option FieldList) (Results : Option FieldList)
/-- Interface `ast.Stmt`: nil or one of the statement nodes. -/
inductive Stmt where
  | nil
  | BadStmt
  | DeclStmt (Decl_ : Decl)
  | EmptyStmt
  | LabeledStmt (Label : Ident) (Stmt_ : Stmt)
  | ExprStmt (X : Expr)
  | SendStmt (Chan : Expr) (Value : Expr)
  | IncDecStmt (X : Expr) (Tok : Token)
  | AssignStmt (Lhs : List Expr) (Tok : Token) (Rhs : List Expr)
  | GoStmt (Call : CallExpr)
  | DeferStmt (Call : CallExpr)
  | ReturnStmt (Results : List Expr)
  | BranchStmt (Tok : Token) (Label : Option Ident)
  | BlockStmt (s : BlockStmt)
  | IfStmt (Init : Stmt) (Cond : Expr) (Body : BlockStmt) (Else : Stmt)
  | CaseClause (List_ : List Expr) (Body : List Stmt)
  | SwitchStmt (Init : Stmt) (Tag : Expr) (Body : BlockStmt)
  | TypeSwitchStmt (Init : Stmt) (Assign : Stmt) (Body : BlockStmt)
  | CommClause (Comm : Stmt) (Body : List Stmt)
  | SelectStmt (Body : BlockStmt)
  | ForStmt (Init : Stmt) (Cond : Expr) (Post : Stmt) (Body : BlockStmt)
  | RangeStmt (Key : Expr) (Value : Expr) (Tok : Token) (X : Expr) (Body : BlockStmt)
/-- Type `ast.BlockStmt`. -/
inductive BlockStmt where
  | mk (List_ : List Stmt)
/-- Type `ast.ValueSpec`. -/
inductive ValueSpec where
  | mk (Names : List Ident) (Type_ : Expr) (Values : List Expr)
/-- Type `ast.TypeSpec`. -/
inductive TypeSpec where
  | mk (Name : Ident) (Type_ : Expr)
/-- Interface `ast.Spec`: nil or one of the three kinds of specification. -/
inductive Spec where
  | nil
  | ImportSpec (s : ImportSpec)
  | ValueSpec (s : ValueSpec)
  | TypeSpec (s : TypeSpec)
/-- Type `ast.GenDecl`. -/
inductive GenDecl where
  | mk (Tok : Token) (Specs : List Spec)
/-- Type `ast.FuncDecl`. -/
inductive FuncDecl where
  | mk (Recv : Option FieldList) (Name : Ident) (Type_ : FuncType) (Body : Option BlockStmt)
/-- Interface `ast.Decl`: nil or one of the declaration nodes. -/
inductive Decl where
  | nil
  | BadDecl
  | GenDecl (d : GenDecl)
  | FuncDecl (d : FuncDecl)
end

/-- Type `ast.File`. -/
structure File where
  Name : Ident
  Decls : List Decl
  Imports : List ImportSpec

/-- Interface `ast.Node` as `astToNodes` sees it: nil, a file, or a node of
another type, given by the name `%T` prints for it. -/
inductive Node where
  | nil
  | File (f : File)
  | Other (goType : String)

/-- The text `%T` prints for an expression: the name of its dynamic type. -/
def Expr.goType : Expr → String
  | .nil => "<nil>"
  | .BadExpr => "*ast.BadExpr"
  | .Ident _ => "*ast.Ident"
  | .Ellipsis _ => "*ast.Ellipsis"
  | .BasicLit _ => "*ast.BasicLit"
  | .FuncLit _ _ => "*ast.FuncLit"
  | .CompositeLit _ _ => "*ast.CompositeLit"
  | .ParenExpr _ => "*ast.ParenExpr"
  | .SelectorExpr _ _ => "*ast.SelectorExpr"
  | .IndexExpr _ _ => "*ast.IndexExpr"
  | .IndexListExpr _ _ => "*ast.IndexListExpr"
  | .SliceExpr _ _ _ _ => "*ast.SliceExpr"
  | .TypeAssertExpr _ _ => "*ast.TypeAssertExpr"
  | .CallExpr _ => "*ast.CallExpr"
  | .StarExpr _ => "*ast.StarExpr"
  | .UnaryExpr _ _ => "*ast.UnaryExpr"
  | .BinaryExpr _ _ _ => "*ast.BinaryExpr"
  | .KeyValueExpr _ _ => "*ast.KeyValueExpr"
  | .ArrayType _ _ => "*ast.ArrayType"
  | .StructType _ => "*ast.StructType"
  | .FuncType _ => "*ast.FuncType"
  | .InterfaceType _ => "*ast.InterfaceType"
  | .MapType _ _ => "*ast.MapType"
  | .ChanType _ _ => "*ast.ChanType"

/-- The text of `reflect.TypeOf(stmt).String()` for a non-nil statement. -/
def Stmt.goType : Stmt → String
  | .nil => "<nil>"
  | .BadStmt => "*ast.BadStmt"
  | .DeclStmt _ => "*ast.DeclStmt"
  | .EmptyStmt => "*ast.EmptyStmt"
  | .LabeledStmt _ _ => "*ast.LabeledStmt"
  | .ExprStmt _ => "*ast.ExprStmt"
  | .SendStmt _ _ => "*ast.SendStmt"
  | .IncDecStmt _ _ => "*ast.IncDecStmt"
  | .AssignStmt _ _ _ => "*ast.AssignStmt"
  | .GoStmt _ => "*ast.GoStmt"
  | .DeferStmt _ => "*ast.DeferStmt"
  | .ReturnStmt _ => "*ast.ReturnStmt"
  | .BranchStmt _ _ => "*ast.BranchStmt"
  | .BlockStmt _ => "*ast.BlockStmt"
  | .IfStmt _ _ _ _ => "*ast.IfStmt"
  | .CaseClause _ _ => "*ast.CaseClause"
  | .SwitchStmt _ _ _ => "*ast.SwitchStmt"
  | .TypeSwitchStmt _ _ _ => "*ast.TypeSwitchStmt"
  | .CommClause _ _ => "*ast.CommClause"
  | .SelectStmt _ => "*ast.SelectStmt"
  | .ForStmt _ _ _ _ => "*ast.ForStmt"
  | .RangeStmt _ _ _ _ _ => "*ast.RangeStmt"

/-- The text `%T` prints for a declaration. -/
def Decl.goType : Decl → String
  | .nil => "<nil>"
  | .BadDecl => "*ast.BadDecl"
  | .GenDecl _ => "*ast.GenDecl"
  | .FuncDecl _ => "*ast.FuncDecl"

/-- The test `expr == nil`. -/
def Expr.isNil : Expr → Bool
  | .nil => true
  | _ => false

/-- The test `stmt == nil`. -/
def Stmt.isNil : Stmt → Bool
  | .nil => true
  | _ => false

/-- The test `node == nil` on a display node. -/
def ASTNode.isNil : ASTNode → Bool
  | .nil => true
  | _ => false

/-- Field `Type` of a field. -/
def Field.Type_ : Field → Expr
  | .mk _ t _ => t

/-- Field `Names` of a field. -/
def Field.Names : Field → List Ident
  | .mk ns _ _ => ns

/-- Field `Tag` of a field. -/
def Field.Tag : Field → Option BasicLit
  | .mk _ _ t => t

/-- Field `List` of a field list. -/
def FieldList.List_ : FieldList → List Field
  | .mk l => l

/-! ## parser.go: the tree builder -/

/-- Source `exprToString` (parser.go:533). -/
def exprToString : Expr → String
  | .nil => ""
  | .Ident e => e.Name
  | .BasicLit e => e.Value
  | .SelectorExpr x sel => exprToString x ++ "." ++ sel.Name
  | .StarExpr x => "*" ++ exprToString x
  | .ArrayType len elt =>
    if !len.isNil then "[" ++ exprToString len ++ "]" ++ exprToString elt
    else "[]" ++ exprToString elt
  | .MapType k v => "map[" ++ exprToString k ++ "]" ++ exprToString v
  | .ChanType dir v =>
    if dir = ChanDir.SEND then "chan<- " ++ exprToString v
    else if dir = ChanDir.RECV then "<-chan " ++ exprToString v
    else "chan " ++ exprToString v
  | .FuncType _ => "func(...)"
  | .InterfaceType _ => "interface\x7b\x7d"
  | .StructType _ => "struct\x7b...\x7d"
  | .Ellipsis elt => "..." ++ exprToString elt
  | .CallExpr (.mk f _) => exprToString f ++ "(...)"
  | .IndexExpr x index => exprToString x ++ "[" ++ exprToString index ++ "]"
  | .IndexListExpr x _ => exprToString x ++ "[...]"
  | .BinaryExpr x op y => exprToString x ++ " " ++ op.String ++ " " ++ exprToString y
  | .UnaryExpr op x => op.String ++ exprToString x
  | .ParenExpr x => "(" ++ exprToString x ++ ")"
  | .CompositeLit t _ =>
    if !t.isNil then exprToString t ++ "\x7b...\x7d" else "\x7b...\x7d"
  | .FuncLit _ _ => "func()\x7b...\x7d"
  | .BadExpr => Expr.goType .BadExpr
  | .SliceExpr x l h m => Expr.goType (.SliceExpr x l h m)
  | .TypeAssertExpr x t => Expr.goType (.TypeAssertExpr x t)
  | .KeyValueExpr k v => Expr.goType (.KeyValueExpr k v)

/-- Source `fieldToNode` (parser.go:232). -/
def fieldToNode (field : Field) (level : Int) : ASTNode :=
  let name :=
    if field.Names.length > 0 then ", ".intercalate (field.Names.map (fun n => n.Name))
    else "(embedded)"
  let children := [ASTNode.mk ("Type: " ++ exprToString field.Type_) [] (level + 1) false]
  let children :=
    match field.Tag with
    | some tag => children ++ [ASTNode.mk ("Tag: " ++ tag.Value) [] (level + 1) false]
    | none => children
  .mk ("Field: " ++ name) children level false

/-- Source `typeSpecToNodes` (parser.go:191). -/
def typeSpecToNodes (ts : TypeSpec) (level : Int) : List ASTNode :=
  match ts with
  | .mk _ t =>
    match t with
    | .StructType fields =>
      let children :=
        match fields with
        | some fl => fl.List_.map (fun field => fieldToNode field (level + 1))
        | none => []
      [.mk "StructType" children level false]
    | .InterfaceType methods =>
      let children :=
        match methods with
        | some fl => fl.List_.map (fun method => fieldToNode method (level + 1))
        | none => []
      [.mk "InterfaceType" children level false]
    | _ => [.mk ("TypeExpr: " ++ exprToString t) [] level false]

/-- The body of the loop over `d.Specs` of `genDeclToNode` for `token.TYPE`. -/
def genDeclToNode.typeNodes (level : Int) : Spec → List ASTNode
  | .TypeSpec (.mk name t) =>
    [.mk ("Type: " ++ name.Name) (typeSpecToNodes (.mk name t) (level + 1)) level false]
  | _ => []

/-- The body of the loop over `d.Specs` of `genDeclToNode` for `token.CONST`:
the children one specification adds. -/
def genDeclToNode.constChildren (level : Int) : Spec → List ASTNode
  | .ValueSpec (.mk names _ _) =>
    names.map (fun name => ASTNode.mk ("Const: " ++ name.Name) [] (level + 1) false)
  | _ => []

/-- The body of the loop over `d.Specs` of `genDeclToNode` for `token.VAR`:
the children one specification adds. -/
def genDeclToNode.varChildren (level : Int) : Spec → List ASTNode
  | .ValueSpec (.mk names t _) =>
    names.map (fun name =>
      ASTNode.mk ("Var: " ++ name.Name)
        (if !t.isNil then [ASTNode.mk ("Type: " ++ exprToString t) [] (level + 2) false] else [])
        (level + 1) false)
  | _ => []

/-- Source `genDeclToNode` (parser.go:127). -/
def genDeclToNode (d : GenDecl) (level : Int) : List ASTNode :=
  match d with
  | .mk tok specs =>
    match tok with
    | .TYPE => specs.flatMap (genDeclToNode.typeNodes level)
    | .CONST =>
      let children := specs.flatMap (genDeclToNode.constChildren level)
      if children.length > 0 then [.mk "Const" children level false] else []
    | .VAR =>
      let children := specs.flatMap (genDeclToNode.varChildren level)
      if children.length > 0 then [.mk "Var" children level false] else []
    | _ => []

mutual
/-- Source `stmtToNode` (parser.go:314). -/
def stmtToNode : Stmt → Int → ASTNode
  | .nil, _ => .nil
  | .BlockStmt s, level => blockStmtToNode s level
  | .ExprStmt x, level => .mk "ExprStmt" [exprToNode x (level + 1)] level false
  | .AssignStmt lhs tok rhs, level =>
    .mk ("AssignStmt (" ++ tok.String ++ ")")
      (exprToNode.each lhs (level + 1) ++ exprToNode.each rhs (level + 1)) level false
  | .ReturnStmt results, level =>
    .mk "ReturnStmt" (exprToNode.each results (level + 1)) level false
  | .IfStmt init cond body els, level =>
    .mk "IfStmt"
      ((if !init.isNil then [stmtToNode init (level + 1)] else [])
        ++ [exprToNode cond (level + 1)]
        ++ [blockStmtToNode body (level + 1)]
        ++ (if !els.isNil then [stmtToNode els (level + 1)] else []))
      level false
  | .ForStmt init cond post body, level =>
    .mk "ForStmt"
      ((if !init.isNil then [stmtToNode init (level + 1)] else [])
        ++ (if !cond.isNil then [exprToNode cond (level + 1)] else [])
        ++ (if !post.isNil then [stmtToNode post (level + 1)] else [])
        ++ [blockStmtToNode body (level + 1)])
      level false
  | .RangeStmt key value _ x body, level =>
    .mk "RangeStmt"
      ((if !key.isNil then [exprToNode key (level + 1)] else [])
        ++ (if !value.isNil then [exprToNode value (level + 1)] else [])
        ++ [exprToNode x (level + 1)]
        ++ [blockStmtToNode body (level + 1)])
      level false
  | .DeclStmt decl, level => .mk "DeclStmt" (declToNode decl (level + 1)) level false
  | .DeferStmt call, level => .mk "DeferStmt" [callExprToNode call (level + 1)] level false
  | .GoStmt call, level => .mk "GoStmt" [callExprToNode call (level + 1)] level false
  | .SwitchStmt init tag body, level =>
    .mk "SwitchStmt"
      ((if !init.isNil then [stmtToNode init (level + 1)] else [])
        ++ (if !tag.isNil then [exprToNode tag (level + 1)] else [])
        ++ [blockStmtToNode body (level + 1)])
      level false
  | .CaseClause list body, level =>
    if list.length = 0 then
      .mk "CaseClause (default)" (stmtToNode.each body (level + 1)) level false
    else
      .mk "CaseClause" (exprToNode.each list (level + 1) ++ stmtToNode.each body (level + 1))
        level false
  | .IncDecStmt x tok, level =>
    .mk ("IncDecStmt (" ++ tok.String ++ ")") [exprToNode x (level + 1)] level false
  | .BranchStmt tok label, level =>
    match label with
    | some l => .mk ("BranchStmt (" ++ tok.String ++ " " ++ l.Name ++ ")") [] level false
    | none => .mk ("BranchStmt (" ++ tok.String ++ ")") [] level false
  | .BadStmt, level => .mk (Stmt.goType .BadStmt) [] level false
  | .EmptyStmt, level => .mk (Stmt.goType .EmptyStmt) [] level false
  | .LabeledStmt l s, level => .mk (Stmt.goType (.LabeledStmt l s)) [] level false
  | .SendStmt c v, level => .mk (Stmt.goType (.SendStmt c v)) [] level false
  | .TypeSwitchStmt i a b, level => .mk (Stmt.goType (.TypeSwitchStmt i a b)) [] level false
  | .CommClause c b, level => .mk (Stmt.goType (.CommClause c b)) [] level false
  | .SelectStmt b, level => .mk (Stmt.goType (.SelectStmt b)) [] level false
/-- Source `stmtToNode` on a statement of type `*ast.BlockStmt`: the case
`*ast.BlockStmt` of the type switch. -/
def blockStmtToNode : BlockStmt → Int → ASTNode
  | .mk list, level => .mk "BlockStmt" (blockStmtToNode.loop list (level + 1)) level false
/-- The loop over `s.List` in the case `*ast.BlockStmt`, which leaves out the
children that are nil; `level` is the level of the children. -/
def blockStmtToNode.loop : List Stmt → Int → List ASTNode
  | [], _ => []
  | child :: rest, level =>
    let childNode := stmtToNode child level
    if !childNode.isNil then childNode :: blockStmtToNode.loop rest level
    else blockStmtToNode.loop rest level
/-- A loop that appends `stmtToNode(stmt, level)` for each statement. -/
def stmtToNode.each : List Stmt → Int → List ASTNode
  | [], _ => []
  | stmt :: rest, level => stmtToNode stmt level :: stmtToNode.each rest level
/-- Source `exprToNode` (parser.go:439). -/
def exprToNode : Expr → Int → ASTNode
  | .nil, _ => .nil
  | .CallExpr e, level => callExprToNode e level
  | .BinaryExpr x op y, level =>
    .mk ("BinaryExpr (" ++ op.String ++ ")")
      [exprToNode x (level + 1), exprToNode y (level + 1)] level false
  | .UnaryExpr op x, level =>
    .mk ("UnaryExpr (" ++ op.String ++ ")") [exprToNode x (level + 1)] level false
  | .SelectorExpr x sel, level =>
    .mk ("SelectorExpr: " ++ exprToString x ++ "." ++ sel.Name) [] level false
  | .IndexExpr x index, level =>
    .mk "IndexExpr" [exprToNode x (level + 1), exprToNode index (level + 1)] level false
  | .CompositeLit t elts, level =>
    .mk ("CompositeLit: " ++ exprToString t) (exprToNode.each elts (level + 1)) level false
  | .FuncLit _ body, level =>
    match body with
    | some b => .mk "FuncLit" [blockStmtToNode b (level + 1)] level false
    | none => .mk "FuncLit" [] level false
  | .KeyValueExpr key value, level =>
    .mk "KeyValueExpr"
      [.mk ("Key: " ++ exprToString key) [] (level + 1) false, exprToNode value (level + 1)]
      level false
  | .TypeAssertExpr x t, level =>
    .mk "TypeAssertExpr"
      ([exprToNode x (level + 1)]
        ++ (if !t.isNil then [.mk ("Type: " ++ exprToString t) [] (level + 1) false] else []))
      level false
  | .StarExpr x, level => .mk "StarExpr" [exprToNode x (level + 1)] level false
  | .SliceExpr x low high _, level =>
    .mk "SliceExpr"
      ([exprToNode x (level + 1)]
        ++ (if !low.isNil then [exprToNode low (level + 1)] else [])
        ++ (if !high.isNil then [exprToNode high (level + 1)] else []))
      level false
  | .BadExpr, level => .mk (exprToString .BadExpr) [] level false
  | .Ident e, level => .mk (exprToString (.Ident e)) [] level false
  | .Ellipsis elt, level => .mk (exprToString (.Ellipsis elt)) [] level false
  | .BasicLit e, level => .mk (exprToString (.BasicLit e)) [] level false
  | .ParenExpr x, level => .mk (exprToString (.ParenExpr x)) [] level false
  | .IndexListExpr x is, level => .mk (exprToString (.IndexListExpr x is)) [] level false
  | .ArrayType l e, level => .mk (exprToString (.ArrayType l e)) [] level false
  | .StructType f, level => .mk (exprToString (.StructType f)) [] level false
  | .FuncType e, level => .mk (exprToString (.FuncType e)) [] level false
  | .InterfaceType m, level => .mk (exprToString (.InterfaceType m)) [] level false
  | .MapType k v, level => .mk (exprToString (.MapType k v)) [] level false
  | .ChanType d v, level => .mk (exprToString (.ChanType d v)) [] level false
/-- Source `exprToNode` on an expression of type `*ast.CallExpr`: the case
`*ast.CallExpr` of the type switch. -/
def callExprToNode : CallExpr → Int → ASTNode
  | .mk f args, level =>
    .mk "CallExpr"
      ([.mk ("Fun: " ++ exprToString f) [] (level + 1) false]
        ++ (if args.length > 0 then
              [.mk "Args" (exprToNode.each args (level + 2)) (level + 1) false]
            else []))
      level false
/-- A loop that appends `exprToNode(expr, level)` for each expression. -/
def exprToNode.each : List Expr → Int → List ASTNode
  | [], _ => []
  | expr :: rest, level => exprToNode expr level :: exprToNode.each rest level
/-- Source `declToNode` (parser.go:108). -/
def declToNode : Decl → Int → List ASTNode
  | .GenDecl d, level => genDeclToNode d level
  | .FuncDecl d, level => [funcDeclToNode d level]
  | .BadDecl, level => [.mk ("Decl: " ++ Decl.goType .BadDecl) [] level false]
  | .nil, level => [.mk ("Decl: " ++ Decl.goType .nil) [] level false]
/-- Source `funcDeclToNode` (parser.go:265). -/
def funcDeclToNode : FuncDecl → Int → ASTNode
  | .mk recv name (.mk params results) body, level =>
    let label :=
      match recv with
      | some (.mk (recv0 :: _)) => "Method: (" ++ exprToString recv0.Type_ ++ ") " ++ name.Name
      | _ => "Func: " ++ name.Name
    let paramsNodes :=
      match params with
      | some (.mk (p :: ps)) =>
        [ASTNode.mk "Params" ((p :: ps).map (fun param => fieldToNode param (level + 2)))
          (level + 1) false]
      | _ => []
    let resultsNodes :=
      match results with
      | some (.mk (r :: rs)) =>
        [ASTNode.mk "Results" ((r :: rs).map (fun result => fieldToNode result (level + 2)))
          (level + 1) false]
      | _ => []
    let bodyNodes :=
      match body with
      | some b => [blockStmtToNode b (level + 1)]
      | none => []
    .mk label (paramsNodes ++ resultsNodes ++ bodyNodes) level false
end

/-- Source `astToNodes` (parser.go:61). -/
def astToNodes (node : Node) (level : Int) : List ASTNode :=
  match node with
  | .nil => []
  | .File n =>
    let nodes := [ASTNode.mk ("Package: " ++ n.Name.Name) [] level false]
    let nodes :=
      if n.Imports.length > 0 then
        nodes ++ [ASTNode.mk "Imports"
          (n.Imports.map (fun imp => ASTNode.mk ("Import: " ++ imp.Path.Value) [] (level + 1) false))
          level false]
      else nodes
    nodes ++ n.Decls.flatMap (fun decl => declToNode decl level)
  | .Other goType => [.mk goType [] level false]

/-! ## The archive and the grammar parser

`txtar.Parse` and `parser.ParseFile` are library functions; `ParseTxtar` takes
them as parameters.  The parser returns a file, or the text of its error. -/

/-- Function `strings.HasSuffix`. -/
def HasSuffix (s suffix : String) : Bool := suffix.toList.isSuffixOf s.toList

/-- Type `txtar.File`. -/
structure TxtarFile where
  Name : String
  Data : String
deriving Repr, DecidableEq

/-- Type `txtar.Archive`. -/
structure Archive where
  Files : List TxtarFile
deriving Repr, DecidableEq

/-- The node that the body of the loop of `ParseTxtar` appends for a file whose
name ends in `.go`: an error node when the parser fails, the file node with
its children otherwise. -/
def ParseTxtar.root (parseFile : String → String → Except String File) (file : TxtarFile) :
    ASTNode :=
  match parseFile file.Name file.Data with
  | .error err => .mk (file.Name ++ " (error: " ++ err ++ ")") [] 1 false
  | .ok f => .mk ("File: " ++ file.Name) (astToNodes (.File f) 2) 1 false

/-- The loop `for _, file := range ar.Files` of `ParseTxtar`, with the slice
`nodes` built so far. -/
def ParseTxtar.loop (parseFile : String → String → Except String File) :
    List TxtarFile → List ASTNode → List ASTNode
  | [], nodes => nodes
  | file :: rest, nodes =>
    if !HasSuffix file.Name ".go" then ParseTxtar.loop parseFile rest nodes
    else ParseTxtar.loop parseFile rest (nodes ++ [ParseTxtar.root parseFile file])

/-- Source `ParseTxtar` (parser.go:25). -/
def ParseTxtar (txtarParse : String → Archive)
    (parseFile : String → String → Except String File) (content : String) :
    Except String (List ASTNode) :=
  let ar := txtarParse content
  let nodes := ParseTxtar.loop parseFile ar.Files []
  if nodes.length = 0 then .error "no .go files found in txtar content"
  else .ok nodes

/-! ## Sample syntax trees -/

/-- The declaration `func (p *Person) Greet() string` of `defaultSource`
(left_panel.go:24), whose body returns `fmt.Sprintf("Hello, I'm %s", p.Name)`. -/
def greetDecl : FuncDecl :=
  .mk (some (.mk [.mk [⟨"p"⟩] (.StarExpr (.Ident ⟨"Person"⟩)) none]))
    ⟨"Greet"⟩
    (.mk (some (.mk [])) (some (.mk [.mk [] (.Ident ⟨"string"⟩) none])))
    (some (.mk [.ReturnStmt [.CallExpr (.mk (.SelectorExpr (.Ident ⟨"fmt"⟩) ⟨"Sprintf"⟩)
      [.BasicLit ⟨"\"Hello, I'm %s\""⟩, .SelectorExpr (.Ident ⟨"p"⟩) ⟨"Name"⟩])]]))

/-- The fields of a field list that may be absent: none for a nil pointer. -/
def fieldsOf : Option FieldList → List Field
  | none => []
  | some fl => fl.List_

/-- The files of an archive that `ParseTxtar` parses: those whose name ends in
`.go`, in archive order. -/
def goFiles (ar : Archive) : List TxtarFile :=
  ar.Files.filter (fun file => HasSuffix file.Name ".go")

/-- An archive splitter for the samples: it ignores the text and gives three
entries, of which the second is not a Go file. -/
def sampleTxtar (_ : String) : Archive :=
  { Files := [⟨"a.go", "package a"⟩, ⟨"README.md", "text"⟩, ⟨"b.go", "package"⟩] }

/-- A parser for the samples: it accepts `package a` as an empty file of
package `a` and rejects everything else. -/
def sampleParser (_ : String) (data : String) : Except String File :=
  if data = "package a" then .ok { Name := ⟨"a"⟩, Decls := [], Imports := [] }
  else .error "expected 'IDENT', found 'EOF'"

/-! ## Reference definitions and samples for the tree builder -/

/-- The type declaration `type Person struct { Name string; Age int }` of
`defaultSource` (left_panel.go:18). -/
def personSpec : TypeSpec :=
  .mk ⟨"Person"⟩ (.StructType (some (.mk
    [.mk [⟨"Name"⟩] (.Ident ⟨"string"⟩) none, .mk [⟨"Age"⟩] (.Ident ⟨"int"⟩) none])))

/-- The case arms of the type switch of `stmtToNode`: whether the statement
kind has a dedicated case. -/
def Stmt.hasCase : Stmt → Bool
  | .BlockStmt _ => true
  | .ExprStmt _ => true
  | .AssignStmt _ _ _ => true
  | .ReturnStmt _ => true
  | .IfStmt _ _ _ _ => true
  | .ForStmt _ _ _ _ => true
  | .RangeStmt _ _ _ _ _ => true
  | .DeclStmt _ => true
  | .DeferStmt _ => true
  | .GoStmt _ => true
  | .SwitchStmt _ _ _ => true
  | .CaseClause _ _ => true
  | .IncDecStmt _ _ => true
  | .BranchStmt _ _ => true
  | _ => false

/-- The case arms of the type switch of `exprToNode`: whether the expression
kind has a dedicated case. -/
def Expr.hasCase : Expr → Bool
  | .CallExpr _ => true
  | .BinaryExpr _ _ _ => true
  | .UnaryExpr _ _ => true
  | .SelectorExpr _ _ => true
  | .IndexExpr _ _ => true
  | .CompositeLit _ _ => true
  | .FuncLit _ _ => true
  | .KeyValueExpr _ _ => true
  | .TypeAssertExpr _ _ => true
  | .StarExpr _ => true
  | .SliceExpr _ _ _ _ => true
  | _ => false

/-- The names a group of specifications declares, each with the type
expression of its value specification (nil when the specification has no
explicit type), in source order. -/
def declaredNames : List Spec → List (Ident × Expr)
  | [] => []
  | .ValueSpec (.mk names t _) :: rest => names.map (fun name => (name, t)) ++ declaredNames rest
  | _ :: rest => declaredNames rest

/-- The number of type specifications in a group of specifications. -/
def countTypeSpecs : List Spec → Nat
  | [] => 0
  | .TypeSpec _ :: rest => 1 + countTypeSpecs rest
  | _ :: rest => countTypeSpecs rest

/-- A file after the first declarations of `defaultSource` (left_panel.go:12):
package `main`, the import of `"fmt"`, the type `Person` and the method
`Greet`. -/
def sampleFile : File :=
  { Name := ⟨"main"⟩,
    Imports := [⟨⟨"\"fmt\""⟩⟩],
    Decls := [.GenDecl (.mk .IMPORT [.ImportSpec ⟨⟨"\"fmt\""⟩⟩]),
              .GenDecl (.mk .TYPE [.TypeSpec personSpec]),
              .FuncDecl greetDecl] }

/-- A parser for the samples that accepts the text `default` as the sample
file and rejects everything else. -/
def sampleFileParser (_ : String) (data : String) : Except String File :=
  if data = "default" then .ok sampleFile else .error "expected 'package', found 'EOF'"

/-- An archive splitter for the samples that gives the one entry `main.go`
with the text `default`. -/
def sampleFileTxtar (_ : String) : Archive :=
  { Files := [⟨"main.go", "default"⟩] }

/-- The declaration group `var ( x, y int; z = 1 )`. -/
def sampleVarDecl : GenDecl :=
  .mk .VAR [.ValueSpec (.mk [⟨"x"⟩, ⟨"y"⟩] (.Ident ⟨"int"⟩) []),
            .ValueSpec (.mk [⟨"z"⟩] .nil [.BasicLit ⟨"1"⟩])]

mutual
/-- The subtree was built at indent level `level`: its root, if it is a node,
has this indent level and `Collapsed = false`, and its children were built at
`level + 1`. -/
def ASTNode.builtAt (level : Int) : ASTNode → Bool
  | .nil => true
  | .mk _ cs i c => decide (i = level) && !c && builtAtAll (level + 1) cs
/-- Every entry of the slice was built at indent level `level`. -/
def builtAtAll (level : Int) : List ASTNode → Bool
  | [] => true
  | c :: cs => c.builtAt level && builtAtAll level cs
end

/-! ## The parts of a syntax tree that the builder turns into child nodes -/

mutual
/-- The mandatory parts below a statement are present, as far as `stmtToNode`
builds nodes for them: every operand whose node is appended without a test
(the expression of an expression statement and of `++`/`--`, the operands of
an assignment and of `return`, the condition of `if`, the operand of `range`,
the expressions and statements of a case clause) is not nil, and the same
holds below it.  A part that is appended only after a test against nil
(`Init`, `Else`, `Post`, `Tag`, `Key`, `Value`, the condition of `for`) may be
nil.  Statement kinds without a case give a leaf. -/
def Stmt.partsPresent : Stmt → Bool
  | .BlockStmt s => s.partsPresent
  | .ExprStmt x => !x.isNil && x.partsPresent
  | .AssignStmt lhs _ rhs => Expr.allPresent lhs && Expr.allPresent rhs
  | .ReturnStmt results => Expr.allPresent results
  | .IfStmt init cond body els =>
    init.partsPresent && (!cond.isNil && cond.partsPresent) && body.partsPresent
      && els.partsPresent
  | .ForStmt init cond post body =>
    init.partsPresent && cond.partsPresent && post.partsPresent && body.partsPresent
  | .RangeStmt key value _ x body =>
    key.partsPresent && value.partsPresent && (!x.isNil && x.partsPresent)
      && body.partsPresent
  | .DeclStmt decl => decl.partsPresent
  | .DeferStmt call => call.partsPresent
  | .GoStmt call => call.partsPresent
  | .SwitchStmt init tag body => init.partsPresent && tag.partsPresent && body.partsPresent
  | .CaseClause list body => Expr.allPresent list && Stmt.allPresent body
  | .IncDecStmt x _ => !x.isNil && x.partsPresent
  | .nil => true
  | .BranchStmt _ _ => true
  | .BadStmt => true
  | .EmptyStmt => true
  | .LabeledStmt _ _ => true
  | .SendStmt _ _ => true
  | .TypeSwitchStmt _ _ _ => true
  | .CommClause _ _ => true
  | .SelectStmt _ => true
/-- The mandatory parts below a block are present.  The statements of the
block themselves may be nil: the loop over them leaves those out. -/
def BlockStmt.partsPresent : BlockStmt → Bool
  | .mk list => Stmt.eachPartsPresent list
/-- The mandatory parts below every statement of the list are present. -/
def Stmt.eachPartsPresent : List Stmt → Bool
  | [] => true
  | s :: rest => s.partsPresent && Stmt.eachPartsPresent rest
/-- No statement of the list is nil, and the mandatory parts below each are
present. -/
def Stmt.allPresent : List Stmt → Bool
  | [] => true
  | s :: rest => (!s.isNil && s.partsPresent) && Stmt.allPresent rest
/-- The mandatory parts below an expression are present, as far as
`exprToNode` builds nodes for them: the operands of a binary, unary, index,
star, slice and type assertion expression, the value of a key-value pair, the
elements of a composite literal and the arguments of a call are not nil, and
the same holds below them.  `Low` and `High` of a slice expression may be nil;
expression kinds without a case, and the parts that only `exprToString`
reads, give no child node. -/
def Expr.partsPresent : Expr → Bool
  | .CallExpr e => e.partsPresent
  | .BinaryExpr x _ y => (!x.isNil && x.partsPresent) && (!y.isNil && y.partsPresent)
  | .UnaryExpr _ x => !x.isNil && x.partsPresent
  | .IndexExpr x index => (!x.isNil && x.partsPresent) && (!index.isNil && index.partsPresent)
  | .CompositeLit _ elts => Expr.allPresent elts
  | .FuncLit _ body =>
    match body with
    | some b => b.partsPresent
    | none => true
  | .KeyValueExpr _ value => !value.isNil && value.partsPresent
  | .TypeAssertExpr x _ => !x.isNil && x.partsPresent
  | .StarExpr x => !x.isNil && x.partsPresent
  | .SliceExpr x low high _ =>
    (!x.isNil && x.partsPresent) && low.partsPresent && high.partsPresent
  | .nil => true
  | .SelectorExpr _ _ => true
  | .BadExpr => true
  | .Ident _ => true
  | .Ellipsis _ => true
  | .BasicLit _ => true
  | .ParenExpr _ => true
  | .IndexListExpr _ _ => true
  | .ArrayType _ _ => true
  | .StructType _ => true
  | .FuncType _ => true
  | .InterfaceType _ => true
  | .MapType _ _ => true
  | .ChanType _ _ => true
/-- The arguments of the call are present. -/
def CallExpr.partsPresent : CallExpr → Bool
  | .mk _ args => Expr.allPresent args
/-- No expression of the list is nil, and the mandatory parts below each are
present. -/
def Expr.allPresent : List Expr → Bool
  | [] => true
  | e :: rest => (!e.isNil && e.partsPresent) && Expr.allPresent rest
/-- The mandatory parts below a declaration are present: those of the body of
a function declaration.  The other declarations hold no statement. -/
def Decl.partsPresent : Decl → Bool
  | .FuncDecl d => d.partsPresent
  | .GenDecl _ => true
  | .BadDecl => true
  | .nil => true
/-- The mandatory parts below the body of a function declaration are present;
a declaration without body has none. -/
def FuncDecl.partsPresent : FuncDecl → Bool
  | .mk _ _ _ body =>
    match body with
    | some b => b.partsPresent
    | none => true
end

/-- The mandatory parts below every declaration of a file are present. -/
def File.partsPresent (f : File) : Bool := f.Decls.all Decl.partsPresent

/-- The statement `p := &Person{Name: "Alice", Age: 30}` of `defaultSource`
(left_panel.go:29). -/
def sampleAssign : Stmt :=
  .AssignStmt [.Ident ⟨"p"⟩] .DEFINE
    [.UnaryExpr .AND (.CompositeLit (.Ident ⟨"Person"⟩)
      [.KeyValueExpr (.Ident ⟨"Name"⟩) (.BasicLit ⟨"\"Alice\""⟩),
       .KeyValueExpr (.Ident ⟨"Age"⟩) (.BasicLit ⟨"30"⟩)])]

/-- The expression `fmt.Println(p.Greet())` of `defaultSource`
(left_panel.go:33). -/
def samplePrintln : Expr :=
  .CallExpr (.mk (.SelectorExpr (.Ident ⟨"fmt"⟩) ⟨"Println"⟩)
    [.CallExpr (.mk (.SelectorExpr (.Ident ⟨"p"⟩) ⟨"Greet"⟩) [])])

/-! ## Induction over display trees -/

/-- Simultaneous induction over nodes and slices of nodes. -/
theorem tree_induction {P : ASTNode → Prop} {Q : List ASTNode → Prop}
    (hnil : P .nil) (hmk : ∀ l cs i c, Q cs → P (.mk l cs i c))
    (hempty : Q []) (hcons : ∀ c cs, P c → Q cs → Q (c :: cs)) :
    (∀ n, P n) ∧ (∀ ns, Q ns) :=
  ⟨fun n => @ASTNode.rec P Q hnil hmk hempty hcons n,
   fun ns => @ASTNode.rec_1 P Q hnil hmk hempty hcons ns⟩

/-! ## Flattening -/

theorem flatten_of_noNil :
    (∀ n : ASTNode, n.noNil = true →
      ∀ p, flattenNode p n = some ((visibleNode n).map (p ++ ·))) ∧
    (∀ cs : List ASTNode, noNilForest cs = true → ∀ p k result,
      flattenNode.loop p k cs result = some (result ++ (visibleFrom k cs).map (p ++ ·))) := by
  refine @tree_induction
    (fun n => n.noNil = true → ∀ p, flattenNode p n = some ((visibleNode n).map (p ++ ·)))
    (fun cs => noNilForest cs = true → ∀ p k result,
      flattenNode.loop p k cs result = some (result ++ (visibleFrom k cs).map (p ++ ·)))
    ?_ ?_ ?_ ?_
  · intro h; simp [ASTNode.noNil] at h
  · intro l cs i c ih h p
    simp only [ASTNode.noNil] at h
    cases c
    · simp [flattenNode, visibleNode, ih h]
    · simp [flattenNode, visibleNode]
  · intro _ p k result
    simp [flattenNode.loop, visibleFrom]
  · intro c cs ihc ihcs h p k result
    simp only [noNilForest, Bool.and_eq_true] at h
    simp [flattenNode.loop, visibleFrom, ihc h.1, ihcs h.2, List.append_assoc]

theorem FlattenNodes_loop_of_noNil (ns : List ASTNode) :
    noNilForest ns = true → ∀ k result,
      FlattenNodes.loop k ns result = some (result ++ visibleFrom k ns) := by
  induction ns with
  | nil => intro _ k result; simp [FlattenNodes.loop, visibleFrom]
  | cons c cs ih =>
    intro h k result
    simp only [noNilForest, Bool.and_eq_true] at h
    simp [FlattenNodes.loop, visibleFrom, flatten_of_noNil.1 c h.1, ih h.2, List.append_assoc]

theorem FlattenNodes_of_noNil (forest : List ASTNode) (h : noNilForest forest = true) :
    FlattenNodes forest = some (visibleForest forest) := by
  simp [FlattenNodes, visibleForest, FlattenNodes_loop_of_noNil forest h]

theorem flatten_some :
    (∀ n : ASTNode, ∀ p r, flattenNode p n = some r → r = (visibleNode n).map (p ++ ·)) ∧
    (∀ cs : List ASTNode, ∀ p k result r,
      flattenNode.loop p k cs result = some r →
        r = result ++ (visibleFrom k cs).map (p ++ ·)) := by
  refine @tree_induction
    (fun n => ∀ p r, flattenNode p n = some r → r = (visibleNode n).map (p ++ ·))
    (fun cs => ∀ p k result r,
      flattenNode.loop p k cs result = some r → r = result ++ (visibleFrom k cs).map (p ++ ·))
    ?_ ?_ ?_ ?_
  · intro p r h; simp [flattenNode] at h
  · intro l cs i c ih p r h
    cases c
    · simp only [flattenNode, Bool.not_false, if_true] at h
      simpa [visibleNode] using ih p 0 [p] r h
    · simp [flattenNode] at h
      simp [visibleNode, ← h]
  · intro p k result r h
    simp [flattenNode.loop] at h
    simp [visibleFrom, h]
  · intro c cs ihc ihcs p k result r h
    simp only [flattenNode.loop] at h
    cases hc : flattenNode (p ++ [k]) c with
    | none => simp [hc] at h
    | some rc =>
      simp only [hc] at h
      have h1 := ihc _ _ hc
      have h2 := ihcs _ _ _ _ h
      simp [visibleFrom, h2, h1, List.append_assoc]

theorem FlattenNodes_loop_some (ns : List ASTNode) :
    ∀ k result r, FlattenNodes.loop k ns result = some r → r = result ++ visibleFrom k ns := by
  induction ns with
  | nil => intro k result r h; simp [FlattenNodes.loop] at h; simp [visibleFrom, h]
  | cons c cs ih =>
    intro k result r h
    simp only [FlattenNodes.loop] at h
    cases hc : flattenNode [k] c with
    | none => simp [hc] at h
    | some rc =>
      simp only [hc] at h
      have h1 := flatten_some.1 c _ _ hc
      have h2 := ih _ _ _ h
      simp [visibleFrom, h2, h1, List.append_assoc]

theorem FlattenNodes_some (forest : List ASTNode) (flat : List Ptr)
    (h : FlattenNodes forest = some flat) : flat = visibleForest forest := by
  simpa [visibleForest] using FlattenNodes_loop_some forest 0 [] flat h

/-! ## Reads and writes through a pointer -/

theorem store_cons (g : ASTNode → ASTNode) (ns : List ASTNode) (k : Nat) (q : Ptr) :
    store g ns (k :: q) = ns.modify (fun n => storeNode g n q) k := by
  cases q <;> simp [store, storeNode]

theorem load_cons (ns : List ASTNode) (k : Nat) (q : Ptr) :
    load ns (k :: q) = loadNode (ns.getD k .nil) q := by
  cases q <;> simp [load, loadNode]

theorem storeNode_mk_cons (g : ASTNode → ASTNode) (l : String) (cs : List ASTNode) (i : Int)
    (c : Bool) (k : Nat) (q : Ptr) :
    storeNode g (.mk l cs i c) (k :: q) = .mk l (store g cs (k :: q)) i c := rfl

theorem storeNode_nil_cons (g : ASTNode → ASTNode) (k : Nat) (q : Ptr) :
    storeNode g .nil (k :: q) = .nil := rfl

theorem load_nil (q : Ptr) : load [] q = .nil := by
  induction q with
  | nil => rfl
  | cons k q ih =>
    cases q with
    | nil => rfl
    | cons j q' => simpa [load, ASTNode.Children] using ih

/-- The address found at a position of the listing is still found at that
position after the flag of the node at that address has been negated. -/
theorem visible_store_index :
    (∀ n : ASTNode, ∀ (i : Nat) (q : Ptr), (visibleNode n)[i]? = some q →
      (visibleNode (storeNode ASTNode.negateCollapsed n q))[i]? = some q) ∧
    (∀ ns : List ASTNode, ∀ (k i : Nat) (q : Ptr), (visibleFrom k ns)[i]? = some q →
      ∃ j q', q = (k + j) :: q' ∧
        (visibleFrom k (ns.modify (fun n => storeNode ASTNode.negateCollapsed n q') j))[i]?
          = some q) := by
  refine @tree_induction
    (fun n => ∀ (i : Nat) (q : Ptr), (visibleNode n)[i]? = some q →
      (visibleNode (storeNode ASTNode.negateCollapsed n q))[i]? = some q)
    (fun ns => ∀ (k i : Nat) (q : Ptr), (visibleFrom k ns)[i]? = some q →
      ∃ j q', q = (k + j) :: q' ∧
        (visibleFrom k (ns.modify (fun n => storeNode ASTNode.negateCollapsed n q') j))[i]?
          = some q)
    ?_ ?_ ?_ ?_
  · intro i q h; simp [visibleNode] at h
  · intro l cs lvl c ih i q h
    cases i with
    | zero =>
      simp [visibleNode] at h
      subst h
      simp [storeNode, ASTNode.negateCollapsed, ASTNode.setCollapsed, visibleNode]
    | succ i =>
      cases c
      · simp [visibleNode] at h
        obtain ⟨j, q', hq, hj⟩ := ih 0 i q h
        subst hq
        simp only [Nat.zero_add] at hj ⊢
        rw [storeNode_mk_cons, store_cons]
        simp [visibleNode, hj]
      · simp [visibleNode] at h
  · intro k i q h; simp [visibleFrom] at h
  · intro c cs ihc ihcs k i q h
    simp only [visibleFrom] at h
    by_cases hi : i < ((visibleNode c).map (k :: ·)).length
    · rw [List.getElem?_append_left hi] at h
      simp only [List.getElem?_map, Option.map_eq_some'] at h
      obtain ⟨q0, hq0, rfl⟩ := h
      refine ⟨0, q0, by simp, ?_⟩
      have h1 := ihc i q0 hq0
      have hlt : i < ((visibleNode (storeNode ASTNode.negateCollapsed c q0)).map
          (k :: ·)).length := by
        have := (List.getElem?_eq_some.1 h1).1
        simpa using this
      simp only [List.modify_zero_cons, visibleFrom]
      rw [List.getElem?_append_left hlt]
      simp [h1]
    · have hi' : ((visibleNode c).map (k :: ·)).length ≤ i := Nat.le_of_not_lt hi
      rw [List.getElem?_append_right hi'] at h
      obtain ⟨j, q', hq, hj⟩ := ihcs (k + 1) _ q h
      refine ⟨j + 1, q', by rw [hq]; congr 1; omega, ?_⟩
      simp only [List.modify_succ_cons, visibleFrom]
      rw [List.getElem?_append_right hi']
      exact hj

theorem visible_store_index_forest (ns : List ASTNode) (i : Nat) (q : Ptr)
    (h : (visibleForest ns)[i]? = some q) :
    (visibleForest (store ASTNode.negateCollapsed ns q))[i]? = some q := by
  obtain ⟨j, q', hq, hj⟩ := visible_store_index.2 ns 0 i q h
  subst hq
  simp only [Nat.zero_add] at hj ⊢
  rw [store_cons]
  exact hj

/-- The nodes on the way to an address are expanded: the declarative reading
of "listed". -/
theorem visible_mem :
    (∀ n : ASTNode, ∀ q : Ptr, q ∈ visibleNode n ↔
      (loadNode n q ≠ .nil ∧
        ∀ q1 q2 : Ptr, q = q1 ++ q2 → q2 ≠ [] → (loadNode n q1).Collapsed = false)) ∧
    (∀ ns : List ASTNode, ∀ (k : Nat) (q : Ptr), q ∈ visibleFrom k ns ↔
      ∃ j q', q = (k + j) :: q' ∧
        (loadNode (ns.getD j .nil) q' ≠ .nil ∧
          ∀ q1 q2 : Ptr, q' = q1 ++ q2 → q2 ≠ [] →
            (loadNode (ns.getD j .nil) q1).Collapsed = false)) := by
  refine @tree_induction
    (fun n => ∀ q : Ptr, q ∈ visibleNode n ↔
      (loadNode n q ≠ .nil ∧
        ∀ q1 q2 : Ptr, q = q1 ++ q2 → q2 ≠ [] → (loadNode n q1).Collapsed = false))
    (fun ns => ∀ (k : Nat) (q : Ptr), q ∈ visibleFrom k ns ↔
      ∃ j q', q = (k + j) :: q' ∧
        (loadNode (ns.getD j .nil) q' ≠ .nil ∧
          ∀ q1 q2 : Ptr, q' = q1 ++ q2 → q2 ≠ [] →
            (loadNode (ns.getD j .nil) q1).Collapsed = false))
    ?_ ?_ ?_ ?_
  · intro q
    have : loadNode .nil q = .nil := by
      cases q with
      | nil => rfl
      | cons a b => simp [loadNode, ASTNode.Children, load_nil]
    simp [visibleNode, this]
  · intro l cs i c ih q
    cases q with
    | nil =>
      simp only [visibleNode, List.mem_cons, true_or, loadNode, ne_eq, true_iff]
      refine ⟨by simp, ?_⟩
      intro q1 q2 h hq2
      have hlen := congrArg List.length h
      simp only [List.length_nil, List.length_append] at hlen
      exact absurd (List.length_eq_zero.1 (by omega)) hq2
    | cons j q' =>
      cases c with
      | true =>
        simp only [visibleNode, if_true, List.mem_cons, List.not_mem_nil, or_false]
        constructor
        · intro h; cases h
        · rintro ⟨_, h⟩
          have := h [] (j :: q') rfl (by simp)
          simp [loadNode, ASTNode.Collapsed] at this
      | false =>
        simp only [visibleNode, List.mem_cons, Bool.false_eq_true, if_false]
        rw [show (j :: q' = [] ∨ j :: q' ∈ visibleFrom 0 cs) ↔ j :: q' ∈ visibleFrom 0 cs by simp,
          ih 0 (j :: q')]
        constructor
        · rintro ⟨j0, q0, h, hl, hc⟩
          simp only [Nat.zero_add, List.cons.injEq] at h
          obtain ⟨rfl, rfl⟩ := h
          refine ⟨by simpa [loadNode, ASTNode.Children, load_cons] using hl, ?_⟩
          intro q1 q2 h hq2
          cases q1 with
          | nil => simp [loadNode, ASTNode.Collapsed]
          | cons a q1' =>
            simp only [List.cons_append, List.cons.injEq] at h
            obtain ⟨rfl, h⟩ := h
            simp only [loadNode, ASTNode.Children, load_cons]
            exact hc q1' q2 h hq2
        · rintro ⟨hl, hc⟩
          refine ⟨j, q', by simp, by simpa [loadNode, ASTNode.Children, load_cons] using hl, ?_⟩
          intro q1 q2 h hq2
          have := hc (j :: q1) q2 (by simp [h]) hq2
          simpa [loadNode, ASTNode.Children, load_cons] using this
  · intro k q
    simp only [visibleFrom, List.not_mem_nil, List.getD_nil, false_iff]
    rintro ⟨j, q', _, hl, _⟩
    apply hl
    cases q' with
    | nil => rfl
    | cons a b => simp [loadNode, ASTNode.Children, load_nil]
  · intro c cs ihc ihcs k q
    simp only [visibleFrom, List.mem_append, List.mem_map]
    rw [ihcs (k + 1) q]
    constructor
    · rintro (⟨q0, hq0, rfl⟩ | ⟨j, q', rfl, hl⟩)
      · exact ⟨0, q0, by simp, by simpa using (ihc q0).1 hq0⟩
      · exact ⟨j + 1, q', by congr 1; omega, by simpa using hl⟩
    · rintro ⟨j, q', rfl, hl⟩
      cases j with
      | zero =>
        left
        exact ⟨q', (ihc q').2 (by simpa using hl), by simp⟩
      | succ j =>
        right
        exact ⟨j, q', by congr 1; omega, by simpa using hl⟩

/-- An address is listed if and only if there is a node at it and every node
on the way to it, from its root on, is expanded. -/
theorem visibleForest_mem (forest : List ASTNode) (q : Ptr) :
    q ∈ visibleForest forest ↔
      (load forest q ≠ .nil ∧
        ∀ q1 q2 : Ptr, q = q1 ++ q2 → q1 ≠ [] → q2 ≠ [] →
          (load forest q1).Collapsed = false) := by
  rw [visibleForest, visible_mem.2 forest 0 q]
  constructor
  · rintro ⟨j, q', rfl, hl, hc⟩
    refine ⟨by rw [load_cons]; simpa using hl, ?_⟩
    intro q1 q2 h hq1 hq2
    cases q1 with
    | nil => exact absurd rfl hq1
    | cons a q1' =>
      simp only [List.cons_append, List.cons.injEq, Nat.zero_add] at h
      obtain ⟨rfl, h⟩ := h
      rw [load_cons]
      exact hc q1' q2 h hq2
  · rintro ⟨hl, hc⟩
    cases q with
    | nil => exact absurd rfl hl
    | cons j q' =>
      rw [load_cons] at hl
      refine ⟨j, q', by simp, hl, ?_⟩
      intro q1 q2 h hq2
      have := hc (j :: q1) q2 (by simp [h]) (by simp) hq2
      rwa [load_cons] at this

/-- C1. On a forest of display nodes, `FlattenNodes` returns exactly the
depth-first pre-order listing that emits every visited node and visits the
children of a node, in order, if and only if the node is not collapsed: a
collapsed node is listed, none of its descendants is.  So an address is in
the result if and only if there is a node at it and all nodes above it are
expanded. -/
theorem FlattenNodes_eq_visibleForest (forest : List ASTNode)
    (h : noNilForest forest = true) :
    FlattenNodes forest = some (visibleForest forest) ∧
    ∀ q : Ptr, q ∈ visibleForest forest ↔
      (load forest q ≠ .nil ∧
        ∀ q1 q2 : Ptr, q = q1 ++ q2 → q1 ≠ [] → q2 ≠ [] →
          (load forest q1).Collapsed = false) := by
  refine ⟨?_, visibleForest_mem forest⟩
  unfold FlattenNodes visibleForest
  rw [FlattenNodes_loop_of_noNil forest h 0 []]
  rfl

theorem getD_modify (f : ASTNode → ASTNode) (hf : f .nil = .nil) (ns : List ASTNode) (k j : Nat) :
    (ns.modify f k).getD j .nil = if k = j then f (ns.getD j .nil) else ns.getD j .nil := by
  rw [List.getD_eq_getElem?_getD, List.getD_eq_getElem?_getD, List.getElem?_modify]
  cases h : ns[j]? with
  | none => by_cases hk : k = j <;> simp [hk, hf]
  | some a => by_cases hk : k = j <;> simp [hk]

theorem store_negate_twice (p : Ptr) : ∀ ns : List ASTNode,
    store ASTNode.negateCollapsed (store ASTNode.negateCollapsed ns p) p = ns := by
  induction p with
  | nil => intro ns; simp [store]
  | cons k p ih =>
    intro ns
    rw [store_cons, store_cons, List.modify_modify_eq]
    have : ((fun n => storeNode ASTNode.negateCollapsed n p) ∘
        (fun n => storeNode ASTNode.negateCollapsed n p)) = id := by
      funext n
      cases p with
      | nil =>
        cases n <;>
          simp [storeNode, ASTNode.negateCollapsed, ASTNode.setCollapsed, ASTNode.Collapsed]
      | cons j p' =>
        cases n with
        | nil => simp [storeNode, ASTNode.setChildren]
        | mk l cs i c =>
          simp only [Function.comp, storeNode_mk_cons, id]
          rw [ih]
    rw [this, List.modify_id]

theorem eraseCollapsedForest_eq_map (ns : List ASTNode) :
    eraseCollapsedForest ns = ns.map ASTNode.eraseCollapsed := by
  induction ns with
  | nil => rfl
  | cons c cs ih => simp [eraseCollapsedForest, ih]

theorem map_modify_of_invariant {α β : Type} (h : α → β) (f : α → α) (hf : ∀ a, h (f a) = h a)
    (l : List α) : ∀ k, (l.modify f k).map h = l.map h := by
  induction l with
  | nil => intro k; simp
  | cons a l ih =>
    intro k
    cases k with
    | zero => simp [hf]
    | succ k => simp [ih]

theorem eraseCollapsed_store (p : Ptr) : ∀ ns : List ASTNode,
    eraseCollapsedForest (store ASTNode.negateCollapsed ns p) = eraseCollapsedForest ns := by
  induction p with
  | nil => intro ns; simp [store]
  | cons k p ih =>
    intro ns
    rw [store_cons, eraseCollapsedForest_eq_map, eraseCollapsedForest_eq_map]
    apply map_modify_of_invariant
    intro n
    cases p with
    | nil =>
      cases n <;>
        simp [storeNode, ASTNode.negateCollapsed, ASTNode.setCollapsed, ASTNode.eraseCollapsed]
    | cons j p' =>
      cases n with
      | nil => simp [storeNode, ASTNode.setChildren]
      | mk l cs i c =>
        rw [storeNode_mk_cons]
        simp only [ASTNode.eraseCollapsed, ih]

theorem noNil_eraseCollapsed :
    (∀ n : ASTNode, n.eraseCollapsed.noNil = n.noNil) ∧
    (∀ ns : List ASTNode, noNilForest (eraseCollapsedForest ns) = noNilForest ns) := by
  refine @tree_induction
    (fun n => n.eraseCollapsed.noNil = n.noNil)
    (fun ns => noNilForest (eraseCollapsedForest ns) = noNilForest ns) ?_ ?_ ?_ ?_
  · rfl
  · intro l cs i c ih; simpa [ASTNode.eraseCollapsed, ASTNode.noNil] using ih
  · rfl
  · intro c cs ihc ihcs; simp [eraseCollapsedForest, noNilForest, ihc, ihcs]

theorem noNilForest_store (ns : List ASTNode) (p : Ptr) :
    noNilForest (store ASTNode.negateCollapsed ns p) = noNilForest ns := by
  rw [← noNil_eraseCollapsed.2, eraseCollapsed_store, noNil_eraseCollapsed.2]

theorem eraseCollapsed_children (n : ASTNode) :
    n.eraseCollapsed.Children = eraseCollapsedForest n.Children := by
  cases n <;> simp [ASTNode.eraseCollapsed, ASTNode.Children, eraseCollapsedForest]

theorem load_eraseCollapsed (q : Ptr) : ∀ ns : List ASTNode,
    load (eraseCollapsedForest ns) q = (load ns q).eraseCollapsed := by
  induction q with
  | nil => intro ns; simp [load, ASTNode.eraseCollapsed]
  | cons k q ih =>
    intro ns
    have hg : (eraseCollapsedForest ns).getD k .nil = (ns.getD k .nil).eraseCollapsed := by
      rw [eraseCollapsedForest_eq_map, List.getD_eq_getElem?_getD, List.getD_eq_getElem?_getD,
        List.getElem?_map]
      cases ns[k]? <;> simp [ASTNode.eraseCollapsed]
    cases q with
    | nil => simp only [load]; exact hg
    | cons j q' =>
      simp only [load, hg, eraseCollapsed_children]
      exact ih _

theorem eraseCollapsed_fields (n : ASTNode) :
    n.eraseCollapsed.Label = n.Label ∧ n.eraseCollapsed.IndentLevel = n.IndentLevel ∧
    n.eraseCollapsed.Children.length = n.Children.length ∧
    (n.eraseCollapsed = .nil ↔ n = .nil) := by
  cases n with
  | nil => simp [ASTNode.eraseCollapsed]
  | mk l cs i c =>
    simp [ASTNode.eraseCollapsed, ASTNode.Label, ASTNode.IndentLevel, ASTNode.Children,
      eraseCollapsedForest_eq_map]

/-- Two forests that differ in `Collapsed` flags only have, at every address,
the same label, indent level, number of children and nil-ness. -/
theorem fields_of_eraseCollapsed_eq (f g : List ASTNode)
    (h : eraseCollapsedForest f = eraseCollapsedForest g) (q : Ptr) :
    (load f q).Label = (load g q).Label ∧ (load f q).IndentLevel = (load g q).IndentLevel ∧
    (load f q).Children.length = (load g q).Children.length ∧
    (load f q = .nil ↔ load g q = .nil) := by
  have h1 := load_eraseCollapsed q f
  have h2 := load_eraseCollapsed q g
  rw [h] at h1
  have h3 : (load f q).eraseCollapsed = (load g q).eraseCollapsed := by rw [← h1, ← h2]
  have a := eraseCollapsed_fields (load f q)
  have b := eraseCollapsed_fields (load g q)
  rw [h3] at a
  refine ⟨a.1.symm.trans b.1, a.2.1.symm.trans b.2.1, a.2.2.1.symm.trans b.2.2.1, ?_⟩
  exact a.2.2.2.symm.trans b.2.2.2

theorem collapsed_load_store (p : Ptr) : ∀ (ns : List ASTNode) (q : Ptr),
    (load (store ASTNode.negateCollapsed ns p) q).Collapsed =
      if q = p then (load ns p).negateCollapsed.Collapsed else (load ns q).Collapsed := by
  induction p with
  | nil =>
    intro ns q
    cases q with
    | nil => simp [store, load, ASTNode.negateCollapsed, ASTNode.setCollapsed]
    | cons j q => simp [store]
  | cons k p ih =>
    intro ns q
    cases q with
    | nil => simp [load, ASTNode.Collapsed]
    | cons j q =>
      have hnil : storeNode ASTNode.negateCollapsed .nil p = .nil := by
        cases p <;> rfl
      rw [store_cons, load_cons, load_cons, load_cons,
        getD_modify (fun n => storeNode ASTNode.negateCollapsed n p) hnil]
      by_cases hkj : k = j
      · subst hkj
        simp only [if_true, List.cons.injEq, true_and]
        generalize ns.getD k .nil = n
        cases p with
        | nil =>
          cases q with
          | nil => simp [storeNode, loadNode]
          | cons j q =>
            cases n <;> simp [storeNode, loadNode, ASTNode.negateCollapsed, ASTNode.setCollapsed,
              ASTNode.Children]
        | cons k2 p2 =>
          cases q with
          | nil =>
            cases n <;> simp [storeNode, loadNode, ASTNode.setChildren, ASTNode.Collapsed]
          | cons j q =>
            cases n with
            | nil =>
              rw [storeNode_nil_cons]
              simp only [loadNode, ASTNode.Children, load_nil]
              simp [ASTNode.negateCollapsed, ASTNode.setCollapsed, ASTNode.Collapsed]
            | mk l cs i c =>
              rw [storeNode_mk_cons]
              simp only [loadNode, ASTNode.Children]
              exact ih cs (j :: q)
      · have : ¬ (j :: q = k :: p) := by
          intro h; injection h with h1 h2; exact hkj h1.symm
        simp [hkj, this]

/-! ## Toggle by index -/

theorem toggle_eq_store (r : RightPanel) (i : Int) (flat : List Ptr) (p : Ptr)
    (hf : FlattenNodes r.astNodes = some flat) (h0 : 0 ≤ i) (hp : flat[i.toNat]? = some p)
    (hc : (load r.astNodes p).Children ≠ []) :
    toggleNodeCollapse r i =
      some { r with astNodes := store ASTNode.negateCollapsed r.astNodes p } := by
  obtain ⟨hlt, hget⟩ := List.getElem?_eq_some.1 hp
  have hlt' : i < (flat.length : Int) := by omega
  have hd : flat.getD i.toNat [] = p := by
    rw [List.getD_eq_getElem?_getD, hp]; rfl
  have hpos : 0 < (load r.astNodes p).Children.length := List.length_pos.2 hc
  unfold toggleNodeCollapse
  rw [if_neg (by omega)]
  simp only [hf]
  rw [if_neg (by omega)]
  simp only [hd]
  rw [if_pos hpos]

/-- C2. On a forest of display nodes, toggling twice through the same
flattened index of a node that has a child (flattening again in between)
succeeds both times, gives back the original forest, hence the original
`Collapsed` flag of every node, and the original flattened sequence; the
forest in between has the flag of the addressed node negated. -/
theorem toggle_twice_restores (r : RightPanel) (i : Int) (flat : List Ptr) (p : Ptr)
    (hn : noNilForest r.astNodes = true)
    (hf : FlattenNodes r.astNodes = some flat) (h0 : 0 ≤ i) (hp : flat[i.toNat]? = some p)
    (hc : (load r.astNodes p).Children ≠ []) :
    ∃ r1 r2, toggleNodeCollapse r i = some r1 ∧ toggleNodeCollapse r1 i = some r2 ∧
      (load r1.astNodes p).Collapsed = !(load r.astNodes p).Collapsed ∧
      r2 = r ∧
      (∀ q, (load r2.astNodes q).Collapsed = (load r.astNodes q).Collapsed) ∧
      FlattenNodes r2.astNodes = some flat := by
  have e1 := toggle_eq_store r i flat p hf h0 hp hc
  have hflat := FlattenNodes_some _ _ hf
  have hn1 : noNilForest (store ASTNode.negateCollapsed r.astNodes p) = true := by
    rw [noNilForest_store]; exact hn
  have hf1 := FlattenNodes_of_noNil _ hn1
  have hp1 : (visibleForest (store ASTNode.negateCollapsed r.astNodes p))[i.toNat]? = some p :=
    visible_store_index_forest _ _ _ (by rw [← hflat]; exact hp)
  have hfields := fields_of_eraseCollapsed_eq _ _ (eraseCollapsed_store p r.astNodes) p
  have hc1 : (load (store ASTNode.negateCollapsed r.astNodes p) p).Children ≠ [] := by
    intro h
    apply hc
    have := hfields.2.2.1
    rw [h] at this
    exact List.length_eq_zero.1 this.symm
  have e2 := toggle_eq_store { r with astNodes := store ASTNode.negateCollapsed r.astNodes p }
    i _ p hf1 h0 hp1 hc1
  simp only [store_negate_twice] at e2
  refine ⟨_, _, e1, e2, ?_, rfl, fun _ => rfl, hf⟩
  have hne : load r.astNodes p ≠ .nil := by
    intro h; apply hc; rw [h]; rfl
  have := collapsed_load_store p r.astNodes p
  simp only [if_true] at this
  rw [this]
  cases hl : load r.astNodes p with
  | nil => exact absurd hl hne
  | mk l cs lvl c => simp [ASTNode.negateCollapsed, ASTNode.setCollapsed, ASTNode.Collapsed]

/-- C3. Toggling with a negative index, or with an index at or beyond the
length of the flattened sequence, succeeds and leaves the panel, and with it
the whole forest, unchanged; the empty forest is included. -/
theorem toggle_out_of_range (r : RightPanel) (i : Int)
    (h : i < 0 ∨ ∃ flat, FlattenNodes r.astNodes = some flat ∧ (flat.length : Int) ≤ i) :
    toggleNodeCollapse r i = some r := by
  unfold toggleNodeCollapse
  rcases h with h | ⟨flat, hf, hlen⟩
  · rw [if_pos h]
  · by_cases hneg : i < 0
    · rw [if_pos hneg]
    · rw [if_neg hneg]
      simp only [hf]
      rw [if_pos hlen]

/-- C4. Toggling through an in-range index whose node has no children
succeeds and leaves the panel, and with it the whole forest, unchanged,
whatever the `Collapsed` flag of that node is. -/
theorem toggle_leaf_unchanged (r : RightPanel) (i : Int) (flat : List Ptr) (p : Ptr)
    (hf : FlattenNodes r.astNodes = some flat) (h0 : 0 ≤ i) (hp : flat[i.toNat]? = some p)
    (hc : (load r.astNodes p).Children = []) :
    toggleNodeCollapse r i = some r := by
  obtain ⟨hlt, hget⟩ := List.getElem?_eq_some.1 hp
  have hd : flat.getD i.toNat [] = p := by
    rw [List.getD_eq_getElem?_getD, hp]; rfl
  unfold toggleNodeCollapse
  rw [if_neg (by omega)]
  simp only [hf]
  rw [if_neg (by omega)]
  simp only [hd, hc, List.length_nil, lt_self_iff_false, if_false]

/-- C5. Toggling through an in-range index whose node has a child negates the
`Collapsed` flag of the node at that position of the fresh flatten and changes
nothing else: the forest keeps its labels, indent levels and children (it is
the same once the flags are erased), and at every other address the flag is
what it was. -/
theorem toggle_flips_only_target (r : RightPanel) (i : Int) (flat : List Ptr) (p : Ptr)
    (hf : FlattenNodes r.astNodes = some flat) (h0 : 0 ≤ i) (hp : flat[i.toNat]? = some p)
    (hc : (load r.astNodes p).Children ≠ []) :
    ∃ r1, toggleNodeCollapse r i = some r1 ∧
      r1.listItems = r.listItems ∧
      r1.astNodes.length = r.astNodes.length ∧
      eraseCollapsedForest r1.astNodes = eraseCollapsedForest r.astNodes ∧
      (load r1.astNodes p).Collapsed = !(load r.astNodes p).Collapsed ∧
      ∀ q, (q ≠ p → (load r1.astNodes q).Collapsed = (load r.astNodes q).Collapsed) ∧
        (load r1.astNodes q).Label = (load r.astNodes q).Label ∧
        (load r1.astNodes q).IndentLevel = (load r.astNodes q).IndentLevel ∧
        (load r1.astNodes q).Children.length = (load r.astNodes q).Children.length ∧
        (load r1.astNodes q = .nil ↔ load r.astNodes q = .nil) := by
  have e1 := toggle_eq_store r i flat p hf h0 hp hc
  have her := eraseCollapsed_store p r.astNodes
  refine ⟨_, e1, rfl, ?_, her, ?_, fun q => ⟨?_, fields_of_eraseCollapsed_eq _ _ her q⟩⟩
  · have := congrArg List.length her
    simpa [eraseCollapsedForest_eq_map] using this
  · have hne : load r.astNodes p ≠ .nil := by
      intro h; apply hc; rw [h]; rfl
    have := collapsed_load_store p r.astNodes p
    simp only [if_true] at this
    show (load (store ASTNode.negateCollapsed r.astNodes p) p).Collapsed = _
    rw [this]
    cases hl : load r.astNodes p with
    | nil => exact absurd hl hne
    | mk l cs lvl c => simp [ASTNode.negateCollapsed, ASTNode.setCollapsed, ASTNode.Collapsed]
  · intro hq
    have := collapsed_load_store p r.astNodes q
    rw [if_neg hq] at this
    exact this

/-! ## The fully expanded forest -/

theorem visible_eq_preorder :
    (∀ n : ASTNode, n.allExpanded = true → visibleNode n = preorderNode n) ∧
    (∀ ns : List ASTNode, allExpandedForest ns = true →
      ∀ k, visibleFrom k ns = preorderFrom k ns) := by
  refine @tree_induction
    (fun n => n.allExpanded = true → visibleNode n = preorderNode n)
    (fun ns => allExpandedForest ns = true → ∀ k, visibleFrom k ns = preorderFrom k ns)
    ?_ ?_ ?_ ?_
  · intro _; rfl
  · intro l cs i c ih h
    simp only [ASTNode.allExpanded, Bool.and_eq_true, Bool.not_eq_true'] at h
    simp [visibleNode, preorderNode, h.1, ih h.2]
  · intro _ k; rfl
  · intro c cs ihc ihcs h k
    simp only [allExpandedForest, Bool.and_eq_true] at h
    simp [visibleFrom, preorderFrom, ihc h.1, ihcs h.2]

theorem preorder_length :
    (∀ n : ASTNode, (preorderNode n).length = n.count) ∧
    (∀ ns : List ASTNode, ∀ k, (preorderFrom k ns).length = countForest ns) := by
  refine @tree_induction
    (fun n => (preorderNode n).length = n.count)
    (fun ns => ∀ k, (preorderFrom k ns).length = countForest ns) ?_ ?_ ?_ ?_
  · rfl
  · intro l cs i c ih; simp [preorderNode, ASTNode.count, ih]; omega
  · intro k; rfl
  · intro c cs ihc ihcs k; simp [preorderFrom, countForest, ihc, ihcs]

theorem preorder_mem :
    (∀ n : ASTNode, ∀ q : Ptr, q ∈ preorderNode n ↔ loadNode n q ≠ .nil) ∧
    (∀ ns : List ASTNode, ∀ (k : Nat) (q : Ptr), q ∈ preorderFrom k ns ↔
      ∃ j q', q = (k + j) :: q' ∧ loadNode (ns.getD j .nil) q' ≠ .nil) := by
  have step1 : ∀ (l : String) (cs : List ASTNode) (i : Int) (c : Bool),
      (∀ (k : Nat) (q : Ptr), q ∈ preorderFrom k cs ↔
        ∃ j q', q = (k + j) :: q' ∧ loadNode (cs.getD j .nil) q' ≠ .nil) →
      ∀ q : Ptr, q ∈ preorderNode (.mk l cs i c) ↔ loadNode (.mk l cs i c) q ≠ .nil := by
    intro l cs i c ih q
    cases q with
    | nil => simp [preorderNode, loadNode]
    | cons j q' =>
      simp only [preorderNode, List.mem_cons, loadNode, ASTNode.Children, load_cons]
      rw [ih 0 (j :: q')]
      constructor
      · rintro (h | ⟨j0, q0, h, hl⟩)
        · cases h
        · simp only [Nat.zero_add, List.cons.injEq] at h
          obtain ⟨rfl, rfl⟩ := h
          exact hl
      · intro hl
        exact Or.inr ⟨j, q', by simp, hl⟩
  have step2 : ∀ (c : ASTNode) (cs : List ASTNode),
      (∀ q : Ptr, q ∈ preorderNode c ↔ loadNode c q ≠ .nil) →
      (∀ (k : Nat) (q : Ptr), q ∈ preorderFrom k cs ↔
        ∃ j q', q = (k + j) :: q' ∧ loadNode (cs.getD j .nil) q' ≠ .nil) →
      ∀ (k : Nat) (q : Ptr), q ∈ preorderFrom k (c :: cs) ↔
        ∃ j q', q = (k + j) :: q' ∧ loadNode ((c :: cs).getD j .nil) q' ≠ .nil := by
    intro c cs ihc ihcs k q
    simp only [preorderFrom, List.mem_append, List.mem_map]
    rw [ihcs (k + 1) q]
    constructor
    · rintro (⟨q0, hq0, rfl⟩ | ⟨j, q', rfl, hl⟩)
      · exact ⟨0, q0, by simp, by simpa using (ihc q0).1 hq0⟩
      · exact ⟨j + 1, q', by congr 1; omega, by simpa using hl⟩
    · rintro ⟨j, q', rfl, hl⟩
      cases j with
      | zero =>
        left
        exact ⟨q', (ihc q').2 (by simpa using hl), by simp⟩
      | succ j =>
        right
        exact ⟨j, q', by congr 1; omega, by simpa using hl⟩
  have step3 : ∀ (k : Nat) (q : Ptr), q ∈ preorderFrom k [] ↔
      ∃ j q', q = (k + j) :: q' ∧ loadNode (([] : List ASTNode).getD j .nil) q' ≠ .nil := by
    intro k q
    simp only [preorderFrom, List.not_mem_nil, List.getD_nil, false_iff]
    rintro ⟨j, q', _, hl⟩
    apply hl
    cases q' with
    | nil => rfl
    | cons a b => simp [loadNode, ASTNode.Children, load_nil]
  have step0 : ∀ q : Ptr, q ∈ preorderNode .nil ↔ loadNode .nil q ≠ .nil := by
    intro q
    simp only [preorderNode, List.not_mem_nil, false_iff, not_not]
    cases q with
    | nil => rfl
    | cons a b => simp [loadNode, ASTNode.Children, load_nil]
  exact @tree_induction
    (fun n => ∀ q : Ptr, q ∈ preorderNode n ↔ loadNode n q ≠ .nil)
    (fun ns => ∀ (k : Nat) (q : Ptr), q ∈ preorderFrom k ns ↔
      ∃ j q', q = (k + j) :: q' ∧ loadNode (ns.getD j .nil) q' ≠ .nil)
    step0 step1 step3 step2

theorem preorderForest_mem (forest : List ASTNode) (q : Ptr) :
    q ∈ preorderForest forest ↔ load forest q ≠ .nil := by
  rw [preorderForest, preorder_mem.2 forest 0 q]
  constructor
  · rintro ⟨j, q', rfl, hl⟩
    rw [load_cons]; simpa using hl
  · intro hl
    cases q with
    | nil => exact absurd rfl hl
    | cons j q' =>
      rw [load_cons] at hl
      exact ⟨j, q', by simp, hl⟩

theorem preorder_head_ge (ns : List ASTNode) : ∀ (k : Nat) (q : Ptr),
    q ∈ preorderFrom k ns → ∃ j q', q = (k + j) :: q' := by
  intro k q h
  obtain ⟨j, q', hq, _⟩ := (preorder_mem.2 ns k q).1 h
  exact ⟨j, q', hq⟩

theorem preorder_nodup :
    (∀ n : ASTNode, (preorderNode n).Nodup) ∧
    (∀ ns : List ASTNode, ∀ k, (preorderFrom k ns).Nodup) := by
  have step1 : ∀ (l : String) (cs : List ASTNode) (i : Int) (c : Bool),
      (∀ k, (preorderFrom k cs).Nodup) → (preorderNode (.mk l cs i c)).Nodup := by
    intro l cs i c ih
    simp only [preorderNode, List.nodup_cons]
    refine ⟨?_, ih 0⟩
    intro h
    obtain ⟨j, q', hq⟩ := preorder_head_ge cs 0 [] h
    cases hq
  have step2 : ∀ (c : ASTNode) (cs : List ASTNode), (preorderNode c).Nodup →
      (∀ k, (preorderFrom k cs).Nodup) → ∀ k, (preorderFrom k (c :: cs)).Nodup := by
    intro c cs ihc ihcs k
    simp only [preorderFrom]
    rw [List.nodup_append]
    refine ⟨ihc.map (fun a b h => by injection h), ihcs (k + 1), ?_⟩
    intro q h1 h2
    simp only [List.mem_map] at h1
    obtain ⟨q0, _, rfl⟩ := h1
    obtain ⟨j, q', hq⟩ := preorder_head_ge cs (k + 1) _ h2
    injection hq with h3 _
    omega
  exact @tree_induction (fun n => (preorderNode n).Nodup)
    (fun ns => ∀ k, (preorderFrom k ns).Nodup)
    (by simp [preorderNode]) step1 (by intro k; simp [preorderFrom]) step2

/-- C6. On a forest of display nodes in which every node has
`Collapsed = false`, `FlattenNodes` returns the depth-first pre-order listing
of all nodes: its length is the total number of nodes of the forest, no
address occurs twice, and an address occurs if and only if there is a node at
it. -/
theorem FlattenNodes_all_expanded (forest : List ASTNode)
    (hn : noNilForest forest = true) (he : allExpandedForest forest = true) :
    ∃ flat, FlattenNodes forest = some flat ∧ flat = preorderForest forest ∧
      flat.length = countForest forest ∧ flat.Nodup ∧
      ∀ q : Ptr, q ∈ flat ↔ load forest q ≠ .nil := by
  refine ⟨preorderForest forest, ?_, rfl, preorder_length.2 forest 0, preorder_nodup.2 forest 0,
    preorderForest_mem forest⟩
  rw [FlattenNodes_of_noNil forest hn, visibleForest, preorderForest,
    visible_eq_preorder.2 forest he 0]

/-! ## Display rows -/

theorem buildListItems_loop_getElem (astNodes : List ASTNode) (flat : List Ptr) :
    ∀ (i : Nat) (acc : List ListItem),
      (buildListItems.loop astNodes i flat acc).length = acc.length + flat.length ∧
      (∀ j, j < acc.length → (buildListItems.loop astNodes i flat acc)[j]? = acc[j]?) ∧
      ∀ (j : Nat) (p : Ptr), flat[j]? = some p →
        (buildListItems.loop astNodes i flat acc)[acc.length + j]? =
          some (buildListItems.item (i + j) (load astNodes p)) := by
  induction flat with
  | nil => intro i acc; simp [buildListItems.loop]
  | cons a flat ih =>
    intro i acc
    obtain ⟨h1, h2, h3⟩ := ih (i + 1) (acc ++ [buildListItems.item i (load astNodes a)])
    simp only [buildListItems.loop]
    refine ⟨by rw [h1]; simp; omega, ?_, ?_⟩
    · intro j hj
      rw [h2 j (by simp; omega), List.getElem?_append_left hj]
    · intro j p hp
      cases j with
      | zero =>
        simp only [List.getElem?_cons_zero, Option.some.injEq] at hp
        subst hp
        rw [h2 _ (by simp)]
        simp
      | succ j =>
        simp only [List.getElem?_cons_succ] at hp
        have := h3 j p hp
        simp only [List.length_append, List.length_singleton] at this
        rw [show acc.length + (j + 1) = acc.length + 1 + j by omega,
          show i + (j + 1) = i + 1 + j by omega]
        exact this

/-- C9. `buildListItems` leaves the forest as it is and produces exactly one
row per entry of the flattened sequence, in the same order: the row at
position `j` has `Value = j`, the indent level and the flag of the node, and
as text a marker of four characters followed by the label of the node; the
marker is `"[+] "` for a collapsed node with children, `"[-] "` for an
expanded node with children and four spaces for a node without children. -/
theorem buildListItems_rows (r : RightPanel) (flat : List Ptr)
    (hf : FlattenNodes r.astNodes = some flat) :
    ∃ r1, buildListItems r = some r1 ∧ r1.astNodes = r.astNodes ∧
      r1.listItems.length = flat.length ∧
      ∀ (j : Nat) (p : Ptr), flat[j]? = some p →
        ∃ marker : String, marker.length = 4 ∧
          marker = (if (load r.astNodes p).Children = [] then "    "
                    else if (load r.astNodes p).Collapsed = true then "[+] " else "[-] ") ∧
          r1.listItems[j]? = some
            { Text := marker ++ (load r.astNodes p).Label,
              IndentLevel := (load r.astNodes p).IndentLevel,
              Value := (j : Int),
              Collapsed := (load r.astNodes p).Collapsed } := by
  have hitem : ∀ (j : Nat) (n : ASTNode), ∃ marker : String, marker.length = 4 ∧
      marker = (if n.Children = [] then "    "
                else if n.Collapsed = true then "[+] " else "[-] ") ∧
      buildListItems.item j n =
        { Text := marker ++ n.Label, IndentLevel := n.IndentLevel, Value := (j : Int),
          Collapsed := n.Collapsed } := by
    intro j n
    refine ⟨_, ?_, rfl, ?_⟩
    · by_cases h1 : n.Children = []
      · simp [h1]; decide
      · by_cases h2 : n.Collapsed = true
        · simp [h1, h2]; decide
        · simp [h1, h2]; decide
    · by_cases h1 : n.Children = []
      · simp [buildListItems.item, h1]
      · have : 0 < n.Children.length := List.length_pos.2 h1
        by_cases h2 : n.Collapsed = true
        · simp [buildListItems.item, h1, h2, this]
        · simp [buildListItems.item, h1, h2, this]
  by_cases hemp : r.astNodes = []
  · have hflat : flat = [] := by
      rw [hemp] at hf
      simp [FlattenNodes, FlattenNodes.loop] at hf
      exact hf
    subst hflat
    refine ⟨{ r with listItems := [] }, ?_, rfl, rfl, ?_⟩
    · simp [buildListItems, hemp]
    · intro j p hp; simp at hp
  · obtain ⟨h1, _, h3⟩ := buildListItems_loop_getElem r.astNodes flat 0 []
    refine ⟨{ r with listItems := buildListItems.loop r.astNodes 0 flat [] }, ?_, rfl, ?_, ?_⟩
    · simp [buildListItems, hemp, hf]
    · simpa using h1
    · intro j p hp
      obtain ⟨marker, hm1, hm2, hm3⟩ := hitem j (load r.astNodes p)
      refine ⟨marker, hm1, hm2, ?_⟩
      have := h3 j p hp
      simp only [List.length_nil, Nat.zero_add] at this
      rw [this, hm3]

/-! ## ParseTxtar -/

theorem ParseTxtar_loop_eq (parseFile : String → String → Except String File)
    (files : List TxtarFile) : ∀ nodes : List ASTNode,
    ParseTxtar.loop parseFile files nodes =
      nodes ++ (files.filter (fun file => HasSuffix file.Name ".go")).map
        (ParseTxtar.root parseFile) := by
  induction files with
  | nil => intro nodes; simp [ParseTxtar.loop]
  | cons file rest ih =>
    intro nodes
    by_cases h : HasSuffix file.Name ".go" = true
    · simp [ParseTxtar.loop, h, ih]
    · simp [ParseTxtar.loop, h, ih]

theorem ParseTxtar_eq (txtarParse : String → Archive)
    (parseFile : String → String → Except String File) (content : String) :
    ParseTxtar txtarParse parseFile content =
      if goFiles (txtarParse content) = [] then .error "no .go files found in txtar content"
      else .ok ((goFiles (txtarParse content)).map (ParseTxtar.root parseFile)) := by
  simp only [ParseTxtar, ParseTxtar_loop_eq, List.nil_append, List.length_map, goFiles]
  by_cases h : (txtarParse content).Files.filter (fun file => HasSuffix file.Name ".go") = []
  · simp [h]
  · have : ((txtarParse content).Files.filter (fun file => HasSuffix file.Name ".go")).length ≠ 0 :=
      fun h0 => h (List.length_eq_zero.1 h0)
    simp [h, this]

/-- C7. `ParseTxtar` returns its "no .go files" error, and no forest, exactly
when the archive has no entry whose name ends in `.go`; in every other case it
returns a forest that is not empty and no error, whatever the parser answers
for the entries, so also when each of them fails to parse. -/
theorem ParseTxtar_error_iff (txtarParse : String → Archive)
    (parseFile : String → String → Except String File) (content : String) :
    (ParseTxtar txtarParse parseFile content = .error "no .go files found in txtar content" ↔
      goFiles (txtarParse content) = []) ∧
    ((∃ err, ParseTxtar txtarParse parseFile content = .error err) ↔
      goFiles (txtarParse content) = []) ∧
    ((∃ nodes, ParseTxtar txtarParse parseFile content = .ok nodes ∧ nodes ≠ []) ↔
      goFiles (txtarParse content) ≠ []) := by
  rw [ParseTxtar_eq]
  by_cases h : goFiles (txtarParse content) = []
  · simp [h]
  · simp [h]

/-- C8. When the archive has an entry whose name ends in `.go`, the forest of
`ParseTxtar` has exactly one root per such entry, in archive order, and the
root of an entry depends on that entry alone: it is the leaf labeled
`<name> (error: <message>)` at level 1 when the entry fails to parse, and the
node labeled `File: <name>` at level 1 over the nodes of the file when it
parses. -/
theorem ParseTxtar_roots (txtarParse : String → Archive)
    (parseFile : String → String → Except String File) (content : String)
    (h : goFiles (txtarParse content) ≠ []) :
    ∃ nodes, ParseTxtar txtarParse parseFile content = .ok nodes ∧
      nodes.length = (goFiles (txtarParse content)).length ∧
      ∀ (i : Nat) (file : TxtarFile), (goFiles (txtarParse content))[i]? = some file →
        (∀ err, parseFile file.Name file.Data = .error err →
          nodes[i]? = some (.mk (file.Name ++ " (error: " ++ err ++ ")") [] 1 false)) ∧
        (∀ f, parseFile file.Name file.Data = .ok f →
          nodes[i]? = some (.mk ("File: " ++ file.Name) (astToNodes (.File f) 2) 1 false)) := by
  refine ⟨(goFiles (txtarParse content)).map (ParseTxtar.root parseFile), ?_, by simp, ?_⟩
  · rw [ParseTxtar_eq, if_neg h]
  · intro i file hi
    constructor
    · intro err he
      simp [List.getElem?_map, hi, ParseTxtar.root, he]
    · intro f hf
      simp [List.getElem?_map, hi, ParseTxtar.root, hf]

theorem ParseTxtar_roots_witness :
    goFiles (sampleTxtar "") ≠ [] ∧
    ∃ nodes, ParseTxtar sampleTxtar sampleParser "" = .ok nodes ∧
      nodes.length = (goFiles (sampleTxtar "")).length ∧
      ∀ (i : Nat) (file : TxtarFile), (goFiles (sampleTxtar ""))[i]? = some file →
        (∀ err, sampleParser file.Name file.Data = .error err →
          nodes[i]? = some (.mk (file.Name ++ " (error: " ++ err ++ ")") [] 1 false)) ∧
        (∀ f, sampleParser file.Name file.Data = .ok f →
          nodes[i]? = some (.mk ("File: " ++ file.Name) (astToNodes (.File f) 2) 1 false)) :=
  ⟨by decide, ParseTxtar_roots sampleTxtar sampleParser "" (by decide)⟩

/-! ## Function declarations -/

/-- C10. For every function declaration, `funcDeclToNode` returns a node
labeled `Method: (<receiver type>) <name>` when the receiver list has a field
(the type is that of its first field, stringified) and `Func: <name>`
otherwise; its children are, in this order, a `Params` node with one field
node per parameter field if and only if there is a parameter field, a
`Results` node with one field node per result field if and only if there is
a result field, and the statement node of the body, labeled `BlockStmt`, if
and only if there is a body.  On `func (p *Person) Greet() string` with a
body of one `return` the node is `Method: (*Person) Greet` over `Results`,
which holds one `Field: (embedded)` over `Type: string`, and `BlockStmt`,
which holds one `ReturnStmt`. -/
theorem funcDeclToNode_shape :
    (∀ (recv : Option FieldList) (name : Ident) (params results : Option FieldList)
        (body : Option BlockStmt) (level : Int),
      funcDeclToNode (.mk recv name (.mk params results) body) level =
        .mk
          (match fieldsOf recv with
            | [] => "Func: " ++ name.Name
            | recv0 :: _ => "Method: (" ++ exprToString recv0.Type_ ++ ") " ++ name.Name)
          ((if (fieldsOf params).isEmpty then []
              else [.mk "Params" ((fieldsOf params).map (fun p => fieldToNode p (level + 2)))
                (level + 1) false])
            ++ (if (fieldsOf results).isEmpty then []
              else [.mk "Results" ((fieldsOf results).map (fun r => fieldToNode r (level + 2)))
                (level + 1) false])
            ++ (match body with
              | none => []
              | some b => [stmtToNode (.BlockStmt b) (level + 1)]))
          level false) ∧
    (∀ (b : BlockStmt) (level : Int), (stmtToNode (.BlockStmt b) level).Label = "BlockStmt") ∧
    funcDeclToNode greetDecl 2 =
      .mk "Method: (*Person) Greet"
        [.mk "Results" [.mk "Field: (embedded)" [.mk "Type: string" [] 5 false] 4 false] 3 false,
         .mk "BlockStmt"
          [.mk "ReturnStmt"
            [.mk "CallExpr"
              [.mk "Fun: fmt.Sprintf" [] 6 false,
               .mk "Args"
                [.mk "\"Hello, I'm %s\"" [] 7 false,
                 .mk "SelectorExpr: p.Name" [] 7 false] 6 false] 5 false] 4 false] 3 false]
        2 false := by
  refine ⟨?_, ?_, ?_⟩
  · intro recv name params results body level
    rcases recv with _ | ⟨_ | ⟨r0, rs⟩⟩ <;> rcases params with _ | ⟨_ | ⟨p0, ps⟩⟩ <;>
      rcases results with _ | ⟨_ | ⟨q0, qs⟩⟩ <;> cases body <;>
      simp [funcDeclToNode, stmtToNode, fieldsOf, FieldList.List_]
  · intro b level
    cases b with
    | mk lst => simp [stmtToNode, blockStmtToNode, ASTNode.Label]
  · decide


/-! ## The theorems at the sample forest -/

theorem FlattenNodes_eq_visibleForest_witness :
    noNilForest sampleForest = true ∧
    (FlattenNodes sampleForest = some (visibleForest sampleForest) ∧
      ∀ q : Ptr, q ∈ visibleForest sampleForest ↔
        (load sampleForest q ≠ .nil ∧
          ∀ q1 q2 : Ptr, q = q1 ++ q2 → q1 ≠ [] → q2 ≠ [] →
            (load sampleForest q1).Collapsed = false)) :=
  ⟨by decide, FlattenNodes_eq_visibleForest sampleForest (by decide)⟩

theorem toggle_twice_restores_witness :
    (noNilForest samplePanel.astNodes = true ∧
      FlattenNodes samplePanel.astNodes = some [[0], [0, 0], [0, 1], [1]] ∧
      (0 : Int) ≤ 2 ∧
      ([[0], [0, 0], [0, 1], [1]] : List Ptr)[(2 : Int).toNat]? = some [0, 1] ∧
      (load samplePanel.astNodes [0, 1]).Children ≠ []) ∧
    ∃ r1 r2, toggleNodeCollapse samplePanel 2 = some r1 ∧ toggleNodeCollapse r1 2 = some r2 ∧
      (load r1.astNodes [0, 1]).Collapsed = !(load samplePanel.astNodes [0, 1]).Collapsed ∧
      r2 = samplePanel ∧
      (∀ q, (load r2.astNodes q).Collapsed = (load samplePanel.astNodes q).Collapsed) ∧
      FlattenNodes r2.astNodes = some [[0], [0, 0], [0, 1], [1]] :=
  ⟨⟨by decide, by decide, by decide, by decide, by decide⟩,
    toggle_twice_restores samplePanel 2 [[0], [0, 0], [0, 1], [1]] [0, 1]
      (by decide) (by decide) (by decide) (by decide) (by decide)⟩

theorem toggle_out_of_range_witness :
    ((4 : Int) < 0 ∨ ∃ flat, FlattenNodes samplePanel.astNodes = some flat ∧
      (flat.length : Int) ≤ 4) ∧
    toggleNodeCollapse samplePanel 4 = some samplePanel :=
  ⟨Or.inr ⟨[[0], [0, 0], [0, 1], [1]], by decide, by decide⟩,
    toggle_out_of_range samplePanel 4
      (Or.inr ⟨[[0], [0, 0], [0, 1], [1]], by decide, by decide⟩)⟩

theorem toggle_leaf_unchanged_witness :
    (FlattenNodes samplePanel.astNodes = some [[0], [0, 0], [0, 1], [1]] ∧
      (0 : Int) ≤ 3 ∧
      ([[0], [0, 0], [0, 1], [1]] : List Ptr)[(3 : Int).toNat]? = some [1] ∧
      (load samplePanel.astNodes [1]).Children = []) ∧
    toggleNodeCollapse samplePanel 3 = some samplePanel :=
  ⟨⟨by decide, by decide, by decide, by decide⟩,
    toggle_leaf_unchanged samplePanel 3 [[0], [0, 0], [0, 1], [1]] [1]
      (by decide) (by decide) (by decide) (by decide)⟩

theorem toggle_flips_only_target_witness :
    (FlattenNodes samplePanel.astNodes = some [[0], [0, 0], [0, 1], [1]] ∧
      (0 : Int) ≤ 0 ∧
      ([[0], [0, 0], [0, 1], [1]] : List Ptr)[(0 : Int).toNat]? = some [0] ∧
      (load samplePanel.astNodes [0]).Children ≠ []) ∧
    ∃ r1, toggleNodeCollapse samplePanel 0 = some r1 ∧
      r1.listItems = samplePanel.listItems ∧
      r1.astNodes.length = samplePanel.astNodes.length ∧
      eraseCollapsedForest r1.astNodes = eraseCollapsedForest samplePanel.astNodes ∧
      (load r1.astNodes [0]).Collapsed = !(load samplePanel.astNodes [0]).Collapsed ∧
      ∀ q, (q ≠ [0] → (load r1.astNodes q).Collapsed = (load samplePanel.astNodes q).Collapsed) ∧
        (load r1.astNodes q).Label = (load samplePanel.astNodes q).Label ∧
        (load r1.astNodes q).IndentLevel = (load samplePanel.astNodes q).IndentLevel ∧
        (load r1.astNodes q).Children.length = (load samplePanel.astNodes q).Children.length ∧
        (load r1.astNodes q = .nil ↔ load samplePanel.astNodes q = .nil) :=
  ⟨⟨by decide, by decide, by decide, by decide⟩,
    toggle_flips_only_target samplePanel 0 [[0], [0, 0], [0, 1], [1]] [0]
      (by decide) (by decide) (by decide) (by decide)⟩

theorem FlattenNodes_all_expanded_witness :
    (noNilForest sampleExpanded = true ∧ allExpandedForest sampleExpanded = true) ∧
    ∃ flat, FlattenNodes sampleExpanded = some flat ∧ flat = preorderForest sampleExpanded ∧
      flat.length = countForest sampleExpanded ∧ flat.Nodup ∧
      ∀ q : Ptr, q ∈ flat ↔ load sampleExpanded q ≠ .nil :=
  ⟨⟨by decide, by decide⟩, FlattenNodes_all_expanded sampleExpanded (by decide) (by decide)⟩

theorem buildListItems_rows_witness :
    FlattenNodes samplePanel.astNodes = some [[0], [0, 0], [0, 1], [1]] ∧
    ∃ r1, buildListItems samplePanel = some r1 ∧ r1.astNodes = samplePanel.astNodes ∧
      r1.listItems.length = ([[0], [0, 0], [0, 1], [1]] : List Ptr).length ∧
      ∀ (j : Nat) (p : Ptr), ([[0], [0, 0], [0, 1], [1]] : List Ptr)[j]? = some p →
        ∃ marker : String, marker.length = 4 ∧
          marker = (if (load samplePanel.astNodes p).Children = [] then "    "
                    else if (load samplePanel.astNodes p).Collapsed = true then "[+] "
                    else "[-] ") ∧
          r1.listItems[j]? = some
            { Text := marker ++ (load samplePanel.astNodes p).Label,
              IndentLevel := (load samplePanel.astNodes p).IndentLevel,
              Value := (j : Int),
              Collapsed := (load samplePanel.astNodes p).Collapsed } :=
  ⟨by decide, buildListItems_rows samplePanel [[0], [0, 0], [0, 1], [1]] (by decide)⟩

/-! ## Type declarations and fields -/

/-- C11. For a type declaration whose type is a struct, `typeSpecToNodes`
returns the single node `StructType` with one child per field, in declaration
order; the child of a field is labeled `Field: ` followed by the names joined
by `, `, or by `(embedded)` when the field has no names, its first child is
`Type: <stringified type>`, and it has a second child `Tag: <literal>` if and
only if the field has a tag.  The struct with the fields `Name string` and
`Age int` gives two field children with one `Type` child each and no `Tag`
child. -/
theorem typeSpecToNodes_struct :
    (∀ (name : Ident) (fields : Option FieldList) (level : Int),
      typeSpecToNodes (.mk name (.StructType fields)) level =
        [.mk "StructType" ((fieldsOf fields).map (fun f => fieldToNode f (level + 1)))
          level false]) ∧
    (∀ (names : List Ident) (t : Expr) (tag : Option BasicLit) (level : Int),
      fieldToNode (.mk names t tag) level =
        .mk ("Field: " ++
            (if names.isEmpty then "(embedded)"
              else ", ".intercalate (names.map (fun n => n.Name))))
          (.mk ("Type: " ++ exprToString t) [] (level + 1) false ::
            (match tag with
              | none => []
              | some lit => [.mk ("Tag: " ++ lit.Value) [] (level + 1) false]))
          level false) ∧
    typeSpecToNodes personSpec 3 =
      [.mk "StructType"
        [.mk "Field: Name" [.mk "Type: string" [] 5 false] 4 false,
         .mk "Field: Age" [.mk "Type: int" [] 5 false] 4 false]
        3 false] := by
  refine ⟨?_, ?_, by decide⟩
  · intro name fields level
    cases fields with
    | none => simp [typeSpecToNodes, fieldsOf]
    | some fl => simp [typeSpecToNodes, fieldsOf]
  · intro names t tag level
    cases names with
    | nil => cases tag <;> simp [fieldToNode, Field.Names, Field.Type_, Field.Tag]
    | cons n ns => cases tag <;> simp [fieldToNode, Field.Names, Field.Type_, Field.Tag]

/-! ## The expression stringifier -/

/-- C12. `exprToString` is compositional on type expressions: a slice type of
`E` gives `[]` followed by the string of `E`, a pointer to `X` gives `*`
followed by the string of `X`, and a map type gives `map[`, the string of the
key, `]` and the string of the value; so a slice of pointers to `StructName`
gives `[]*StructName` and a map from `KeyType` to `ValueType` gives
`map[KeyType]ValueType`. -/
theorem exprToString_compositional :
    (∀ E : Expr, exprToString (.ArrayType .nil E) = "[]" ++ exprToString E) ∧
    (∀ X : Expr, exprToString (.StarExpr X) = "*" ++ exprToString X) ∧
    (∀ K V : Expr,
      exprToString (.MapType K V) = "map[" ++ exprToString K ++ "]" ++ exprToString V) ∧
    exprToString (.ArrayType .nil (.StarExpr (.Ident ⟨"StructName"⟩))) = "[]*StructName" ∧
    exprToString (.MapType (.Ident ⟨"KeyType"⟩) (.Ident ⟨"ValueType"⟩)) =
      "map[KeyType]ValueType" := by
  refine ⟨?_, ?_, ?_, by decide, by decide⟩
  · intro E; simp [exprToString, Expr.isNil]
  · intro X; simp [exprToString]
  · intro K V; simp [exprToString]

/-! ## Statements -/

theorem exprToNode_each_eq_map (es : List Expr) (level : Int) :
    exprToNode.each es level = es.map (fun e => exprToNode e level) := by
  induction es with
  | nil => simp [exprToNode.each]
  | cons e rest ih => simp [exprToNode.each, ih]

theorem stmtToNode_each_eq_map (ss : List Stmt) (level : Int) :
    stmtToNode.each ss level = ss.map (fun s => stmtToNode s level) := by
  induction ss with
  | nil => simp [stmtToNode.each]
  | cons s rest ih => simp [stmtToNode.each, ih]

/-- C20. For every case clause `stmtToNode` returns a node, also when the
clause is empty; it is labeled `CaseClause (default)` when the match list is
empty and `CaseClause` otherwise, and its children are the nodes of the match
expressions in order followed by the nodes of the statements of the body in
order, so that it has `len(List) + len(Body)` children. -/
theorem stmtToNode_caseClause (list : List Expr) (body : List Stmt) (level : Int) :
    stmtToNode (.CaseClause list body) level =
      .mk (if list.isEmpty then "CaseClause (default)" else "CaseClause")
        (list.map (fun e => exprToNode e (level + 1)) ++
          body.map (fun s => stmtToNode s (level + 1)))
        level false ∧
    (stmtToNode (.CaseClause list body) level).isNil = false ∧
    (stmtToNode (.CaseClause list body) level).Children.length = list.length + body.length ∧
    stmtToNode (.CaseClause [] []) level = .mk "CaseClause (default)" [] level false := by
  have h : stmtToNode (.CaseClause list body) level =
      .mk (if list.isEmpty then "CaseClause (default)" else "CaseClause")
        (list.map (fun e => exprToNode e (level + 1)) ++
          body.map (fun s => stmtToNode s (level + 1)))
        level false := by
    cases list with
    | nil => simp [stmtToNode, stmtToNode_each_eq_map]
    | cons e es => simp [stmtToNode, stmtToNode_each_eq_map, exprToNode_each_eq_map]
  refine ⟨h, ?_, ?_, ?_⟩
  · rw [h]; rfl
  · rw [h]; simp [ASTNode.Children]
  · simp [stmtToNode, stmtToNode.each]

/-- C18. `stmtToNode` is total: for every statement that is not nil it
returns a node that is not nil, at the requested indent level, and for a
statement kind that has no case of its own the node is a leaf labeled with
the name of the dynamic type of the statement. -/
theorem stmtToNode_total (s : Stmt) (level : Int) (h : s.isNil = false) :
    (stmtToNode s level).isNil = false ∧
    (stmtToNode s level).IndentLevel = level ∧
    (s.hasCase = false → stmtToNode s level = .mk s.goType [] level false) := by
  cases s with
  | nil => simp [Stmt.isNil] at h
  | BlockStmt b =>
    cases b with
    | mk l => simp [stmtToNode, blockStmtToNode, ASTNode.isNil, ASTNode.IndentLevel, Stmt.hasCase]
  | CaseClause l b =>
    by_cases hl : l.length = 0 <;>
      simp [stmtToNode, hl, ASTNode.isNil, ASTNode.IndentLevel, Stmt.hasCase]
  | BranchStmt t l =>
    cases l <;> simp [stmtToNode, ASTNode.isNil, ASTNode.IndentLevel, Stmt.hasCase]
  | _ => simp [stmtToNode, ASTNode.isNil, ASTNode.IndentLevel, Stmt.hasCase, Stmt.goType]

theorem stmtToNode_total_witness :
    (Stmt.TypeSwitchStmt .nil .nil (.mk [])).isNil = false ∧
    ((stmtToNode (.TypeSwitchStmt .nil .nil (.mk [])) 3).isNil = false ∧
      (stmtToNode (.TypeSwitchStmt .nil .nil (.mk [])) 3).IndentLevel = 3 ∧
      ((Stmt.TypeSwitchStmt .nil .nil (.mk [])).hasCase = false →
        stmtToNode (.TypeSwitchStmt .nil .nil (.mk [])) 3 =
          .mk (Stmt.TypeSwitchStmt .nil .nil (.mk [])).goType [] 3 false)) :=
  ⟨by decide, stmtToNode_total (.TypeSwitchStmt .nil .nil (.mk [])) 3 (by decide)⟩

/-! ## Strings -/

theorem string_eq_empty_iff (s : String) : s = "" ↔ s.data = [] := by
  rw [String.ext_iff]

theorem string_append_eq_empty (s t : String) : s ++ t = "" ↔ s = "" ∧ t = "" := by
  simp [string_eq_empty_iff, String.data_append]

theorem Token_String_ne_empty (tok : Token) : tok.String ≠ "" := by
  cases tok <;> decide

/-- Where `exprToString` gives the empty string. -/
theorem exprToString_eq_empty (e : Expr) :
    exprToString e = "" ↔
      (e.isNil = true ∨ (∃ id : Ident, e = .Ident id ∧ id.Name = "") ∨
        (∃ lit : BasicLit, e = .BasicLit lit ∧ lit.Value = "")) := by
  have lit : ∀ (a : String), a ≠ "" → ∀ s : String, a ++ s ≠ "" := by
    intro a ha s h
    exact ha ((string_append_eq_empty a s).1 h).1
  have lit2 : ∀ (a : String), a ≠ "" → ∀ s : String, s ++ a ≠ "" := by
    intro a ha s h
    exact ha ((string_append_eq_empty s a).1 h).2
  cases e with
  | nil => simp [exprToString, Expr.isNil]
  | Ident id => simp [exprToString, Expr.isNil]
  | BasicLit l => simp [exprToString, Expr.isNil]
  | BadExpr => simp [exprToString, Expr.isNil]; decide
  | SliceExpr x l h m => simp [exprToString, Expr.isNil, Expr.goType]
  | TypeAssertExpr x t => simp [exprToString, Expr.isNil, Expr.goType]
  | KeyValueExpr k v => simp [exprToString, Expr.isNil, Expr.goType]
  | Ellipsis x =>
    simp only [exprToString, Expr.isNil, Bool.false_eq_true, false_or, reduceCtorEq, false_and,
      exists_false, or_false, iff_false]
    exact lit _ (by decide) _
  | StarExpr x =>
    simp only [exprToString, Expr.isNil, Bool.false_eq_true, false_or, reduceCtorEq, false_and,
      exists_false, or_false, iff_false]
    exact lit _ (by decide) _
  | ParenExpr x =>
    simp only [exprToString, Expr.isNil, Bool.false_eq_true, false_or, reduceCtorEq, false_and,
      exists_false, or_false, iff_false]
    exact lit2 _ (by decide) _
  | SelectorExpr x sel =>
    simp only [exprToString, Expr.isNil, Bool.false_eq_true, false_or, reduceCtorEq, false_and,
      exists_false, or_false, iff_false]
    intro h
    exact lit2 "." (by decide) _ ((string_append_eq_empty _ _).1 h).1
  | IndexExpr x i =>
    simp only [exprToString, Expr.isNil, Bool.false_eq_true, false_or, reduceCtorEq, false_and,
      exists_false, or_false, iff_false]
    exact lit2 _ (by decide) _
  | IndexListExpr x i =>
    simp only [exprToString, Expr.isNil, Bool.false_eq_true, false_or, reduceCtorEq, false_and,
      exists_false, or_false, iff_false]
    exact lit2 _ (by decide) _
  | CallExpr c =>
    cases c with
    | mk f args =>
      simp only [exprToString, Expr.isNil, Bool.false_eq_true, false_or, reduceCtorEq, false_and,
        exists_false, or_false, iff_false]
      exact lit2 _ (by decide) _
  | UnaryExpr op x =>
    simp only [exprToString, Expr.isNil, Bool.false_eq_true, false_or, reduceCtorEq, false_and,
      exists_false, or_false, iff_false]
    exact lit _ (Token_String_ne_empty op) _
  | BinaryExpr x op y =>
    simp only [exprToString, Expr.isNil, Bool.false_eq_true, false_or, reduceCtorEq, false_and,
      exists_false, or_false, iff_false]
    intro h
    have h1 := ((string_append_eq_empty _ _).1 h).1
    have h2 := ((string_append_eq_empty _ _).1 h1).1
    exact lit2 " " (by decide) _ ((string_append_eq_empty _ _).1 h2).1
  | MapType k v =>
    simp only [exprToString, Expr.isNil, Bool.false_eq_true, false_or, reduceCtorEq, false_and,
      exists_false, or_false, iff_false]
    intro h
    have h1 := ((string_append_eq_empty _ _).1 h).1
    exact lit2 "]" (by decide) _ h1
  | ArrayType l elt =>
    simp only [exprToString, Expr.isNil, Bool.false_eq_true, false_or, reduceCtorEq, false_and,
      exists_false, or_false, iff_false]
    split
    · intro h
      have h1 := ((string_append_eq_empty _ _).1 h).1
      exact lit2 "]" (by decide) _ h1
    · exact lit _ (by decide) _
  | ChanType d v =>
    simp only [exprToString, Expr.isNil, Bool.false_eq_true, false_or, reduceCtorEq, false_and,
      exists_false, or_false, iff_false]
    split
    · exact lit _ (by decide) _
    · split
      · exact lit _ (by decide) _
      · exact lit _ (by decide) _
  | CompositeLit t elts =>
    simp only [exprToString, Expr.isNil, Bool.false_eq_true, false_or, reduceCtorEq, false_and,
      exists_false, or_false, iff_false]
    split
    · exact lit2 _ (by decide) _
    · decide
  | FuncLit t b => simp [exprToString, Expr.isNil]
  | FuncType t => simp [exprToString, Expr.isNil]
  | StructType t => simp [exprToString, Expr.isNil]
  | InterfaceType t => simp [exprToString, Expr.isNil]

/-- C13, as the claim states it, fails: the identifier whose name is the empty
string is not nil and `exprToString` gives the empty string for it. -/
theorem exprToString_empty_counterexample :
    (Expr.Ident ⟨""⟩).isNil = false ∧ exprToString (.Ident ⟨""⟩) = "" := by
  decide

/-- C13, amended. `exprToString` is total and returns the empty string for
nil; for an expression that is not nil it returns the empty string only when
the expression is an identifier with the empty name or a basic literal with
the empty text, which it renders verbatim, and a non-empty string in every
other case. -/
theorem exprToString_empty_iff (e : Expr) :
    exprToString .nil = "" ∧
    (exprToString e = "" ↔
      (e.isNil = true ∨ (∃ id : Ident, e = .Ident id ∧ id.Name = "") ∨
        (∃ lit : BasicLit, e = .BasicLit lit ∧ lit.Value = ""))) ∧
    (∀ id : Ident, exprToString (.Ident id) = id.Name) ∧
    (∀ lit : BasicLit, exprToString (.BasicLit lit) = lit.Value) := by
  exact ⟨by simp [exprToString], exprToString_eq_empty e, fun _ => by simp [exprToString],
    fun _ => by simp [exprToString]⟩

/-! ## Expressions without a case of their own -/

theorem string_ne_of_head (a s : String) (u : String)
    (h : ∀ t : List Char, a.data ++ t ≠ u.data) : a ++ s ≠ u := by
  intro he
  exact h s.data (by rw [← String.data_append, he])

theorem string_ne_of_last (a s : String) (u : String)
    (h : ∀ t : List Char, t ++ a.data ≠ u.data) : s ++ a ≠ u := by
  intro he
  exact h s.data (by rw [← String.data_append, he])

/-- C19, as the claim states it, fails: a bad expression is not nil and has
no case of its own in `exprToNode`, and the label of its node is the bare
name of its dynamic type. -/
theorem exprToNode_fallback_counterexample :
    Expr.BadExpr.isNil = false ∧ Expr.BadExpr.hasCase = false ∧
    exprToNode .BadExpr 1 = .mk "*ast.BadExpr" [] 1 false ∧
    (exprToNode .BadExpr 1).Label = Expr.BadExpr.goType := by
  decide

/-- C19, amended. For every expression that is not nil and has no case of its
own in `exprToNode`, the node is a leaf whose label is `exprToString` of the
expression.  That label is the name of an identifier and the text of a basic
literal, verbatim; it is the bare name of the dynamic type for a bad
expression, for which `exprToString` has no case either; for every other such
kind it differs from the name of the dynamic type. -/
theorem exprToNode_fallback (e : Expr) (level : Int)
    (hn : e.isNil = false) (hc : e.hasCase = false) :
    exprToNode e level = .mk (exprToString e) [] level false ∧
    (match e with
      | .BadExpr => exprToString e = e.goType
      | .Ident id => exprToString e = id.Name
      | .BasicLit lit => exprToString e = lit.Value
      | _ => exprToString e ≠ e.goType) := by
  cases e with
  | nil => simp [Expr.isNil] at hn
  | BadExpr => simp [exprToNode, exprToString]
  | Ident id => simp [exprToNode, exprToString]
  | BasicLit lit => simp [exprToNode, exprToString]
  | Ellipsis x =>
    refine ⟨by simp [exprToNode], ?_⟩
    simp only [exprToString, Expr.goType]
    exact string_ne_of_head _ _ _ (by intro t h; simp at h)
  | ParenExpr x =>
    refine ⟨by simp [exprToNode], ?_⟩
    simp only [exprToString, Expr.goType]
    apply string_ne_of_last
    intro t h
    have := congrArg List.reverse h
    simp at this
  | IndexListExpr x is =>
    refine ⟨by simp [exprToNode], ?_⟩
    simp only [exprToString, Expr.goType]
    apply string_ne_of_last
    intro t h
    have := congrArg List.reverse h
    simp at this
  | ArrayType l elt =>
    refine ⟨by simp [exprToNode], ?_⟩
    simp only [exprToString, Expr.goType]
    split
    · intro h
      have := congrArg String.data h
      simp [String.data_append] at this
    · exact string_ne_of_head _ _ _ (by intro t h; simp at h)
  | StructType f => exact ⟨by simp [exprToNode], by simp [exprToString, Expr.goType]⟩
  | FuncType f => exact ⟨by simp [exprToNode], by simp [exprToString, Expr.goType]⟩
  | InterfaceType f => exact ⟨by simp [exprToNode], by simp [exprToString, Expr.goType]⟩
  | MapType k v =>
    refine ⟨by simp [exprToNode], ?_⟩
    simp only [exprToString, Expr.goType]
    intro h
    have := congrArg String.data h
    simp [String.data_append] at this
  | ChanType d v =>
    refine ⟨by simp [exprToNode], ?_⟩
    simp only [exprToString, Expr.goType]
    split
    · exact string_ne_of_head _ _ _ (by intro t h; simp at h)
    · split
      · exact string_ne_of_head _ _ _ (by intro t h; simp at h)
      · exact string_ne_of_head _ _ _ (by intro t h; simp at h)
  | _ => simp [Expr.hasCase] at hc

theorem exprToNode_fallback_witness :
    ((Expr.MapType (.Ident ⟨"string"⟩) (.Ident ⟨"int"⟩)).isNil = false ∧
      (Expr.MapType (.Ident ⟨"string"⟩) (.Ident ⟨"int"⟩)).hasCase = false) ∧
    (exprToNode (.MapType (.Ident ⟨"string"⟩) (.Ident ⟨"int"⟩)) 4 =
        .mk (exprToString (.MapType (.Ident ⟨"string"⟩) (.Ident ⟨"int"⟩))) [] 4 false ∧
      exprToString (.MapType (.Ident ⟨"string"⟩) (.Ident ⟨"int"⟩)) ≠
        (Expr.MapType (.Ident ⟨"string"⟩) (.Ident ⟨"int"⟩)).goType) :=
  ⟨⟨by decide, by decide⟩,
    exprToNode_fallback (.MapType (.Ident ⟨"string"⟩) (.Ident ⟨"int"⟩)) 4
      (by decide) (by decide)⟩

/-! ## Constant and variable declarations -/

theorem constChildren_eq (level : Int) (specs : List Spec) :
    specs.flatMap (genDeclToNode.constChildren level) =
      (declaredNames specs).map
        (fun p => ASTNode.mk ("Const: " ++ p.1.Name) [] (level + 1) false) := by
  induction specs with
  | nil => simp [declaredNames]
  | cons spec rest ih =>
    cases spec with
    | ValueSpec v =>
      cases v with
      | mk names t vals =>
        simp [List.flatMap_cons, genDeclToNode.constChildren, declaredNames, ih, Function.comp]
    | _ => simp [List.flatMap_cons, genDeclToNode.constChildren, declaredNames, ih]

theorem varChildren_eq (level : Int) (specs : List Spec) :
    specs.flatMap (genDeclToNode.varChildren level) =
      (declaredNames specs).map
        (fun p => ASTNode.mk ("Var: " ++ p.1.Name)
          (if p.2.isNil then [] else [.mk ("Type: " ++ exprToString p.2) [] (level + 2) false])
          (level + 1) false) := by
  induction specs with
  | nil => simp [declaredNames]
  | cons spec rest ih =>
    cases spec with
    | ValueSpec v =>
      cases v with
      | mk names t vals =>
        cases ht : t.isNil <;>
          simp [List.flatMap_cons, genDeclToNode.varChildren, declaredNames, ih, Function.comp, ht]
    | _ => simp [List.flatMap_cons, genDeclToNode.varChildren, declaredNames, ih]

/-- C17. For a `const` or `var` declaration group `genDeclToNode` returns one
grouping node, `Const` or `Var`, when the value specifications of the group
declare a name, and no node otherwise.  The grouping node has one child per
declared name, in source order, labeled `Const: <name>` or `Var: <name>`; the
child of a constant is a leaf, and the child of a variable has the single
child `Type: <stringified type>` when its specification has an explicit type
and no child otherwise. -/
theorem genDeclToNode_const_var :
    (∀ (specs : List Spec) (level : Int),
      genDeclToNode (.mk .CONST specs) level =
        if (declaredNames specs).isEmpty then []
        else [.mk "Const"
          ((declaredNames specs).map
            (fun p => ASTNode.mk ("Const: " ++ p.1.Name) [] (level + 1) false))
          level false]) ∧
    (∀ (specs : List Spec) (level : Int),
      genDeclToNode (.mk .VAR specs) level =
        if (declaredNames specs).isEmpty then []
        else [.mk "Var"
          ((declaredNames specs).map
            (fun p => ASTNode.mk ("Var: " ++ p.1.Name)
              (if p.2.isNil then []
                else [.mk ("Type: " ++ exprToString p.2) [] (level + 2) false])
              (level + 1) false))
          level false]) ∧
    genDeclToNode sampleVarDecl 2 =
      [.mk "Var"
        [.mk "Var: x" [.mk "Type: int" [] 4 false] 3 false,
         .mk "Var: y" [.mk "Type: int" [] 4 false] 3 false,
         .mk "Var: z" [] 3 false]
        2 false] ∧
    genDeclToNode (.mk .CONST []) 2 = [] := by
  refine ⟨?_, ?_, by decide, by decide⟩
  · intro specs level
    simp only [genDeclToNode, constChildren_eq]
    cases h : declaredNames specs <;> simp
  · intro specs level
    simp only [genDeclToNode, varChildren_eq]
    cases h : declaredNames specs <;> simp

/-! ## Files -/

theorem typeNodes_length (level : Int) (specs : List Spec) :
    (specs.flatMap (genDeclToNode.typeNodes level)).length = countTypeSpecs specs := by
  induction specs with
  | nil => simp [countTypeSpecs]
  | cons spec rest ih =>
    cases spec with
    | TypeSpec ts =>
      cases ts with
      | mk name t =>
        simp [List.flatMap_cons, genDeclToNode.typeNodes, countTypeSpecs, ih]
        omega
    | _ => simp [List.flatMap_cons, genDeclToNode.typeNodes, countTypeSpecs, ih]

/-- C14, as the claim states it, fails on the sample file, which has one import
and three declarations: the children of its file node are `Package: main`,
`Imports`, `Type: Person` and the method, so the first child is not `Imports`
and the import declaration has no node. -/
theorem astToNodes_file_counterexample :
    (astToNodes (.File sampleFile) 2).map ASTNode.Label =
      ["Package: main", "Imports", "Type: Person", "Method: (*Person) Greet"] ∧
    sampleFile.Decls.length = 3 ∧
    ¬ ∃ declNodes : List ASTNode, declNodes.length = sampleFile.Decls.length ∧
      astToNodes (.File sampleFile) 2 =
        (if sampleFile.Imports.isEmpty then []
          else [.mk "Imports"
            (sampleFile.Imports.map
              (fun imp => ASTNode.mk ("Import: " ++ imp.Path.Value) [] 3 false))
            2 false]) ++ declNodes := by
  refine ⟨by decide, by decide, ?_⟩
  rintro ⟨declNodes, _, h⟩
  have h3 : ((astToNodes (.File sampleFile) 2).map ASTNode.Label).head? =
      some "Package: main" := by decide
  rw [h] at h3
  simp [sampleFile, ASTNode.Label] at h3

/-! ## Indent levels and flags of the built tree -/

theorem builtAtAll_iff (level : Int) (ns : List ASTNode) :
    builtAtAll level ns = true ↔ ∀ n ∈ ns, n.builtAt level = true := by
  induction ns with
  | nil => simp [builtAtAll]
  | cons c cs ih => simp [builtAtAll, ih]

theorem builtAt_mk (label : String) (cs : List ASTNode) (level : Int)
    (h : ∀ n ∈ cs, n.builtAt (level + 1) = true) :
    (ASTNode.mk label cs level false).builtAt level = true := by
  simp only [ASTNode.builtAt, builtAtAll_iff, decide_True, Bool.not_false, Bool.true_and,
    Bool.and_true, Bool.and_self]
  exact h

theorem builtAt_leaf (label : String) (level : Int) :
    (ASTNode.mk label [] level false).builtAt level = true :=
  builtAt_mk label [] level (by simp)

theorem fieldToNode_builtAt (field : Field) (level : Int) :
    (fieldToNode field level).builtAt level = true := by
  cases field with
  | mk names t tag =>
    cases tag with
    | none =>
      simp only [fieldToNode, Field.Tag]
      exact builtAt_mk _ _ _ (by simp [builtAt_leaf])
    | some lit =>
      simp only [fieldToNode, Field.Tag]
      exact builtAt_mk _ _ _ (by simp [builtAt_leaf])

theorem typeSpecToNodes_builtAt (ts : TypeSpec) (level : Int) :
    ∀ n ∈ typeSpecToNodes ts level, n.builtAt level = true := by
  cases ts with
  | mk name t =>
    cases t with
    | StructType fields =>
      cases fields with
      | none => simp [typeSpecToNodes, builtAt_leaf]
      | some fl =>
        simp only [typeSpecToNodes, List.mem_singleton, forall_eq]
        exact builtAt_mk _ _ _ (by simp [fieldToNode_builtAt])
    | InterfaceType methods =>
      cases methods with
      | none => simp [typeSpecToNodes, builtAt_leaf]
      | some fl =>
        simp only [typeSpecToNodes, List.mem_singleton, forall_eq]
        exact builtAt_mk _ _ _ (by simp [fieldToNode_builtAt])
    | _ => simp [typeSpecToNodes, builtAt_leaf]

theorem genDeclToNode_builtAt (d : GenDecl) (level : Int) :
    ∀ n ∈ genDeclToNode d level, n.builtAt level = true := by
  cases d with
  | mk tok specs =>
    have hconst : ∀ n ∈ specs.flatMap (genDeclToNode.constChildren level),
        n.builtAt (level + 1) = true := by
      intro n hn
      rw [constChildren_eq] at hn
      simp only [List.mem_map] at hn
      obtain ⟨p, _, rfl⟩ := hn
      exact builtAt_leaf _ _
    have hvar : ∀ n ∈ specs.flatMap (genDeclToNode.varChildren level),
        n.builtAt (level + 1) = true := by
      intro n hn
      rw [varChildren_eq] at hn
      simp only [List.mem_map] at hn
      obtain ⟨p, _, rfl⟩ := hn
      apply builtAt_mk
      intro c hc
      split at hc
      · simp at hc
      · simp only [List.mem_singleton] at hc
        subst hc
        have : level + 2 = level + 1 + 1 := by ring
        rw [this]
        exact builtAt_leaf _ _
    have htype : ∀ n ∈ specs.flatMap (genDeclToNode.typeNodes level),
        n.builtAt level = true := by
      intro n hn
      simp only [List.mem_flatMap] at hn
      obtain ⟨spec, _, hn⟩ := hn
      cases spec with
      | TypeSpec ts =>
        cases ts with
        | mk name t =>
          simp only [genDeclToNode.typeNodes, List.mem_singleton] at hn
          subst hn
          exact builtAt_mk _ _ _ (typeSpecToNodes_builtAt _ _)
      | _ => simp [genDeclToNode.typeNodes] at hn
    intro n hn
    cases tok with
    | TYPE => exact htype n (by simpa [genDeclToNode] using hn)
    | CONST =>
      simp only [genDeclToNode] at hn
      split at hn
      · simp only [List.mem_singleton] at hn
        subst hn
        exact builtAt_mk _ _ _ hconst
      · simp at hn
    | VAR =>
      simp only [genDeclToNode] at hn
      split at hn
      · simp only [List.mem_singleton] at hn
        subst hn
        exact builtAt_mk _ _ _ hvar
      · simp at hn
    | _ => simp [genDeclToNode] at hn

theorem builtAtAll_append (level : Int) (a b : List ASTNode) :
    builtAtAll level (a ++ b) = (builtAtAll level a && builtAtAll level b) := by
  induction a with
  | nil => simp [builtAtAll]
  | cons c cs ih => simp [builtAtAll, ih, Bool.and_assoc]

theorem builtAtAll_fields (fields : List Field) (level : Int) :
    builtAtAll level (fields.map (fun f => fieldToNode f level)) = true := by
  rw [builtAtAll_iff]
  intro n hn
  simp only [List.mem_map] at hn
  obtain ⟨f, _, rfl⟩ := hn
  exact fieldToNode_builtAt f level

theorem fieldGroup_builtAt (label : String) (fields : Option FieldList) (level : Int) :
    ∀ n : ASTNode, n ∈ (match fields with
        | some (.mk (p :: ps)) =>
          [ASTNode.mk label ((p :: ps).map (fun param => fieldToNode param (level + 2)))
            (level + 1) false]
        | _ => ([] : List ASTNode)) →
      n.builtAt (level + 1) = true := by
  have h2 : level + 2 = level + 1 + 1 := by ring
  intro n hn
  rcases fields with _ | ⟨_ | ⟨p0, ps⟩⟩
  · simp at hn
  · simp at hn
  · simp only [List.mem_singleton] at hn
    subst hn
    apply builtAt_mk
    intro n hn
    simp only [List.mem_map] at hn
    obtain ⟨f, _, rfl⟩ := hn
    rw [← h2]
    exact fieldToNode_builtAt f _

mutual
theorem stmtToNode_builtAt : ∀ (s : Stmt) (level : Int),
    (stmtToNode s level).builtAt level = true
  | .nil, level => by simp [stmtToNode, ASTNode.builtAt]
  | .BlockStmt b, level => by
    rw [stmtToNode]; exact blockStmtToNode_builtAt b level
  | .ExprStmt x, level => by
    have h1 := exprToNode_builtAt x (level + 1)
    simp [stmtToNode, ASTNode.builtAt, builtAtAll, h1]
  | .AssignStmt lhs tok rhs, level => by
    have h1 := exprEach_builtAt lhs (level + 1)
    have h2 := exprEach_builtAt rhs (level + 1)
    simp [stmtToNode, ASTNode.builtAt, builtAtAll_append, h1, h2]
  | .ReturnStmt results, level => by
    have h1 := exprEach_builtAt results (level + 1)
    simp [stmtToNode, ASTNode.builtAt, h1]
  | .IfStmt init cond body els, level => by
    have h1 := stmtToNode_builtAt init (level + 1)
    have h2 := exprToNode_builtAt cond (level + 1)
    have h3 := blockStmtToNode_builtAt body (level + 1)
    have h4 := stmtToNode_builtAt els (level + 1)
    simp [stmtToNode, ASTNode.builtAt, builtAtAll, builtAtAll_append,
      apply_ite (builtAtAll (level + 1)), h1, h2, h3, h4]
  | .ForStmt init cond post body, level => by
    have h1 := stmtToNode_builtAt init (level + 1)
    have h2 := exprToNode_builtAt cond (level + 1)
    have h3 := stmtToNode_builtAt post (level + 1)
    have h4 := blockStmtToNode_builtAt body (level + 1)
    simp [stmtToNode, ASTNode.builtAt, builtAtAll, builtAtAll_append,
      apply_ite (builtAtAll (level + 1)), h1, h2, h3, h4]
  | .RangeStmt key value _ x body, level => by
    have h1 := exprToNode_builtAt key (level + 1)
    have h2 := exprToNode_builtAt value (level + 1)
    have h3 := exprToNode_builtAt x (level + 1)
    have h4 := blockStmtToNode_builtAt body (level + 1)
    simp [stmtToNode, ASTNode.builtAt, builtAtAll, builtAtAll_append,
      apply_ite (builtAtAll (level + 1)), h1, h2, h3, h4]
  | .DeclStmt decl, level => by
    have h1 := declToNode_builtAt decl (level + 1)
    simp [stmtToNode, ASTNode.builtAt, h1]
  | .DeferStmt call, level => by
    have h1 := callExprToNode_builtAt call (level + 1)
    simp [stmtToNode, ASTNode.builtAt, builtAtAll, h1]
  | .GoStmt call, level => by
    have h1 := callExprToNode_builtAt call (level + 1)
    simp [stmtToNode, ASTNode.builtAt, builtAtAll, h1]
  | .SwitchStmt init tag body, level => by
    have h1 := stmtToNode_builtAt init (level + 1)
    have h2 := exprToNode_builtAt tag (level + 1)
    have h3 := blockStmtToNode_builtAt body (level + 1)
    simp [stmtToNode, ASTNode.builtAt, builtAtAll, builtAtAll_append,
      apply_ite (builtAtAll (level + 1)), h1, h2, h3]
  | .CaseClause list body, level => by
    have h1 := exprEach_builtAt list (level + 1)
    have h2 := stmtEach_builtAt body (level + 1)
    by_cases hl : list.length = 0 <;>
      simp [stmtToNode, ASTNode.builtAt, builtAtAll_append, hl, h1, h2]
  | .IncDecStmt x tok, level => by
    have h1 := exprToNode_builtAt x (level + 1)
    simp [stmtToNode, ASTNode.builtAt, builtAtAll, h1]
  | .BranchStmt tok label, level => by
    cases label <;> simp [stmtToNode, ASTNode.builtAt, builtAtAll]
  | .BadStmt, level => by simp [stmtToNode, ASTNode.builtAt, builtAtAll]
  | .EmptyStmt, level => by simp [stmtToNode, ASTNode.builtAt, builtAtAll]
  | .LabeledStmt _ _, level => by simp [stmtToNode, ASTNode.builtAt, builtAtAll]
  | .SendStmt _ _, level => by simp [stmtToNode, ASTNode.builtAt, builtAtAll]
  | .TypeSwitchStmt _ _ _, level => by simp [stmtToNode, ASTNode.builtAt, builtAtAll]
  | .CommClause _ _, level => by simp [stmtToNode, ASTNode.builtAt, builtAtAll]
  | .SelectStmt _, level => by simp [stmtToNode, ASTNode.builtAt, builtAtAll]
theorem blockStmtToNode_builtAt : ∀ (b : BlockStmt) (level : Int),
    (blockStmtToNode b level).builtAt level = true
  | .mk list, level => by
    have h1 := blockLoop_builtAt list (level + 1)
    simp [blockStmtToNode, ASTNode.builtAt, h1]
theorem blockLoop_builtAt : ∀ (list : List Stmt) (level : Int),
    builtAtAll level (blockStmtToNode.loop list level) = true
  | [], level => by simp [blockStmtToNode.loop, builtAtAll]
  | child :: rest, level => by
    have h1 := stmtToNode_builtAt child level
    have h2 := blockLoop_builtAt rest level
    simp only [blockStmtToNode.loop]
    split
    · simp [builtAtAll, h1, h2]
    · exact h2
theorem stmtEach_builtAt : ∀ (list : List Stmt) (level : Int),
    builtAtAll level (stmtToNode.each list level) = true
  | [], level => by simp [stmtToNode.each, builtAtAll]
  | s :: rest, level => by
    have h1 := stmtToNode_builtAt s level
    have h2 := stmtEach_builtAt rest level
    simp [stmtToNode.each, builtAtAll, h1, h2]
theorem exprToNode_builtAt : ∀ (e : Expr) (level : Int),
    (exprToNode e level).builtAt level = true
  | .nil, level => by simp [exprToNode, ASTNode.builtAt]
  | .CallExpr c, level => by
    rw [exprToNode]; exact callExprToNode_builtAt c level
  | .BinaryExpr x op y, level => by
    have h1 := exprToNode_builtAt x (level + 1)
    have h2 := exprToNode_builtAt y (level + 1)
    simp [exprToNode, ASTNode.builtAt, builtAtAll, h1, h2]
  | .UnaryExpr op x, level => by
    have h1 := exprToNode_builtAt x (level + 1)
    simp [exprToNode, ASTNode.builtAt, builtAtAll, h1]
  | .SelectorExpr x sel, level => by simp [exprToNode, ASTNode.builtAt, builtAtAll]
  | .IndexExpr x index, level => by
    have h1 := exprToNode_builtAt x (level + 1)
    have h2 := exprToNode_builtAt index (level + 1)
    simp [exprToNode, ASTNode.builtAt, builtAtAll, h1, h2]
  | .CompositeLit t elts, level => by
    have h1 := exprEach_builtAt elts (level + 1)
    simp [exprToNode, ASTNode.builtAt, h1]
  | .FuncLit _ body, level => by
    cases body with
    | none => simp [exprToNode, ASTNode.builtAt, builtAtAll]
    | some b =>
      have h1 := blockStmtToNode_builtAt b (level + 1)
      simp [exprToNode, ASTNode.builtAt, builtAtAll, h1]
  | .KeyValueExpr key value, level => by
    have h1 := exprToNode_builtAt value (level + 1)
    simp [exprToNode, ASTNode.builtAt, builtAtAll, h1]
  | .TypeAssertExpr x t, level => by
    have h1 := exprToNode_builtAt x (level + 1)
    simp [exprToNode, ASTNode.builtAt, builtAtAll, builtAtAll_append,
      apply_ite (builtAtAll (level + 1)), h1]
  | .StarExpr x, level => by
    have h1 := exprToNode_builtAt x (level + 1)
    simp [exprToNode, ASTNode.builtAt, builtAtAll, h1]
  | .SliceExpr x low high _, level => by
    have h1 := exprToNode_builtAt x (level + 1)
    have h2 := exprToNode_builtAt low (level + 1)
    have h3 := exprToNode_builtAt high (level + 1)
    simp [exprToNode, ASTNode.builtAt, builtAtAll, builtAtAll_append,
      apply_ite (builtAtAll (level + 1)), h1, h2, h3]
  | .BadExpr, level => by simp [exprToNode, ASTNode.builtAt, builtAtAll]
  | .Ident _, level => by simp [exprToNode, ASTNode.builtAt, builtAtAll]
  | .Ellipsis _, level => by simp [exprToNode, ASTNode.builtAt, builtAtAll]
  | .BasicLit _, level => by simp [exprToNode, ASTNode.builtAt, builtAtAll]
  | .ParenExpr _, level => by simp [exprToNode, ASTNode.builtAt, builtAtAll]
  | .IndexListExpr _ _, level => by simp [exprToNode, ASTNode.builtAt, builtAtAll]
  | .ArrayType _ _, level => by simp [exprToNode, ASTNode.builtAt, builtAtAll]
  | .StructType _, level => by simp [exprToNode, ASTNode.builtAt, builtAtAll]
  | .FuncType _, level => by simp [exprToNode, ASTNode.builtAt, builtAtAll]
  | .InterfaceType _, level => by simp [exprToNode, ASTNode.builtAt, builtAtAll]
  | .MapType _ _, level => by simp [exprToNode, ASTNode.builtAt, builtAtAll]
  | .ChanType _ _, level => by simp [exprToNode, ASTNode.builtAt, builtAtAll]
theorem callExprToNode_builtAt : ∀ (c : CallExpr) (level : Int),
    (callExprToNode c level).builtAt level = true
  | .mk f args, level => by
    have h1 := exprEach_builtAt args (level + 2)
    have h2 : level + 1 + 1 = level + 2 := by ring
    by_cases h : args.length > 0 <;>
      simp [callExprToNode, ASTNode.builtAt, builtAtAll, h, h1, h2]
theorem exprEach_builtAt : ∀ (es : List Expr) (level : Int),
    builtAtAll level (exprToNode.each es level) = true
  | [], level => by simp [exprToNode.each, builtAtAll]
  | e :: rest, level => by
    have h1 := exprToNode_builtAt e level
    have h2 := exprEach_builtAt rest level
    simp [exprToNode.each, builtAtAll, h1, h2]
theorem declToNode_builtAt : ∀ (d : Decl) (level : Int),
    builtAtAll level (declToNode d level) = true
  | .GenDecl d, level => by
    rw [declToNode, builtAtAll_iff]; exact genDeclToNode_builtAt d level
  | .FuncDecl d, level => by
    have h1 := funcDeclToNode_builtAt d level
    simp [declToNode, builtAtAll, h1]
  | .BadDecl, level => by simp [declToNode, ASTNode.builtAt, builtAtAll]
  | .nil, level => by simp [declToNode, ASTNode.builtAt, builtAtAll]
theorem funcDeclToNode_builtAt : ∀ (d : FuncDecl) (level : Int),
    (funcDeclToNode d level).builtAt level = true
  | .mk recv name (.mk params results) none, level => by
    simp only [funcDeclToNode]
    apply builtAt_mk
    intro n hn
    simp only [List.mem_append] at hn
    rcases hn with (hn | hn) | hn
    · exact fieldGroup_builtAt "Params" params level n hn
    · exact fieldGroup_builtAt "Results" results level n hn
    · simp at hn
  | .mk recv name (.mk params results) (some b), level => by
    have hb := blockStmtToNode_builtAt b (level + 1)
    simp only [funcDeclToNode]
    apply builtAt_mk
    intro n hn
    simp only [List.mem_append] at hn
    rcases hn with (hn | hn) | hn
    · exact fieldGroup_builtAt "Params" params level n hn
    · exact fieldGroup_builtAt "Results" results level n hn
    · simp only [List.mem_singleton] at hn
      subst hn
      exact hb
end

theorem astToNodes_builtAt (node : Node) (level : Int) :
    builtAtAll level (astToNodes node level) = true := by
  cases node with
  | nil => simp [astToNodes, builtAtAll]
  | Other t => simp [astToNodes, builtAtAll, ASTNode.builtAt]
  | File f =>
    rw [builtAtAll_iff]
    intro n hn
    simp only [astToNodes, List.mem_append, List.mem_flatMap] at hn
    rcases hn with hn | ⟨d, _, hn⟩
    · split at hn
      · simp only [List.mem_append, List.mem_singleton] at hn
        rcases hn with hn | hn
        · subst hn; exact builtAt_leaf _ _
        · subst hn
          apply builtAt_mk
          intro c hc
          simp only [List.mem_map] at hc
          obtain ⟨imp, _, rfl⟩ := hc
          exact builtAt_leaf _ _
      · simp only [List.mem_singleton] at hn
        subst hn; exact builtAt_leaf _ _
    · exact (builtAtAll_iff _ _).1 (declToNode_builtAt d level) n hn

theorem ParseTxtar_root_builtAt (parseFile : String → String → Except String File)
    (file : TxtarFile) : (ParseTxtar.root parseFile file).builtAt 1 = true := by
  unfold ParseTxtar.root
  split
  · exact builtAt_leaf _ _
  · apply builtAt_mk
    exact (builtAtAll_iff _ _).1 (astToNodes_builtAt _ _)

theorem ParseTxtar_builtAt (txtarParse : String → Archive)
    (parseFile : String → String → Except String File) (content : String)
    (nodes : List ASTNode) (h : ParseTxtar txtarParse parseFile content = .ok nodes) :
    builtAtAll 1 nodes = true := by
  rw [ParseTxtar_eq] at h
  split at h
  · cases h
  · injection h with h
    subst h
    rw [builtAtAll_iff]
    intro n hn
    simp only [List.mem_map] at hn
    obtain ⟨file, _, rfl⟩ := hn
    exact ParseTxtar_root_builtAt parseFile file

theorem allExpanded_of_builtAt :
    (∀ n : ASTNode, ∀ level, n.builtAt level = true → n.allExpanded = true) ∧
    (∀ ns : List ASTNode, ∀ level, builtAtAll level ns = true →
      allExpandedForest ns = true) := by
  refine @tree_induction
    (fun n => ∀ level, n.builtAt level = true → n.allExpanded = true)
    (fun ns => ∀ level, builtAtAll level ns = true → allExpandedForest ns = true)
    ?_ ?_ ?_ ?_
  · intro _ _; rfl
  · intro l cs i c ih level h
    simp only [ASTNode.builtAt, Bool.and_eq_true, Bool.not_eq_true', decide_eq_true_eq] at h
    simp [ASTNode.allExpanded, h.1.2, ih _ h.2]
  · intro _ _; rfl
  · intro c cs ihc ihcs level h
    simp only [builtAtAll, Bool.and_eq_true] at h
    simp [allExpandedForest, ihc _ h.1, ihcs _ h.2]

theorem builtAt_getD (level : Int) (ns : List ASTNode) (h : builtAtAll level ns = true)
    (k : Nat) : (ns.getD k .nil).builtAt level = true := by
  rw [List.getD_eq_getElem?_getD]
  cases hk : ns[k]? with
  | none => rfl
  | some n =>
    exact (builtAtAll_iff _ _).1 h n (List.mem_iff_getElem?.2 ⟨k, hk⟩)

theorem builtAt_children (level : Int) (n : ASTNode) (h : n.builtAt level = true) :
    builtAtAll (level + 1) n.Children = true := by
  cases n with
  | nil => rfl
  | mk l cs i c =>
    simp only [ASTNode.builtAt, Bool.and_eq_true] at h
    exact h.2

theorem builtAt_fields (level : Int) (n : ASTNode) (h : n.builtAt level = true)
    (hn : n ≠ .nil) : n.IndentLevel = level ∧ n.Collapsed = false := by
  cases n with
  | nil => exact absurd rfl hn
  | mk l cs i c =>
    simp only [ASTNode.builtAt, Bool.and_eq_true, Bool.not_eq_true', decide_eq_true_eq] at h
    exact ⟨h.1.1, h.1.2⟩

/-- In a slice built at `level`, the node at an address has the indent level
`level` plus its depth below the slice, and it is expanded. -/
theorem load_of_builtAt (q : Ptr) : ∀ (level : Int) (ns : List ASTNode),
    builtAtAll level ns = true → load ns q ≠ .nil →
      (load ns q).IndentLevel = level + ((q.length : Int) - 1) ∧
      (load ns q).Collapsed = false := by
  induction q with
  | nil => intro level ns _ h; exact absurd rfl h
  | cons k q ih =>
    intro level ns hb hl
    cases q with
    | nil =>
      simp only [load] at hl ⊢
      have := builtAt_fields level _ (builtAt_getD level ns hb k) hl
      simpa using this
    | cons j q' =>
      simp only [load] at hl ⊢
      have hc := builtAt_children level _ (builtAt_getD level ns hb k)
      have := ih (level + 1) _ hc hl
      refine ⟨?_, this.2⟩
      rw [this.1]
      simp only [List.length_cons]
      push_cast
      ring

theorem load_parent_ne_nil (q : Ptr) : ∀ (ns : List ASTNode) (k : Nat),
    q ≠ [] → load ns (q ++ [k]) ≠ .nil → load ns q ≠ .nil := by
  induction q with
  | nil => intro ns k h; exact absurd rfl h
  | cons j q ih =>
    intro ns k _ hl
    cases q with
    | nil =>
      simp only [List.singleton_append, load] at hl ⊢
      intro h
      rw [h] at hl
      exact hl (by simp [ASTNode.Children, load])
    | cons i q' =>
      simp only [List.cons_append, load] at hl ⊢
      exact ih _ k (by simp) hl

/-- C14, amended. The children of the node `File: <name>` of a file that
parses are: first the leaf `Package: <package name>`; then one grouping node
`Imports` if and only if the file has an import, with one child
`Import: <path literal>` per import, in order; then the nodes of the
top-level declarations, in source order.  A function declaration (and a bad
declaration) gives exactly one node, a type declaration one node per type
specification, a `const` or `var` declaration one grouping node if it
declares a name and no node otherwise, and an import declaration no node. -/
theorem ParseTxtar_file_children (parseFile : String → String → Except String File)
    (file : TxtarFile) (f : File) (h : parseFile file.Name file.Data = .ok f) :
    ParseTxtar.root parseFile file =
      .mk ("File: " ++ file.Name)
        (.mk ("Package: " ++ f.Name.Name) [] 2 false ::
          ((if f.Imports.isEmpty then []
            else [.mk "Imports"
              (f.Imports.map (fun imp => ASTNode.mk ("Import: " ++ imp.Path.Value) [] 3 false))
              2 false]) ++
            f.Decls.flatMap (fun d => declToNode d 2)))
        1 false ∧
    (∀ (d : FuncDecl) (level : Int), (declToNode (.FuncDecl d) level).length = 1) ∧
    (∀ level : Int, (declToNode .BadDecl level).length = 1) ∧
    (∀ (specs : List Spec) (level : Int),
      (declToNode (.GenDecl (.mk .TYPE specs)) level).length = countTypeSpecs specs) ∧
    (∀ (specs : List Spec) (level : Int),
      (declToNode (.GenDecl (.mk .CONST specs)) level).length =
        if (declaredNames specs).isEmpty then 0 else 1) ∧
    (∀ (specs : List Spec) (level : Int),
      (declToNode (.GenDecl (.mk .VAR specs)) level).length =
        if (declaredNames specs).isEmpty then 0 else 1) ∧
    (∀ (specs : List Spec) (level : Int),
      declToNode (.GenDecl (.mk .IMPORT specs)) level = []) := by
  refine ⟨?_, ?_, ?_, ?_, ?_, ?_, ?_⟩
  · simp only [ParseTxtar.root, h, astToNodes]
    cases hi : f.Imports with
    | nil => simp
    | cons i is => simp
  · intro d level; simp [declToNode]
  · intro level; simp [declToNode]
  · intro specs level
    simp only [declToNode, genDeclToNode]
    exact typeNodes_length level specs
  · intro specs level
    simp only [declToNode, genDeclToNode, constChildren_eq]
    cases hd : declaredNames specs <;> simp
  · intro specs level
    simp only [declToNode, genDeclToNode, varChildren_eq]
    cases hd : declaredNames specs <;> simp
  · intro specs level
    simp [declToNode, genDeclToNode]

theorem ParseTxtar_file_children_witness :
    sampleFileParser "main.go" "default" = .ok sampleFile ∧
    (ParseTxtar.root sampleFileParser ⟨"main.go", "default"⟩ =
      .mk ("File: " ++ (TxtarFile.mk "main.go" "default").Name)
        (.mk ("Package: " ++ sampleFile.Name.Name) [] 2 false ::
          ((if sampleFile.Imports.isEmpty then []
            else [.mk "Imports"
              (sampleFile.Imports.map
                (fun imp => ASTNode.mk ("Import: " ++ imp.Path.Value) [] 3 false))
              2 false]) ++
            sampleFile.Decls.flatMap (fun d => declToNode d 2)))
        1 false ∧
    (∀ (d : FuncDecl) (level : Int), (declToNode (.FuncDecl d) level).length = 1) ∧
    (∀ level : Int, (declToNode .BadDecl level).length = 1) ∧
    (∀ (specs : List Spec) (level : Int),
      (declToNode (.GenDecl (.mk .TYPE specs)) level).length = countTypeSpecs specs) ∧
    (∀ (specs : List Spec) (level : Int),
      (declToNode (.GenDecl (.mk .CONST specs)) level).length =
        if (declaredNames specs).isEmpty then 0 else 1) ∧
    (∀ (specs : List Spec) (level : Int),
      (declToNode (.GenDecl (.mk .VAR specs)) level).length =
        if (declaredNames specs).isEmpty then 0 else 1) ∧
    (∀ (specs : List Spec) (level : Int),
      declToNode (.GenDecl (.mk .IMPORT specs)) level = [])) :=
  ⟨rfl, ParseTxtar_file_children sampleFileParser ⟨"main.go", "default"⟩ sampleFile rfl⟩

/-- C15. In every forest that `ParseTxtar` returns, the indent level of every
node is at least 0 and the indent level of every child is at least the indent
level of its parent. -/
theorem ParseTxtar_indent_monotone (txtarParse : String → Archive)
    (parseFile : String → String → Except String File) (content : String)
    (nodes : List ASTNode) (h : ParseTxtar txtarParse parseFile content = .ok nodes) :
    (∀ q : Ptr, load nodes q ≠ .nil → 0 ≤ (load nodes q).IndentLevel) ∧
    (∀ (q : Ptr) (k : Nat), q ≠ [] → load nodes (q ++ [k]) ≠ .nil →
      (load nodes q).IndentLevel ≤ (load nodes (q ++ [k])).IndentLevel) := by
  have hb := ParseTxtar_builtAt txtarParse parseFile content nodes h
  constructor
  · intro q hq
    rw [(load_of_builtAt q 1 nodes hb hq).1]
    have : 0 ≤ (q.length : Int) := Int.natCast_nonneg _
    cases q with
    | nil => exact absurd rfl hq
    | cons a b => simp only [List.length_cons]; push_cast; omega
  · intro q k hq hc
    have hp := load_parent_ne_nil q nodes k hq hc
    rw [(load_of_builtAt q 1 nodes hb hp).1, (load_of_builtAt (q ++ [k]) 1 nodes hb hc).1]
    simp only [List.length_append, List.length_singleton]
    push_cast
    omega

theorem ParseTxtar_indent_monotone_witness :
    ParseTxtar sampleFileTxtar sampleFileParser "" =
      .ok [ParseTxtar.root sampleFileParser ⟨"main.go", "default"⟩] ∧
    ((∀ q : Ptr, load [ParseTxtar.root sampleFileParser ⟨"main.go", "default"⟩] q ≠ .nil →
        0 ≤ (load [ParseTxtar.root sampleFileParser ⟨"main.go", "default"⟩] q).IndentLevel) ∧
      (∀ (q : Ptr) (k : Nat), q ≠ [] →
        load [ParseTxtar.root sampleFileParser ⟨"main.go", "default"⟩] (q ++ [k]) ≠ .nil →
        (load [ParseTxtar.root sampleFileParser ⟨"main.go", "default"⟩] q).IndentLevel ≤
          (load [ParseTxtar.root sampleFileParser ⟨"main.go", "default"⟩]
            (q ++ [k])).IndentLevel)) :=
  ⟨rfl, ParseTxtar_indent_monotone sampleFileTxtar sampleFileParser "" _ rfl⟩

/-- C16. Every node of every forest that `ParseTxtar` returns, and of every
tree that `astToNodes`, `declToNode`, `stmtToNode` or `exprToNode` returns,
has `Collapsed = false`; so when `FlattenNodes` returns on a freshly parsed
forest, it returns the listing of all nodes of the forest, and it does return
when the forest has no nil pointer. -/
theorem ParseTxtar_all_expanded (txtarParse : String → Archive)
    (parseFile : String → String → Except String File) (content : String)
    (nodes : List ASTNode) (h : ParseTxtar txtarParse parseFile content = .ok nodes) :
    allExpandedForest nodes = true ∧
    (∀ q : Ptr, (load nodes q).Collapsed = false) ∧
    (∀ flat : List Ptr, FlattenNodes nodes = some flat →
      flat = preorderForest nodes ∧ flat.length = countForest nodes) ∧
    (noNilForest nodes = true → FlattenNodes nodes = some (preorderForest nodes)) ∧
    (∀ (node : Node) (level : Int), allExpandedForest (astToNodes node level) = true) ∧
    (∀ (d : Decl) (level : Int), allExpandedForest (declToNode d level) = true) ∧
    (∀ (s : Stmt) (level : Int), (stmtToNode s level).allExpanded = true) ∧
    (∀ (e : Expr) (level : Int), (exprToNode e level).allExpanded = true) := by
  have hb := ParseTxtar_builtAt txtarParse parseFile content nodes h
  have he := allExpanded_of_builtAt.2 nodes 1 hb
  have hv : visibleForest nodes = preorderForest nodes := visible_eq_preorder.2 nodes he 0
  refine ⟨he, ?_, ?_, ?_, ?_, ?_, ?_, ?_⟩
  · intro q
    by_cases hq : load nodes q = .nil
    · rw [hq]; rfl
    · exact (load_of_builtAt q 1 nodes hb hq).2
  · intro flat hf
    have := FlattenNodes_some nodes flat hf
    rw [hv] at this
    exact ⟨this, by rw [this]; exact preorder_length.2 nodes 0⟩
  · intro hn
    rw [FlattenNodes_of_noNil nodes hn, hv]
  · intro node level
    exact allExpanded_of_builtAt.2 _ level (astToNodes_builtAt node level)
  · intro d level
    exact allExpanded_of_builtAt.2 _ level (declToNode_builtAt d level)
  · intro s level
    exact allExpanded_of_builtAt.1 _ level (stmtToNode_builtAt s level)
  · intro e level
    exact allExpanded_of_builtAt.1 _ level (exprToNode_builtAt e level)

theorem ParseTxtar_all_expanded_witness :
    ParseTxtar sampleFileTxtar sampleFileParser "" =
      .ok [ParseTxtar.root sampleFileParser ⟨"main.go", "default"⟩] ∧
    (allExpandedForest [ParseTxtar.root sampleFileParser ⟨"main.go", "default"⟩] = true ∧
      (∀ q : Ptr,
        (load [ParseTxtar.root sampleFileParser ⟨"main.go", "default"⟩] q).Collapsed = false) ∧
      (∀ flat : List Ptr,
        FlattenNodes [ParseTxtar.root sampleFileParser ⟨"main.go", "default"⟩] = some flat →
        flat = preorderForest [ParseTxtar.root sampleFileParser ⟨"main.go", "default"⟩] ∧
        flat.length = countForest [ParseTxtar.root sampleFileParser ⟨"main.go", "default"⟩]) ∧
      (noNilForest [ParseTxtar.root sampleFileParser ⟨"main.go", "default"⟩] = true →
        FlattenNodes [ParseTxtar.root sampleFileParser ⟨"main.go", "default"⟩] =
          some (preorderForest [ParseTxtar.root sampleFileParser ⟨"main.go", "default"⟩])) ∧
      (∀ (node : Node) (level : Int), allExpandedForest (astToNodes node level) = true) ∧
      (∀ (d : Decl) (level : Int), allExpandedForest (declToNode d level) = true) ∧
      (∀ (s : Stmt) (level : Int), (stmtToNode s level).allExpanded = true) ∧
      (∀ (e : Expr) (level : Int), (exprToNode e level).allExpanded = true)) :=
  ⟨rfl, ParseTxtar_all_expanded sampleFileTxtar sampleFileParser "" _ rfl⟩

/-! ## What a toggle does to the listing -/

theorem store_id (p : Ptr) : ∀ ns : List ASTNode, store id ns p = ns := by
  induction p with
  | nil => intro ns; simp [store]
  | cons k q ih =>
    intro ns
    rw [store_cons]
    have : (fun n => storeNode id n q) = id := by
      funext n
      cases q with
      | nil => rfl
      | cons j q' =>
        cases n with
        | nil => rfl
        | mk l cs i c => rw [storeNode_mk_cons, ih]; rfl
    rw [this, List.modify_id]

theorem visibleFrom_head (ns : List ASTNode) (k : Nat) (q : Ptr)
    (h : q ∈ visibleFrom k ns) : ∃ j q', q = (k + j) :: q' := by
  obtain ⟨j, q', hq, _⟩ := (visible_mem.2 ns k q).1 h
  exact ⟨j, q', hq⟩

/-- The listing around a listed address: what stands before it and what
stands after the subtree of its node does not depend on that subtree, and no
address of the subtree stands there. -/
theorem visible_store_split :
    (∀ n : ASTNode, ∀ (i : Nat) (q : Ptr), (visibleNode n)[i]? = some q →
      ∃ A R : List Ptr, A.length = i ∧
        (∀ x ∈ A ++ R, ∀ t : Ptr, x ≠ q ++ t) ∧
        ∀ g : ASTNode → ASTNode,
          visibleNode (storeNode g n q) =
            A ++ (visibleNode (g (loadNode n q))).map (q ++ ·) ++ R) ∧
    (∀ ns : List ASTNode, ∀ (k i : Nat) (q : Ptr), (visibleFrom k ns)[i]? = some q →
      ∃ (j : Nat) (q' : Ptr) (A R : List Ptr), q = (k + j) :: q' ∧ A.length = i ∧
        (∀ x ∈ A ++ R, ∀ t : Ptr, x ≠ q ++ t) ∧
        ∀ g : ASTNode → ASTNode,
          visibleFrom k (ns.modify (fun n => storeNode g n q') j) =
            A ++ (visibleNode (g (loadNode (ns.getD j .nil) q'))).map (q ++ ·) ++ R) := by
  refine @tree_induction
    (fun n => ∀ (i : Nat) (q : Ptr), (visibleNode n)[i]? = some q →
      ∃ A R : List Ptr, A.length = i ∧
        (∀ x ∈ A ++ R, ∀ t : Ptr, x ≠ q ++ t) ∧
        ∀ g : ASTNode → ASTNode,
          visibleNode (storeNode g n q) =
            A ++ (visibleNode (g (loadNode n q))).map (q ++ ·) ++ R)
    (fun ns => ∀ (k i : Nat) (q : Ptr), (visibleFrom k ns)[i]? = some q →
      ∃ (j : Nat) (q' : Ptr) (A R : List Ptr), q = (k + j) :: q' ∧ A.length = i ∧
        (∀ x ∈ A ++ R, ∀ t : Ptr, x ≠ q ++ t) ∧
        ∀ g : ASTNode → ASTNode,
          visibleFrom k (ns.modify (fun n => storeNode g n q') j) =
            A ++ (visibleNode (g (loadNode (ns.getD j .nil) q'))).map (q ++ ·) ++ R)
    ?_ ?_ ?_ ?_
  · intro i q h; simp [visibleNode] at h
  · intro l cs lvl c ih i q h
    cases i with
    | zero =>
      simp [visibleNode] at h
      subst h
      refine ⟨[], [], rfl, by simp, ?_⟩
      intro g
      simp [storeNode, loadNode]
    | succ i =>
      cases c
      · simp [visibleNode] at h
        obtain ⟨j, q', A, R, hq, hA, hx, hg⟩ := ih 0 i q h
        subst hq
        simp only [Nat.zero_add] at hg hx ⊢
        refine ⟨[] :: A, R, by simp [hA], ?_, ?_⟩
        · intro x hxm t
          simp only [List.cons_append, List.mem_cons] at hxm
          rcases hxm with rfl | hxm
          · simp
          · exact hx x hxm t
        · intro g
          rw [storeNode_mk_cons, store_cons]
          simp only [visibleNode, Bool.false_eq_true, if_false, hg g, loadNode,
            ASTNode.Children, load_cons, List.cons_append]
      · simp [visibleNode] at h
  · intro k i q h; simp [visibleFrom] at h
  · intro c cs ihc ihcs k i q h
    simp only [visibleFrom] at h
    by_cases hi : i < ((visibleNode c).map (k :: ·)).length
    · rw [List.getElem?_append_left hi] at h
      simp only [List.getElem?_map, Option.map_eq_some'] at h
      obtain ⟨q0, hq0, rfl⟩ := h
      obtain ⟨A, R, hA, hx, hg⟩ := ihc i q0 hq0
      refine ⟨0, q0, A.map (k :: ·), R.map (k :: ·) ++ visibleFrom (k + 1) cs, by simp,
        by simp [hA], ?_, ?_⟩
      · intro x hxm t he
        simp only [List.mem_append, List.mem_map] at hxm
        rcases hxm with ⟨a, ha, rfl⟩ | ⟨a, ha, rfl⟩ | hxm
        · simp only [List.cons_append, List.cons.injEq, true_and] at he
          exact hx a (by simp [ha]) t he
        · simp only [List.cons_append, List.cons.injEq, true_and] at he
          exact hx a (by simp [ha]) t he
        · obtain ⟨j, q', hj⟩ := visibleFrom_head cs (k + 1) x hxm
          rw [hj] at he
          simp only [List.cons_append, List.cons.injEq] at he
          omega
      · intro g
        simp only [List.modify_zero_cons, visibleFrom, hg g, List.getD_cons_zero,
          List.map_append, List.map_map, List.append_assoc]
        rfl
    · have hi' : ((visibleNode c).map (k :: ·)).length ≤ i := Nat.le_of_not_lt hi
      rw [List.getElem?_append_right hi'] at h
      obtain ⟨j, q', A, R, hq, hA, hx, hg⟩ := ihcs (k + 1) _ q h
      refine ⟨j + 1, q', (visibleNode c).map (k :: ·) ++ A, R, by rw [hq]; congr 1; omega,
        ?_, ?_, ?_⟩
      · simp only [List.length_append, hA]
        omega
      · intro x hxm t he
        simp only [List.append_assoc, List.mem_append, List.mem_map] at hxm
        rcases hxm with ⟨a, _, rfl⟩ | hxm
        · rw [hq] at he
          simp only [List.cons_append, List.cons.injEq] at he
          omega
        · exact hx x (by simpa using hxm) t he
      · intro g
        rw [List.modify_succ_cons]
        simp only [visibleFrom, hg g, List.getD_cons_succ, List.append_assoc]

theorem visible_store_split_forest (forest : List ASTNode) (i : Nat) (p : Ptr)
    (h : (visibleForest forest)[i]? = some p) :
    ∃ A R : List Ptr, A.length = i ∧
      (∀ x ∈ A ++ R, ∀ t : Ptr, x ≠ p ++ t) ∧
      ∀ g : ASTNode → ASTNode,
        visibleForest (store g forest p) =
          A ++ (visibleNode (g (load forest p))).map (p ++ ·) ++ R := by
  obtain ⟨j, q', A, R, hq, hA, hx, hg⟩ := visible_store_split.2 forest 0 i p h
  subst hq
  simp only [Nat.zero_add] at hg hx ⊢
  refine ⟨A, R, hA, hx, ?_⟩
  intro g
  rw [visibleForest, store_cons, hg g, load_cons]

theorem noNilForest_getD_children (ns : List ASTNode) : noNilForest ns = true →
    ∀ k : Nat, noNilForest (ns.getD k .nil).Children = true := by
  induction ns with
  | nil => intro _ k; rfl
  | cons c cs ih =>
    intro h k
    simp only [noNilForest, Bool.and_eq_true] at h
    cases k with
    | zero =>
      simp only [List.getD_cons_zero]
      cases c with
      | nil => rfl
      | mk l ds lvl b => simpa [ASTNode.noNil, ASTNode.Children] using h.1
    | succ k => simpa using ih h.2 k

theorem noNilForest_load_children (p : Ptr) : ∀ ns : List ASTNode, noNilForest ns = true →
    noNilForest (load ns p).Children = true := by
  induction p with
  | nil => intro ns _; rfl
  | cons k q ih =>
    intro ns h
    cases q with
    | nil => simpa [load] using noNilForest_getD_children ns h k
    | cons j q' =>
      rw [load]
      exact ih _ (noNilForest_getD_children ns h k)

theorem drop_past_block (A B R : List Ptr) (p : Ptr) :
    (A ++ p :: B ++ R).drop (A.length + 1 + B.length) = R := by
  exact List.drop_left' (by simp only [List.length_append, List.length_cons]; omega)

theorem drop_past_node (A R : List Ptr) (p : Ptr) :
    (A ++ p :: R).drop (A.length + 1) = R := by
  have h : A ++ p :: R = (A ++ [p]) ++ R := by simp
  rw [h]
  exact List.drop_left' (by simp)

/-- C21. On a panel whose forest has no nil entry, let the node at index `i`
of the flattened sequence have children, and let `block` be the flattened
sequence of its children, each address put below the node.  The flattened
sequence before and after the toggle are the same `before`, then the node at
index `i`, then `after`, and no address of `before` or `after` is the node or
lies below it.  If the node was expanded, `block` stood right behind the node
and the toggle removes exactly it, so the length decreases by the length of
`block`; if the node was collapsed, the toggle inserts `block` right behind
the node. -/
theorem toggle_removes_block (r : RightPanel) (i : Int) (flat : List Ptr) (p : Ptr)
    (hn : noNilForest r.astNodes = true)
    (hf : FlattenNodes r.astNodes = some flat) (h0 : 0 ≤ i) (hp : flat[i.toNat]? = some p)
    (hc : (load r.astNodes p).Children ≠ []) :
    ∃ (r1 : RightPanel) (flat1 sub block before after : List Ptr),
      toggleNodeCollapse r i = some r1 ∧ FlattenNodes r1.astNodes = some flat1 ∧
      FlattenNodes (load r.astNodes p).Children = some sub ∧
      block = sub.map (p ++ ·) ∧ block ≠ [] ∧
      before.length = i.toNat ∧ flat1[i.toNat]? = some p ∧
      (∀ x ∈ before ++ after, ∀ t : Ptr, x ≠ p ++ t) ∧
      ((load r.astNodes p).Collapsed = false →
        flat = before ++ p :: block ++ after ∧ flat1 = before ++ p :: after ∧
        flat1.take (i.toNat + 1) = flat.take (i.toNat + 1) ∧
        flat1.drop (i.toNat + 1) = flat.drop (i.toNat + 1 + block.length) ∧
        flat1.length + block.length = flat.length) ∧
      ((load r.astNodes p).Collapsed = true →
        flat = before ++ p :: after ∧ flat1 = before ++ p :: block ++ after ∧
        flat1.take (i.toNat + 1) = flat.take (i.toNat + 1) ∧
        flat1.drop (i.toNat + 1 + block.length) = flat.drop (i.toNat + 1) ∧
        flat1.length = flat.length + block.length) := by
  have e1 := toggle_eq_store r i flat p hf h0 hp hc
  have hflat := FlattenNodes_some _ _ hf
  have hn1 : noNilForest (store ASTNode.negateCollapsed r.astNodes p) = true := by
    rw [noNilForest_store]; exact hn
  have hf1 := FlattenNodes_of_noNil _ hn1
  have hsub := FlattenNodes_of_noNil _ (noNilForest_load_children p r.astNodes hn)
  have hp0 : (visibleForest r.astNodes)[i.toNat]? = some p := by rw [← hflat]; exact hp
  obtain ⟨A, R, hA, hx, hg⟩ := visible_store_split_forest r.astNodes i.toNat p hp0
  have hold := hg id
  rw [store_id] at hold
  have hnew := hg ASTNode.negateCollapsed
  have hblock : (visibleForest (load r.astNodes p).Children).map (p ++ ·) ≠ [] := by
    cases hl : load r.astNodes p with
    | nil => rw [hl] at hc; exact absurd rfl hc
    | mk l cs lvl c =>
      rw [hl] at hc
      simp only [ASTNode.Children] at hc ⊢
      cases cs with
      | nil => exact absurd rfl hc
      | cons d ds =>
        have hd : noNilForest (d :: ds) = true := by
          have := noNilForest_load_children p r.astNodes hn
          rw [hl] at this
          exact this
        simp only [noNilForest, Bool.and_eq_true] at hd
        cases d with
        | nil => simp [ASTNode.noNil] at hd
        | mk l2 cs2 lvl2 c2 => simp [visibleForest, visibleFrom, visibleNode]
  refine ⟨_, _, _, (visibleForest (load r.astNodes p).Children).map (p ++ ·), A, R,
    e1, hf1, hsub, rfl, hblock, hA, ?_, hx, ?_, ?_⟩
  · exact visible_store_index_forest _ _ _ hp0
  · intro hcol
    have ho : flat = A ++ p :: (visibleForest (load r.astNodes p).Children).map (p ++ ·) ++ R := by
      rw [hflat, hold]
      cases hl : load r.astNodes p with
      | nil => rw [hl] at hc; exact absurd rfl hc
      | mk l cs lvl c =>
        rw [hl] at hcol
        simp only [ASTNode.Collapsed] at hcol
        subst hcol
        simp [visibleNode, visibleForest, ASTNode.Children]
    have hw : visibleForest (store ASTNode.negateCollapsed r.astNodes p) = A ++ p :: R := by
      rw [hnew]
      cases hl : load r.astNodes p with
      | nil => rw [hl] at hc; exact absurd rfl hc
      | mk l cs lvl c =>
        rw [hl] at hcol
        simp only [ASTNode.Collapsed] at hcol
        subst hcol
        simp [visibleNode, ASTNode.negateCollapsed, ASTNode.setCollapsed, ASTNode.Collapsed]
    refine ⟨ho, hw, ?_, ?_, ?_⟩
    · rw [hw, ho, ← hA]
      simp [List.take_append_eq_append_take]
    · rw [hw, ho, ← hA, drop_past_node, drop_past_block]
    · rw [hw, ho]
      simp only [List.length_append, List.length_cons]
      omega
  · intro hcol
    have ho : flat = A ++ p :: R := by
      rw [hflat, hold]
      cases hl : load r.astNodes p with
      | nil => rw [hl] at hc; exact absurd rfl hc
      | mk l cs lvl c =>
        rw [hl] at hcol
        simp only [ASTNode.Collapsed] at hcol
        subst hcol
        simp [visibleNode]
    have hw : visibleForest (store ASTNode.negateCollapsed r.astNodes p) =
        A ++ p :: (visibleForest (load r.astNodes p).Children).map (p ++ ·) ++ R := by
      rw [hnew]
      cases hl : load r.astNodes p with
      | nil => rw [hl] at hc; exact absurd rfl hc
      | mk l cs lvl c =>
        rw [hl] at hcol
        simp only [ASTNode.Collapsed] at hcol
        subst hcol
        simp [visibleNode, visibleForest, ASTNode.negateCollapsed, ASTNode.setCollapsed,
          ASTNode.Collapsed, ASTNode.Children]
    refine ⟨ho, hw, ?_, ?_, ?_⟩
    · rw [hw, ho, ← hA]
      simp [List.take_append_eq_append_take]
    · rw [hw, ho, ← hA, drop_past_node, drop_past_block]
    · rw [hw, ho]
      simp only [List.length_append, List.length_cons]
      omega

theorem toggle_removes_block_witness :
    noNilForest samplePanel.astNodes = true ∧
    FlattenNodes samplePanel.astNodes = some [[0], [0, 0], [0, 1], [1]] ∧
    (load samplePanel.astNodes [0]).Children ≠ [] ∧
    ∃ (r1 : RightPanel) (flat1 sub block before after : List Ptr),
      toggleNodeCollapse samplePanel 0 = some r1 ∧ FlattenNodes r1.astNodes = some flat1 ∧
      FlattenNodes (load samplePanel.astNodes [0]).Children = some sub ∧
      block = sub.map ([0] ++ ·) ∧ block ≠ [] ∧
      before.length = (0 : Int).toNat ∧ flat1[(0 : Int).toNat]? = some [0] ∧
      (∀ x ∈ before ++ after, ∀ t : Ptr, x ≠ [0] ++ t) ∧
      ((load samplePanel.astNodes [0]).Collapsed = false →
        [[0], [0, 0], [0, 1], [1]] = before ++ [0] :: block ++ after ∧
        flat1 = before ++ [0] :: after ∧
        flat1.take ((0 : Int).toNat + 1) = [[0], [0, 0], [0, 1], [1]].take ((0 : Int).toNat + 1) ∧
        flat1.drop ((0 : Int).toNat + 1) =
          [[0], [0, 0], [0, 1], [1]].drop ((0 : Int).toNat + 1 + block.length) ∧
        flat1.length + block.length = [[0], [0, 0], [0, 1], [1]].length) ∧
      ((load samplePanel.astNodes [0]).Collapsed = true →
        [[0], [0, 0], [0, 1], [1]] = before ++ [0] :: after ∧
        flat1 = before ++ [0] :: block ++ after ∧
        flat1.take ((0 : Int).toNat + 1) = [[0], [0, 0], [0, 1], [1]].take ((0 : Int).toNat + 1) ∧
        flat1.drop ((0 : Int).toNat + 1 + block.length) =
          [[0], [0, 0], [0, 1], [1]].drop ((0 : Int).toNat + 1) ∧
        flat1.length = [[0], [0, 0], [0, 1], [1]].length + block.length) :=
  ⟨by decide, by decide, by decide,
    toggle_removes_block samplePanel 0 [[0], [0, 0], [0, 1], [1]] [0]
      (by decide) (by decide) (by decide) (by decide) (by decide)⟩

/-! ## The listing as a part of the full listing -/

theorem visible_sublist_preorder :
    (∀ n : ASTNode, (visibleNode n).Sublist (preorderNode n)) ∧
    (∀ ns : List ASTNode, ∀ k, (visibleFrom k ns).Sublist (preorderFrom k ns)) := by
  refine @tree_induction
    (fun n => (visibleNode n).Sublist (preorderNode n))
    (fun ns => ∀ k, (visibleFrom k ns).Sublist (preorderFrom k ns)) ?_ ?_ ?_ ?_
  · exact List.Sublist.refl _
  · intro l cs i c ih
    cases c
    · simpa [visibleNode, preorderNode] using ih 0
    · simp [visibleNode, preorderNode]
  · intro k; exact List.Sublist.refl _
  · intro c cs ihc ihcs k
    simp only [visibleFrom, preorderFrom]
    exact List.Sublist.append (ihc.map _) (ihcs (k + 1))

theorem preorder_eraseCollapsed :
    (∀ n : ASTNode, preorderNode n.eraseCollapsed = preorderNode n) ∧
    (∀ ns : List ASTNode, ∀ k,
      preorderFrom k (eraseCollapsedForest ns) = preorderFrom k ns) := by
  refine @tree_induction
    (fun n => preorderNode n.eraseCollapsed = preorderNode n)
    (fun ns => ∀ k, preorderFrom k (eraseCollapsedForest ns) = preorderFrom k ns) ?_ ?_ ?_ ?_
  · rfl
  · intro l cs i c ih
    simp [ASTNode.eraseCollapsed, preorderNode, ih 0]
  · intro k; rfl
  · intro c cs ihc ihcs k
    simp [eraseCollapsedForest, preorderFrom, ihc, ihcs]

theorem allExpanded_eraseCollapsed :
    (∀ n : ASTNode, n.eraseCollapsed.allExpanded = true) ∧
    (∀ ns : List ASTNode, allExpandedForest (eraseCollapsedForest ns) = true) := by
  refine @tree_induction
    (fun n => n.eraseCollapsed.allExpanded = true)
    (fun ns => allExpandedForest (eraseCollapsedForest ns) = true) ?_ ?_ ?_ ?_
  · rfl
  · intro l cs i c ih
    simp [ASTNode.eraseCollapsed, ASTNode.allExpanded, ih]
  · rfl
  · intro c cs ihc ihcs
    simp [eraseCollapsedForest, allExpandedForest, ihc, ihcs]

theorem visible_length_ge :
    (∀ n : ASTNode, n.noNil = true → 1 ≤ (visibleNode n).length) ∧
    (∀ ns : List ASTNode, noNilForest ns = true →
      ∀ k, ns.length ≤ (visibleFrom k ns).length) := by
  refine @tree_induction
    (fun n => n.noNil = true → 1 ≤ (visibleNode n).length)
    (fun ns => noNilForest ns = true → ∀ k, ns.length ≤ (visibleFrom k ns).length)
    ?_ ?_ ?_ ?_
  · intro h; simp [ASTNode.noNil] at h
  · intro l cs i c _ _; simp [visibleNode]
  · intro _ k; simp
  · intro c cs ihc ihcs h k
    simp only [noNilForest, Bool.and_eq_true] at h
    have h1 := ihc h.1
    have h2 := ihcs h.2 (k + 1)
    simp only [visibleFrom, List.length_append, List.length_map, List.length_cons]
    omega

theorem noNil_getD (ns : List ASTNode) : noNilForest ns = true →
    ∀ k, k < ns.length → ns.getD k .nil ≠ .nil := by
  induction ns with
  | nil => intro _ k hk; simp at hk
  | cons c cs ih =>
    intro h k hk
    simp only [noNilForest, Bool.and_eq_true] at h
    cases k with
    | zero =>
      simp only [List.getD_cons_zero]
      intro hc
      rw [hc] at h
      simp [ASTNode.noNil] at h
    | succ k =>
      simp only [List.getD_cons_succ]
      exact ih h.2 k (by simpa using hk)

theorem visibleFrom_modify (F : ASTNode → ASTNode) (ns : List ASTNode) :
    ∀ (j k : Nat), visibleNode (F (ns.getD j .nil)) = visibleNode (ns.getD j .nil) →
      visibleFrom k (ns.modify F j) = visibleFrom k ns := by
  induction ns with
  | nil => intro j k _; simp
  | cons c cs ih =>
    intro j k h
    cases j with
    | zero =>
      simp only [List.getD_cons_zero] at h
      simp [visibleFrom, h]
    | succ j =>
      simp only [List.getD_cons_succ] at h
      rw [List.modify_succ_cons]
      simp only [visibleFrom, ih j (k + 1) h]

/-- Negating the flag of a node without children does not change the
listing. -/
theorem visible_store_leaf (p : Ptr) : ∀ (ns : List ASTNode),
    (load ns p).Children = [] →
      ∀ k, visibleFrom k (store ASTNode.negateCollapsed ns p) = visibleFrom k ns := by
  induction p with
  | nil => intro ns _ k; simp [store]
  | cons j q ih =>
    intro ns hc k
    rw [store_cons]
    apply visibleFrom_modify
    rw [load_cons] at hc
    generalize ns.getD j .nil = n at hc
    cases q with
    | nil =>
      cases n with
      | nil => rfl
      | mk l cs i c =>
        simp only [loadNode, ASTNode.Children] at hc
        subst hc
        cases c <;> simp [storeNode, ASTNode.negateCollapsed, ASTNode.setCollapsed,
          ASTNode.Collapsed, visibleNode, visibleFrom]
    | cons a q' =>
      cases n with
      | nil => rfl
      | mk l cs i c =>
        rw [storeNode_mk_cons]
        simp only [loadNode, ASTNode.Children] at hc
        simp only [visibleNode, ih cs hc 0]

/-- C22. On a forest of display nodes, whatever the flags, `FlattenNodes`
returns an order-preserving sublist of what it returns on the same forest
with every flag set to false, which is the listing of all nodes; the result
contains every root, so its length lies between the number of roots and the
number of nodes; and negating the flag of a node without children does not
change the result. -/
theorem FlattenNodes_sublist_of_full (forest : List ASTNode)
    (hn : noNilForest forest = true) :
    ∃ flat full, FlattenNodes forest = some flat ∧
      FlattenNodes (eraseCollapsedForest forest) = some full ∧
      full = preorderForest forest ∧
      flat.Sublist full ∧
      (∀ k : Nat, k < forest.length → [k] ∈ flat) ∧
      forest.length ≤ flat.length ∧ flat.length ≤ countForest forest ∧
      (∀ p : Ptr, (load forest p).Children = [] →
        FlattenNodes (store ASTNode.negateCollapsed forest p) = some flat) := by
  have hsub : (visibleForest forest).Sublist (preorderForest forest) :=
    visible_sublist_preorder.2 forest 0
  refine ⟨visibleForest forest, preorderForest forest, FlattenNodes_of_noNil forest hn, ?_,
    rfl, hsub, ?_, visible_length_ge.2 forest hn 0, ?_, ?_⟩
  · have hne : noNilForest (eraseCollapsedForest forest) = true := by
      rw [noNil_eraseCollapsed.2]; exact hn
    rw [FlattenNodes_of_noNil _ hne, visibleForest,
      visible_eq_preorder.2 _ (allExpanded_eraseCollapsed.2 forest) 0,
      preorder_eraseCollapsed.2 forest 0, preorderForest]
  · intro k hk
    rw [visibleForest_mem]
    refine ⟨?_, ?_⟩
    · simpa [load] using noNil_getD forest hn k hk
    · intro q1 q2 h h1 h2
      have hlen := congrArg List.length h
      simp only [List.length_singleton, List.length_append] at hlen
      have : 0 < q1.length := List.length_pos.2 h1
      have : 0 < q2.length := List.length_pos.2 h2
      omega
  · have := hsub.length_le
    rwa [preorderForest, preorder_length.2 forest 0] at this
  · intro p hp
    have hns : noNilForest (store ASTNode.negateCollapsed forest p) = true := by
      rw [noNilForest_store]; exact hn
    rw [FlattenNodes_of_noNil _ hns, visibleForest, visible_store_leaf p forest hp 0,
      visibleForest]

theorem FlattenNodes_sublist_of_full_witness :
    noNilForest sampleForest = true ∧
    ∃ flat full, FlattenNodes sampleForest = some flat ∧
      FlattenNodes (eraseCollapsedForest sampleForest) = some full ∧
      full = preorderForest sampleForest ∧
      flat.Sublist full ∧
      (∀ k : Nat, k < sampleForest.length → [k] ∈ flat) ∧
      sampleForest.length ≤ flat.length ∧ flat.length ≤ countForest sampleForest ∧
      (∀ p : Ptr, (load sampleForest p).Children = [] →
        FlattenNodes (store ASTNode.negateCollapsed sampleForest p) = some flat) :=
  ⟨by decide, FlattenNodes_sublist_of_full sampleForest (by decide)⟩

/-! ## Indent level and depth -/

/-- C23. In every forest that `ParseTxtar` returns the indent level of a node
is its depth: the node at an address has as indent level the length of the
address, so every root has indent level 1 and every child has the indent
level of its parent plus 1, under every kind of node. -/
theorem ParseTxtar_indent_is_depth (txtarParse : String → Archive)
    (parseFile : String → String → Except String File) (content : String)
    (nodes : List ASTNode) (h : ParseTxtar txtarParse parseFile content = .ok nodes) :
    (∀ q : Ptr, load nodes q ≠ .nil → (load nodes q).IndentLevel = (q.length : Int)) ∧
    (∀ k : Nat, load nodes [k] ≠ .nil → (load nodes [k]).IndentLevel = 1) ∧
    (∀ (q : Ptr) (k : Nat), q ≠ [] → load nodes (q ++ [k]) ≠ .nil →
      (load nodes (q ++ [k])).IndentLevel = (load nodes q).IndentLevel + 1) := by
  have hb := ParseTxtar_builtAt txtarParse parseFile content nodes h
  have hd : ∀ q : Ptr, load nodes q ≠ .nil → (load nodes q).IndentLevel = (q.length : Int) := by
    intro q hq
    rw [(load_of_builtAt q 1 nodes hb hq).1]
    ring
  refine ⟨hd, ?_, ?_⟩
  · intro k hk
    rw [hd [k] hk]
    rfl
  · intro q k hq hc
    have hp := load_parent_ne_nil q nodes k hq hc
    rw [hd _ hc, hd _ hp]
    simp

theorem ParseTxtar_indent_is_depth_witness :
    ParseTxtar sampleFileTxtar sampleFileParser "" =
      .ok [ParseTxtar.root sampleFileParser ⟨"main.go", "default"⟩] ∧
    ((∀ q : Ptr, load [ParseTxtar.root sampleFileParser ⟨"main.go", "default"⟩] q ≠ .nil →
        (load [ParseTxtar.root sampleFileParser ⟨"main.go", "default"⟩] q).IndentLevel =
          (q.length : Int)) ∧
      (∀ k : Nat, load [ParseTxtar.root sampleFileParser ⟨"main.go", "default"⟩] [k] ≠ .nil →
        (load [ParseTxtar.root sampleFileParser ⟨"main.go", "default"⟩] [k]).IndentLevel = 1) ∧
      (∀ (q : Ptr) (k : Nat), q ≠ [] →
        load [ParseTxtar.root sampleFileParser ⟨"main.go", "default"⟩] (q ++ [k]) ≠ .nil →
        (load [ParseTxtar.root sampleFileParser ⟨"main.go", "default"⟩] (q ++ [k])).IndentLevel =
          (load [ParseTxtar.root sampleFileParser ⟨"main.go", "default"⟩] q).IndentLevel + 1)) :=
  ⟨rfl, ParseTxtar_indent_is_depth sampleFileTxtar sampleFileParser "" _ rfl⟩

/-! ## No nil child in a tree built from a complete syntax tree -/

theorem noNilForest_append (a b : List ASTNode) :
    noNilForest (a ++ b) = (noNilForest a && noNilForest b) := by
  induction a with
  | nil => simp [noNilForest]
  | cons c cs ih => simp [noNilForest, ih, Bool.and_assoc]

theorem noNilForest_iff (ns : List ASTNode) :
    noNilForest ns = true ↔ ∀ n : ASTNode, n ∈ ns → n.noNil = true := by
  induction ns with
  | nil => simp [noNilForest]
  | cons c cs ih => simp [noNilForest, ih]

theorem noNil_leaf (label : String) (level : Int) (c : Bool) :
    (ASTNode.mk label [] level c).noNil = true := by
  simp [ASTNode.noNil, noNilForest]

theorem noNil_ne_nil (n : ASTNode) (h : n.noNil = true) : n ≠ .nil := by
  intro hn
  rw [hn] at h
  simp [ASTNode.noNil] at h

theorem noNilForest_children (n : ASTNode) (h : n.noNil = true) :
    noNilForest n.Children = true := by
  cases n with
  | nil => rfl
  | mk l cs i c => simpa [ASTNode.noNil, ASTNode.Children] using h

theorem stmtToNode_isNil (s : Stmt) (level : Int) :
    (stmtToNode s level).isNil = s.isNil := by
  cases s with
  | BlockStmt b => cases b; simp [stmtToNode, blockStmtToNode, ASTNode.isNil, Stmt.isNil]
  | CaseClause list body =>
    by_cases hl : list.length = 0 <;> simp [stmtToNode, ASTNode.isNil, Stmt.isNil, hl]
  | BranchStmt tok label => cases label <;> simp [stmtToNode, ASTNode.isNil, Stmt.isNil]
  | _ => simp [stmtToNode, ASTNode.isNil, Stmt.isNil]

theorem fieldToNode_noNil (field : Field) (level : Int) :
    (fieldToNode field level).noNil = true := by
  unfold fieldToNode
  cases field.Tag <;> simp [ASTNode.noNil, noNilForest]

theorem noNilForest_fields (fields : List Field) (level : Int) :
    noNilForest (fields.map (fun f => fieldToNode f level)) = true := by
  rw [noNilForest_iff]
  intro n hn
  simp only [List.mem_map] at hn
  obtain ⟨f, _, rfl⟩ := hn
  exact fieldToNode_noNil f level

theorem typeSpecToNodes_noNil (ts : TypeSpec) (level : Int) :
    noNilForest (typeSpecToNodes ts level) = true := by
  cases ts with
  | mk name t =>
    cases t with
    | StructType fields =>
      cases fields <;>
        simp [typeSpecToNodes, noNilForest, ASTNode.noNil, noNilForest_fields]
    | InterfaceType methods =>
      cases methods <;>
        simp [typeSpecToNodes, noNilForest, ASTNode.noNil, noNilForest_fields]
    | _ => simp [typeSpecToNodes, noNilForest, ASTNode.noNil]

theorem genDeclToNode_noNil (d : GenDecl) (level : Int) :
    noNilForest (genDeclToNode d level) = true := by
  cases d with
  | mk tok specs =>
    have hconst : noNilForest (specs.flatMap (genDeclToNode.constChildren level)) = true := by
      rw [noNilForest_iff, constChildren_eq]
      intro n hn
      simp only [List.mem_map] at hn
      obtain ⟨p, _, rfl⟩ := hn
      exact noNil_leaf _ _ _
    have hvar : noNilForest (specs.flatMap (genDeclToNode.varChildren level)) = true := by
      rw [noNilForest_iff, varChildren_eq]
      intro n hn
      simp only [List.mem_map] at hn
      obtain ⟨p, _, rfl⟩ := hn
      simp only [ASTNode.noNil]
      split <;> simp [noNilForest, ASTNode.noNil]
    have htype : noNilForest (specs.flatMap (genDeclToNode.typeNodes level)) = true := by
      rw [noNilForest_iff]
      intro n hn
      simp only [List.mem_flatMap] at hn
      obtain ⟨spec, _, hn⟩ := hn
      cases spec with
      | TypeSpec ts =>
        cases ts with
        | mk name t =>
          simp only [genDeclToNode.typeNodes, List.mem_singleton] at hn
          subst hn
          simp only [ASTNode.noNil]
          exact typeSpecToNodes_noNil _ _
      | _ => simp [genDeclToNode.typeNodes] at hn
    cases tok with
    | TYPE => simpa [genDeclToNode] using htype
    | CONST =>
      simp only [genDeclToNode]
      split
      · simp [noNilForest, ASTNode.noNil, hconst]
      · rfl
    | VAR =>
      simp only [genDeclToNode]
      split
      · simp [noNilForest, ASTNode.noNil, hvar]
      · rfl
    | _ => simp [genDeclToNode, noNilForest]

theorem fieldGroup_noNil (label : String) (fields : Option FieldList) (level : Int) :
    noNilForest (match fields with
        | some (.mk (p :: ps)) =>
          [ASTNode.mk label ((p :: ps).map (fun param => fieldToNode param (level + 2)))
            (level + 1) false]
        | _ => ([] : List ASTNode)) = true := by
  rcases fields with _ | ⟨_ | ⟨p0, ps⟩⟩
  · rfl
  · rfl
  · simp only [noNilForest, ASTNode.noNil, Bool.and_true]
    exact noNilForest_fields (p0 :: ps) (level + 2)

theorem noNilForest_guard (c : Bool) (n : ASTNode) (h : c = true → n.noNil = true) :
    noNilForest (if c then [n] else []) = true := by
  cases c with
  | false => rfl
  | true => simp [noNilForest, h rfl]

mutual
theorem stmtToNode_noNil : ∀ (s : Stmt) (level : Int), s.partsPresent = true →
    s.isNil = false → (stmtToNode s level).noNil = true
  | .nil, level, _, hn => by simp [Stmt.isNil] at hn
  | .BlockStmt b, level, hp, _ => by
    rw [stmtToNode]
    exact blockStmtToNode_noNil b level (by simpa [Stmt.partsPresent] using hp)
  | .ExprStmt x, level, hp, _ => by
    simp only [Stmt.partsPresent, Bool.and_eq_true, Bool.not_eq_true'] at hp
    have h1 := exprToNode_noNil x (level + 1) hp.2 hp.1
    simp [stmtToNode, ASTNode.noNil, noNilForest, h1]
  | .AssignStmt lhs tok rhs, level, hp, _ => by
    simp only [Stmt.partsPresent, Bool.and_eq_true] at hp
    have h1 := exprEach_noNil lhs (level + 1) hp.1
    have h2 := exprEach_noNil rhs (level + 1) hp.2
    simp [stmtToNode, ASTNode.noNil, noNilForest_append, h1, h2]
  | .ReturnStmt results, level, hp, _ => by
    simp only [Stmt.partsPresent] at hp
    have h1 := exprEach_noNil results (level + 1) hp
    simp [stmtToNode, ASTNode.noNil, h1]
  | .IfStmt init cond body els, level, hp, _ => by
    simp only [Stmt.partsPresent, Bool.and_eq_true, Bool.not_eq_true'] at hp
    have h1 := noNilForest_guard (!init.isNil) (stmtToNode init (level + 1))
      (fun h => stmtToNode_noNil init (level + 1) hp.1.1.1 (by simpa using h))
    have h2 := exprToNode_noNil cond (level + 1) hp.1.1.2.2 hp.1.1.2.1
    have h3 := blockStmtToNode_noNil body (level + 1) hp.1.2
    have h4 := noNilForest_guard (!els.isNil) (stmtToNode els (level + 1))
      (fun h => stmtToNode_noNil els (level + 1) hp.2 (by simpa using h))
    simp only [stmtToNode, ASTNode.noNil, noNilForest_append, h1, h4, noNilForest, h2, h3,
      Bool.and_self]
  | .ForStmt init cond post body, level, hp, _ => by
    simp only [Stmt.partsPresent, Bool.and_eq_true] at hp
    have h1 := noNilForest_guard (!init.isNil) (stmtToNode init (level + 1))
      (fun h => stmtToNode_noNil init (level + 1) hp.1.1.1 (by simpa using h))
    have h2 := noNilForest_guard (!cond.isNil) (exprToNode cond (level + 1))
      (fun h => exprToNode_noNil cond (level + 1) hp.1.1.2 (by simpa using h))
    have h3 := noNilForest_guard (!post.isNil) (stmtToNode post (level + 1))
      (fun h => stmtToNode_noNil post (level + 1) hp.1.2 (by simpa using h))
    have h4 := blockStmtToNode_noNil body (level + 1) hp.2
    simp only [stmtToNode, ASTNode.noNil, noNilForest_append, h1, h2, h3, noNilForest, h4,
      Bool.and_self]
  | .RangeStmt key value _ x body, level, hp, _ => by
    simp only [Stmt.partsPresent, Bool.and_eq_true, Bool.not_eq_true'] at hp
    have h1 := noNilForest_guard (!key.isNil) (exprToNode key (level + 1))
      (fun h => exprToNode_noNil key (level + 1) hp.1.1.1 (by simpa using h))
    have h2 := noNilForest_guard (!value.isNil) (exprToNode value (level + 1))
      (fun h => exprToNode_noNil value (level + 1) hp.1.1.2 (by simpa using h))
    have h3 := exprToNode_noNil x (level + 1) hp.1.2.2 hp.1.2.1
    have h4 := blockStmtToNode_noNil body (level + 1) hp.2
    simp only [stmtToNode, ASTNode.noNil, noNilForest_append, h1, h2, h3, noNilForest, h4,
      Bool.and_self]
  | .DeclStmt decl, level, hp, _ => by
    simp only [Stmt.partsPresent] at hp
    have h1 := declToNode_noNil decl (level + 1) hp
    simp [stmtToNode, ASTNode.noNil, h1]
  | .DeferStmt call, level, hp, _ => by
    simp only [Stmt.partsPresent] at hp
    have h1 := callExprToNode_noNil call (level + 1) hp
    simp [stmtToNode, ASTNode.noNil, noNilForest, h1]
  | .GoStmt call, level, hp, _ => by
    simp only [Stmt.partsPresent] at hp
    have h1 := callExprToNode_noNil call (level + 1) hp
    simp [stmtToNode, ASTNode.noNil, noNilForest, h1]
  | .SwitchStmt init tag body, level, hp, _ => by
    simp only [Stmt.partsPresent, Bool.and_eq_true] at hp
    have h1 := noNilForest_guard (!init.isNil) (stmtToNode init (level + 1))
      (fun h => stmtToNode_noNil init (level + 1) hp.1.1 (by simpa using h))
    have h2 := noNilForest_guard (!tag.isNil) (exprToNode tag (level + 1))
      (fun h => exprToNode_noNil tag (level + 1) hp.1.2 (by simpa using h))
    have h3 := blockStmtToNode_noNil body (level + 1) hp.2
    simp only [stmtToNode, ASTNode.noNil, noNilForest_append, h1, h2, noNilForest, h3,
      Bool.and_self]
  | .CaseClause list body, level, hp, _ => by
    simp only [Stmt.partsPresent, Bool.and_eq_true] at hp
    have h1 := exprEach_noNil list (level + 1) hp.1
    have h2 := stmtEach_noNil body (level + 1) hp.2
    by_cases hl : list.length = 0 <;>
      simp [stmtToNode, ASTNode.noNil, noNilForest_append, hl, h1, h2]
  | .IncDecStmt x tok, level, hp, _ => by
    simp only [Stmt.partsPresent, Bool.and_eq_true, Bool.not_eq_true'] at hp
    have h1 := exprToNode_noNil x (level + 1) hp.2 hp.1
    simp [stmtToNode, ASTNode.noNil, noNilForest, h1]
  | .BranchStmt tok label, level, _, _ => by
    cases label <;> simp [stmtToNode, ASTNode.noNil, noNilForest]
  | .BadStmt, level, _, _ => by simp [stmtToNode, ASTNode.noNil, noNilForest]
  | .EmptyStmt, level, _, _ => by simp [stmtToNode, ASTNode.noNil, noNilForest]
  | .LabeledStmt _ _, level, _, _ => by simp [stmtToNode, ASTNode.noNil, noNilForest]
  | .SendStmt _ _, level, _, _ => by simp [stmtToNode, ASTNode.noNil, noNilForest]
  | .TypeSwitchStmt _ _ _, level, _, _ => by simp [stmtToNode, ASTNode.noNil, noNilForest]
  | .CommClause _ _, level, _, _ => by simp [stmtToNode, ASTNode.noNil, noNilForest]
  | .SelectStmt _, level, _, _ => by simp [stmtToNode, ASTNode.noNil, noNilForest]
theorem blockStmtToNode_noNil : ∀ (b : BlockStmt) (level : Int), b.partsPresent = true →
    (blockStmtToNode b level).noNil = true
  | .mk list, level, hp => by
    simp only [BlockStmt.partsPresent] at hp
    have h1 := blockLoop_noNil list (level + 1) hp
    simp [blockStmtToNode, ASTNode.noNil, h1]
theorem blockLoop_noNil : ∀ (list : List Stmt) (level : Int),
    Stmt.eachPartsPresent list = true →
    noNilForest (blockStmtToNode.loop list level) = true
  | [], level, _ => by simp [blockStmtToNode.loop, noNilForest]
  | child :: rest, level, hp => by
    simp only [Stmt.eachPartsPresent, Bool.and_eq_true] at hp
    have h1 := stmtToNode_noNil child level hp.1
    have h2 := blockLoop_noNil rest level hp.2
    simp only [blockStmtToNode.loop]
    split
    · rename_i hc
      rw [stmtToNode_isNil] at hc
      simp only [noNilForest, h2, Bool.and_true]
      exact h1 (by simpa using hc)
    · exact h2
theorem stmtEach_noNil : ∀ (list : List Stmt) (level : Int),
    Stmt.allPresent list = true → noNilForest (stmtToNode.each list level) = true
  | [], level, _ => by simp [stmtToNode.each, noNilForest]
  | s :: rest, level, hp => by
    simp only [Stmt.allPresent, Bool.and_eq_true, Bool.not_eq_true'] at hp
    have h1 := stmtToNode_noNil s level hp.1.2 hp.1.1
    have h2 := stmtEach_noNil rest level hp.2
    simp [stmtToNode.each, noNilForest, h1, h2]
theorem exprToNode_noNil : ∀ (e : Expr) (level : Int), e.partsPresent = true →
    e.isNil = false → (exprToNode e level).noNil = true
  | .nil, level, _, hn => by simp [Expr.isNil] at hn
  | .CallExpr c, level, hp, _ => by
    rw [exprToNode]
    exact callExprToNode_noNil c level (by simpa [Expr.partsPresent] using hp)
  | .BinaryExpr x op y, level, hp, _ => by
    simp only [Expr.partsPresent, Bool.and_eq_true, Bool.not_eq_true'] at hp
    have h1 := exprToNode_noNil x (level + 1) hp.1.2 hp.1.1
    have h2 := exprToNode_noNil y (level + 1) hp.2.2 hp.2.1
    simp [exprToNode, ASTNode.noNil, noNilForest, h1, h2]
  | .UnaryExpr op x, level, hp, _ => by
    simp only [Expr.partsPresent, Bool.and_eq_true, Bool.not_eq_true'] at hp
    have h1 := exprToNode_noNil x (level + 1) hp.2 hp.1
    simp [exprToNode, ASTNode.noNil, noNilForest, h1]
  | .SelectorExpr x sel, level, _, _ => by simp [exprToNode, ASTNode.noNil, noNilForest]
  | .IndexExpr x index, level, hp, _ => by
    simp only [Expr.partsPresent, Bool.and_eq_true, Bool.not_eq_true'] at hp
    have h1 := exprToNode_noNil x (level + 1) hp.1.2 hp.1.1
    have h2 := exprToNode_noNil index (level + 1) hp.2.2 hp.2.1
    simp [exprToNode, ASTNode.noNil, noNilForest, h1, h2]
  | .CompositeLit t elts, level, hp, _ => by
    simp only [Expr.partsPresent] at hp
    have h1 := exprEach_noNil elts (level + 1) hp
    simp [exprToNode, ASTNode.noNil, h1]
  | .FuncLit _ none, level, _, _ => by simp [exprToNode, ASTNode.noNil, noNilForest]
  | .FuncLit _ (some b), level, hp, _ => by
    simp only [Expr.partsPresent] at hp
    have h1 := blockStmtToNode_noNil b (level + 1) hp
    simp [exprToNode, ASTNode.noNil, noNilForest, h1]
  | .KeyValueExpr key value, level, hp, _ => by
    simp only [Expr.partsPresent, Bool.and_eq_true, Bool.not_eq_true'] at hp
    have h1 := exprToNode_noNil value (level + 1) hp.2 hp.1
    simp [exprToNode, ASTNode.noNil, noNilForest, h1]
  | .TypeAssertExpr x t, level, hp, _ => by
    simp only [Expr.partsPresent, Bool.and_eq_true, Bool.not_eq_true'] at hp
    have h1 := exprToNode_noNil x (level + 1) hp.2 hp.1
    have h2 := noNilForest_guard (!t.isNil)
      (.mk ("Type: " ++ exprToString t) [] (level + 1) false) (fun _ => noNil_leaf _ _ _)
    simp only [exprToNode, ASTNode.noNil]
    rw [noNilForest_append, h2]
    simp [noNilForest, h1]
  | .StarExpr x, level, hp, _ => by
    simp only [Expr.partsPresent, Bool.and_eq_true, Bool.not_eq_true'] at hp
    have h1 := exprToNode_noNil x (level + 1) hp.2 hp.1
    simp [exprToNode, ASTNode.noNil, noNilForest, h1]
  | .SliceExpr x low high _, level, hp, _ => by
    simp only [Expr.partsPresent, Bool.and_eq_true, Bool.not_eq_true'] at hp
    have h1 := exprToNode_noNil x (level + 1) hp.1.1.2 hp.1.1.1
    have h2 := noNilForest_guard (!low.isNil) (exprToNode low (level + 1))
      (fun h => exprToNode_noNil low (level + 1) hp.1.2 (by simpa using h))
    have h3 := noNilForest_guard (!high.isNil) (exprToNode high (level + 1))
      (fun h => exprToNode_noNil high (level + 1) hp.2 (by simpa using h))
    simp only [exprToNode, ASTNode.noNil]
    rw [noNilForest_append, noNilForest_append, h2, h3]
    simp [noNilForest, h1]
  | .BadExpr, level, _, _ => by simp [exprToNode, ASTNode.noNil, noNilForest]
  | .Ident _, level, _, _ => by simp [exprToNode, ASTNode.noNil, noNilForest]
  | .Ellipsis _, level, _, _ => by simp [exprToNode, ASTNode.noNil, noNilForest]
  | .BasicLit _, level, _, _ => by simp [exprToNode, ASTNode.noNil, noNilForest]
  | .ParenExpr _, level, _, _ => by simp [exprToNode, ASTNode.noNil, noNilForest]
  | .IndexListExpr _ _, level, _, _ => by simp [exprToNode, ASTNode.noNil, noNilForest]
  | .ArrayType _ _, level, _, _ => by simp [exprToNode, ASTNode.noNil, noNilForest]
  | .StructType _, level, _, _ => by simp [exprToNode, ASTNode.noNil, noNilForest]
  | .FuncType _, level, _, _ => by simp [exprToNode, ASTNode.noNil, noNilForest]
  | .InterfaceType _, level, _, _ => by simp [exprToNode, ASTNode.noNil, noNilForest]
  | .MapType _ _, level, _, _ => by simp [exprToNode, ASTNode.noNil, noNilForest]
  | .ChanType _ _, level, _, _ => by simp [exprToNode, ASTNode.noNil, noNilForest]
theorem callExprToNode_noNil : ∀ (c : CallExpr) (level : Int), c.partsPresent = true →
    (callExprToNode c level).noNil = true
  | .mk f args, level, hp => by
    simp only [CallExpr.partsPresent] at hp
    have h1 := exprEach_noNil args (level + 2) hp
    by_cases h : args.length > 0 <;>
      simp [callExprToNode, ASTNode.noNil, noNilForest, h, h1]
theorem exprEach_noNil : ∀ (es : List Expr) (level : Int),
    Expr.allPresent es = true → noNilForest (exprToNode.each es level) = true
  | [], level, _ => by simp [exprToNode.each, noNilForest]
  | e :: rest, level, hp => by
    simp only [Expr.allPresent, Bool.and_eq_true, Bool.not_eq_true'] at hp
    have h1 := exprToNode_noNil e level hp.1.2 hp.1.1
    have h2 := exprEach_noNil rest level hp.2
    simp [exprToNode.each, noNilForest, h1, h2]
theorem declToNode_noNil : ∀ (d : Decl) (level : Int), d.partsPresent = true →
    noNilForest (declToNode d level) = true
  | .GenDecl d, level, _ => by
    rw [declToNode]; exact genDeclToNode_noNil d level
  | .FuncDecl d, level, hp => by
    simp only [Decl.partsPresent] at hp
    have h1 := funcDeclToNode_noNil d level hp
    simp [declToNode, noNilForest, h1]
  | .BadDecl, level, _ => by simp [declToNode, ASTNode.noNil, noNilForest]
  | .nil, level, _ => by simp [declToNode, ASTNode.noNil, noNilForest]
theorem funcDeclToNode_noNil : ∀ (d : FuncDecl) (level : Int), d.partsPresent = true →
    (funcDeclToNode d level).noNil = true
  | .mk recv name (.mk params results) none, level, _ => by
    simp only [funcDeclToNode, ASTNode.noNil, noNilForest_append, Bool.and_eq_true]
    exact ⟨⟨fieldGroup_noNil "Params" params level, fieldGroup_noNil "Results" results level⟩,
      rfl⟩
  | .mk recv name (.mk params results) (some b), level, hp => by
    simp only [FuncDecl.partsPresent] at hp
    have hb := blockStmtToNode_noNil b (level + 1) hp
    simp only [funcDeclToNode, ASTNode.noNil, noNilForest_append, Bool.and_eq_true]
    exact ⟨⟨fieldGroup_noNil "Params" params level, fieldGroup_noNil "Results" results level⟩,
      by simp [noNilForest, hb]⟩
end

theorem astToNodes_noNil (f : File) (level : Int) (hp : f.partsPresent = true) :
    noNilForest (astToNodes (.File f) level) = true := by
  rw [noNilForest_iff]
  intro n hn
  simp only [astToNodes, List.mem_append, List.mem_flatMap] at hn
  rcases hn with hn | ⟨d, hd, hn⟩
  · split at hn
    · simp only [List.mem_append, List.mem_singleton] at hn
      rcases hn with hn | hn
      · subst hn; exact noNil_leaf _ _ _
      · subst hn
        simp only [ASTNode.noNil]
        rw [noNilForest_iff]
        intro c hc
        simp only [List.mem_map] at hc
        obtain ⟨imp, _, rfl⟩ := hc
        exact noNil_leaf _ _ _
    · simp only [List.mem_singleton] at hn
      subst hn; exact noNil_leaf _ _ _
  · have hd' : d.partsPresent = true := by
      simp only [File.partsPresent, List.all_eq_true] at hp
      exact hp d hd
    exact (noNilForest_iff _).1 (declToNode_noNil d level hd') n hn

theorem ParseTxtar_root_noNil (parseFile : String → String → Except String File)
    (file : TxtarFile)
    (hp : ∀ f : File, parseFile file.Name file.Data = .ok f → f.partsPresent = true) :
    (ParseTxtar.root parseFile file).noNil = true := by
  unfold ParseTxtar.root
  split
  · exact noNil_leaf _ _ _
  · rename_i f hf
    simp only [ASTNode.noNil]
    exact astToNodes_noNil f 2 (hp f hf)

theorem ParseTxtar_noNil (txtarParse : String → Archive)
    (parseFile : String → String → Except String File) (content : String)
    (nodes : List ASTNode)
    (hfiles : ∀ file : TxtarFile, file ∈ (txtarParse content).Files →
      ∀ f : File, parseFile file.Name file.Data = .ok f → f.partsPresent = true)
    (h : ParseTxtar txtarParse parseFile content = .ok nodes) :
    noNilForest nodes = true := by
  rw [ParseTxtar_eq] at h
  split at h
  · cases h
  · injection h with h
    subst h
    rw [noNilForest_iff]
    intro n hn
    simp only [List.mem_map] at hn
    obtain ⟨file, hfile, rfl⟩ := hn
    refine ParseTxtar_root_noNil parseFile file (hfiles file ?_)
    simp only [goFiles, List.mem_filter] at hfile
    exact hfile.1

/-- An expression statement without its expression gives a node with a nil
child, on which `FlattenNodes` dereferences nil. -/
theorem stmtToNode_missing_operand :
    (stmtToNode (.ExprStmt .nil) 1).Children = [.nil] ∧
    FlattenNodes [stmtToNode (.ExprStmt .nil) 1] = none := by
  decide

/-- C24. Let every mandatory part that the builder turns into a child node be
present in a statement, an expression and a function declaration, and in
every file the grammar parser returns for an entry of the archive.  Then no
node below the nodes that `stmtToNode`, `exprToNode` and `funcDeclToNode`
build has a nil entry in its `Children`; the forest that `ParseTxtar` returns
has no nil entry at any depth, so no node of it has a nil child; and
`FlattenNodes` and `buildListItems` return on this forest, without a nil
dereference. -/
theorem ParseTxtar_no_nil_child (s : Stmt) (e : Expr) (d : FuncDecl) (level : Int)
    (txtarParse : String → Archive) (parseFile : String → String → Except String File)
    (content : String) (nodes : List ASTNode)
    (hs : s.partsPresent = true) (he : e.partsPresent = true) (hd : d.partsPresent = true)
    (hfiles : ∀ file : TxtarFile, file ∈ (txtarParse content).Files →
      ∀ f : File, parseFile file.Name file.Data = .ok f → f.partsPresent = true)
    (h : ParseTxtar txtarParse parseFile content = .ok nodes) :
    noNilForest (stmtToNode s level).Children = true ∧
    noNilForest (exprToNode e level).Children = true ∧
    noNilForest (funcDeclToNode d level).Children = true ∧
    noNilForest nodes = true ∧
    (∀ q : Ptr, ∀ c : ASTNode, c ∈ (load nodes q).Children → c ≠ .nil) ∧
    FlattenNodes nodes = some (visibleForest nodes) ∧
    ∀ listItems : List ListItem, ∃ r1 : RightPanel,
      buildListItems { astNodes := nodes, listItems := listItems } = some r1 ∧
      r1.astNodes = nodes ∧ r1.listItems.length = (visibleForest nodes).length := by
  have hn := ParseTxtar_noNil txtarParse parseFile content nodes hfiles h
  have hflat := FlattenNodes_of_noNil nodes hn
  refine ⟨?_, ?_, noNilForest_children _ (funcDeclToNode_noNil d level hd), hn, ?_, hflat, ?_⟩
  · cases hnil : s.isNil with
    | true =>
      cases s with
      | nil => rfl
      | _ => simp [Stmt.isNil] at hnil
    | false => exact noNilForest_children _ (stmtToNode_noNil s level hs hnil)
  · cases hnil : e.isNil with
    | true =>
      cases e with
      | nil => rfl
      | _ => simp [Expr.isNil] at hnil
    | false => exact noNilForest_children _ (exprToNode_noNil e level he hnil)
  · intro q c hc
    exact noNil_ne_nil c
      ((noNilForest_iff _).1 (noNilForest_load_children q nodes hn) c hc)
  · intro listItems
    unfold buildListItems
    simp only [hflat]
    split
    · rename_i hempty
      simp only [List.isEmpty_iff] at hempty
      refine ⟨_, rfl, rfl, ?_⟩
      simp [hempty, visibleForest, visibleFrom]
    · refine ⟨_, rfl, rfl, ?_⟩
      have := (buildListItems_loop_getElem nodes (visibleForest nodes) 0 []).1
      simpa using this

theorem ParseTxtar_no_nil_child_witness :
    sampleAssign.partsPresent = true ∧ samplePrintln.partsPresent = true ∧
    greetDecl.partsPresent = true ∧ File.partsPresent sampleFile = true ∧
    ParseTxtar sampleFileTxtar sampleFileParser "" =
      .ok [ParseTxtar.root sampleFileParser ⟨"main.go", "default"⟩] ∧
    (noNilForest (stmtToNode sampleAssign 3).Children = true ∧
      noNilForest (exprToNode samplePrintln 3).Children = true ∧
      noNilForest (funcDeclToNode greetDecl 2).Children = true ∧
      noNilForest [ParseTxtar.root sampleFileParser ⟨"main.go", "default"⟩] = true ∧
      (∀ q : Ptr, ∀ c : ASTNode,
        c ∈ (load [ParseTxtar.root sampleFileParser ⟨"main.go", "default"⟩] q).Children →
          c ≠ .nil) ∧
      FlattenNodes [ParseTxtar.root sampleFileParser ⟨"main.go", "default"⟩] =
        some (visibleForest [ParseTxtar.root sampleFileParser ⟨"main.go", "default"⟩]) ∧
      ∀ listItems : List ListItem, ∃ r1 : RightPanel,
        buildListItems
            { astNodes := [ParseTxtar.root sampleFileParser ⟨"main.go", "default"⟩],
              listItems := listItems } = some r1 ∧
          r1.astNodes = [ParseTxtar.root sampleFileParser ⟨"main.go", "default"⟩] ∧
          r1.listItems.length =
            (visibleForest [ParseTxtar.root sampleFileParser ⟨"main.go", "default"⟩]).length) :=
  ⟨by decide, by decide, by decide, by decide, rfl,
    ParseTxtar_no_nil_child sampleAssign samplePrintln greetDecl 3
      sampleFileTxtar sampleFileParser "" _ (by decide) (by decide) (by decide)
      (by
        intro file hfile f hf
        simp only [sampleFileTxtar, List.mem_singleton] at hfile
        subst hfile
        simp only [sampleFileParser, if_true, Except.ok.injEq] at hf
        subst hf
        decide)
      rfl⟩

end GoAstViewer
